import Mathlib

/-! Concurrent.h: the lock-free list and the lock-free binary-tree map

A shallow embedding of `stdlib/runtime/Concurrent.h`.

* `ConcurrentMapNode` owns its two children, so a node is embedded as a tree value whose
  edges are `Option`s (`none` is `nullptr`).  A pointer to a linked node is the sequence of
  edges leading to it from the node the search started at; nodes are never unlinked or
  moved, so this sequence is a stable identity.
* `ConcurrentListNode`s are not owned by their predecessors in a way that the code relies
  on (iterators alias them), so the list is embedded over an explicit memory: the nodes
  created by `new` in allocation order, a pointer being an index into it.
* `std::atomic_compare_exchange_weak_explicit` may fail although the compared values are
  equal.  Sequential operations take the number of such spurious failures as an argument;
  the interleaving semantics take one flag per scheduled step.
* Memory orders are not modelled: every atomic access is one indivisible step.
-/

/-! ## Data model of the map -/

/-- A node of the tree: `Payload`, the two atomic edges `Left` and `Right`, and `Key`. -/
inductive ConcurrentMapNode (KeyTy ValueTy : Type) where
  | mk (Payload : ValueTy) (Left Right : Option (ConcurrentMapNode KeyTy ValueTy))
      (Key : KeyTy)

/-- Selects one of the two edges of a node (`&P->Left` or `&P->Right`). -/
inductive EdgeSel where
  | Left
  | Right
deriving DecidableEq

/-- A reference to the `Payload` of a linked node: the edges to follow from the root. -/
abbrev SlotRef := List EdgeSel

namespace ConcurrentMapNode

variable {KeyTy ValueTy : Type}

/-- Field `Payload`. -/
def Payload : ConcurrentMapNode KeyTy ValueTy → ValueTy
  | mk p _ _ _ => p

/-- Field `Key`. -/
def Key : ConcurrentMapNode KeyTy ValueTy → KeyTy
  | mk _ _ _ k => k

/-- The value of `Edge->load(...)` for the selected edge. -/
def edge : ConcurrentMapNode KeyTy ValueTy → EdgeSel → Option (ConcurrentMapNode KeyTy ValueTy)
  | mk _ l _ _, EdgeSel.Left => l
  | mk _ _ r _, EdgeSel.Right => r

/-- The node after a store of `c` into the selected edge. -/
def setEdge : ConcurrentMapNode KeyTy ValueTy → EdgeSel →
    Option (ConcurrentMapNode KeyTy ValueTy) → ConcurrentMapNode KeyTy ValueTy
  | mk p _ r k, EdgeSel.Left, c => mk p c r k
  | mk p l _ k, EdgeSel.Right, c => mk p l c k

/-- The node after a store of `v` into its `Payload`. -/
def setPayload : ConcurrentMapNode KeyTy ValueTy → ValueTy → ConcurrentMapNode KeyTy ValueTy
  | mk _ l r k, v => mk v l r k

/-- Constructor `ConcurrentMapNode(KeyTy H) : Payload(), Left(nullptr), Right(nullptr), Key(H)`. -/
def new [Inhabited ValueTy] (H : KeyTy) : ConcurrentMapNode KeyTy ValueTy :=
  mk default none none H

/-- The node a pointer designates: follow the edges of `ref` from `P`. -/
def nodeAt : ConcurrentMapNode KeyTy ValueTy → SlotRef → Option (ConcurrentMapNode KeyTy ValueTy)
  | P, [] => some P
  | P, e :: ref =>
    match P.edge e with
    | none => none
    | some c => nodeAt c ref

/-- Read through a reference to a value slot. -/
def payloadAt (P : ConcurrentMapNode KeyTy ValueTy) (ref : SlotRef) : Option ValueTy :=
  (P.nodeAt ref).map Payload

/-- Write `v` through a reference to a value slot (nothing happens when `ref` designates no node). -/
def storeAt : ConcurrentMapNode KeyTy ValueTy → SlotRef → ValueTy → ConcurrentMapNode KeyTy ValueTy
  | P, [], v => P.setPayload v
  | P, e :: ref, v =>
    match P.edge e with
    | none => P
    | some c => P.setEdge e (some (storeAt c ref v))

/-- The keys stored in the subtree of a node, the node included (lower keys first). -/
def keys : ConcurrentMapNode KeyTy ValueTy → List KeyTy
  | mk _ l r k =>
    (match l with
      | none => []
      | some c => keys c) ++ k ::
    (match r with
      | none => []
      | some c => keys c)

/-- The keys stored below an edge (none for `nullptr`). -/
def edgeKeys : Option (ConcurrentMapNode KeyTy ValueTy) → List KeyTy
  | none => []
  | some c => c.keys

/-- Destructor `~ConcurrentMapNode() { delete Left; delete Right; }`.  The result lists the
nodes in the order in which their destruction completes, each named by its pointer relative
to the node being destroyed (`delete nullptr` does nothing). -/
def destroy : ConcurrentMapNode KeyTy ValueTy → List SlotRef
  | mk _ l r _ =>
    ((match l with
      | none => []
      | some c => (destroy c).map (List.cons EdgeSel.Left)) ++
    (match r with
      | none => []
      | some c => (destroy c).map (List.cons EdgeSel.Right))) ++ [[]]

end ConcurrentMapNode

/-- What one call of `findOrAllocateNode_rec(P, Key)` leaves behind: the node `P` with its
subtree after the call, the returned reference (relative to `P`), and how many nodes the call
created with `new` and released with `delete New`. -/
structure FindResult (KeyTy ValueTy : Type) where
  P : ConcurrentMapNode KeyTy ValueTy
  Slot : SlotRef
  Allocated : Nat
  Freed : Nat

/-- Lines 163-170: `P->Key > Key` selects `Left`, anything else `Right`. -/
def selectEdge {KeyTy ValueTy : Type} [LinearOrder KeyTy]
    (P : ConcurrentMapNode KeyTy ValueTy) (Key : KeyTy) : EdgeSel :=
  if P.Key > Key then EdgeSel.Left else EdgeSel.Right

/-- `ConcurrentMap::findOrAllocateNode_rec` run with no other thread.  `spurious` is the
number of times the weak compare-exchange fails although the edge still holds the expected
`nullptr`; each such failure deletes `New` and searches again from the same `P`. -/
def findOrAllocateNode_rec {KeyTy ValueTy : Type} [LinearOrder KeyTy] [Inhabited ValueTy]
    (P : ConcurrentMapNode KeyTy ValueTy) (Key : KeyTy) (spurious : Nat) :
    FindResult KeyTy ValueTy :=
  if P.Key = Key then ⟨P, [], 0, 0⟩
  else
    let Edge := selectEdge P Key
    match _h : P.edge Edge with
    | some CurrentVal =>
      let res := findOrAllocateNode_rec CurrentVal Key spurious
      ⟨P.setEdge Edge (some res.P), Edge :: res.Slot, res.Allocated, res.Freed⟩
    | none =>
      match spurious with
      | 0 => ⟨P.setEdge Edge (some (ConcurrentMapNode.new Key)), [Edge], 1, 0⟩
      | s + 1 =>
        let res := findOrAllocateNode_rec P Key s
        ⟨res.P, res.Slot, res.Allocated + 1, res.Freed + 1⟩
termination_by (sizeOf P, spurious)
decreasing_by
  · have smaller : ∀ e : EdgeSel, P.edge e = some CurrentVal → sizeOf CurrentVal < sizeOf P := by
      intro e he
      cases P with
      | mk p l r k =>
        cases e <;> simp [ConcurrentMapNode.edge] at he <;> subst he <;> simp <;> omega
    exact Prod.Lex.left _ _ (smaller _ _h)
  · exact Prod.Lex.right _ (Nat.lt_succ_self s)

/-- The map: its only member is the `Sentinel` root node. -/
structure ConcurrentMap (KeyTy ValueTy : Type) where
  Sentinel : ConcurrentMapNode KeyTy ValueTy

/-- Constructor `ConcurrentMap() : Sentinel(0)`. -/
def ConcurrentMap.new (KeyTy ValueTy : Type) [Zero KeyTy] [Inhabited ValueTy] :
    ConcurrentMap KeyTy ValueTy :=
  ⟨ConcurrentMapNode.new 0⟩

namespace ConcurrentMap

variable {KeyTy ValueTy : Type}

/-- `findOrAllocateNode(Key)`: `findOrAllocateNode_rec(&Sentinel, Key)`. -/
def findOrAllocateNode [LinearOrder KeyTy] [Inhabited ValueTy]
    (M : ConcurrentMap KeyTy ValueTy) (Key : KeyTy) (spurious : Nat) :
    FindResult KeyTy ValueTy :=
  findOrAllocateNode_rec M.Sentinel Key spurious

/-- The map after a call of `findOrAllocateNode`. -/
def afterCall [LinearOrder KeyTy] [Inhabited ValueTy]
    (M : ConcurrentMap KeyTy ValueTy) (call : KeyTy × Nat) : ConcurrentMap KeyTy ValueTy :=
  ⟨(M.findOrAllocateNode call.1 call.2).P⟩

/-- The map after a sequence of calls of `findOrAllocateNode`, each given as the key and
the number of spurious compare-exchange failures it meets. -/
def afterCalls [LinearOrder KeyTy] [Inhabited ValueTy]
    (M : ConcurrentMap KeyTy ValueTy) (calls : List (KeyTy × Nat)) :
    ConcurrentMap KeyTy ValueTy :=
  calls.foldl afterCall M

/-- The map after the caller stores `v` through a reference it was given. -/
def store (M : ConcurrentMap KeyTy ValueTy) (ref : SlotRef) (v : ValueTy) :
    ConcurrentMap KeyTy ValueTy :=
  ⟨M.Sentinel.storeAt ref v⟩

/-- The map after this use by one thread: a call for `k`, the calls `between1`, a store of
`v` through the reference the call for `k` returned, the calls `between2`. -/
def afterUse [LinearOrder KeyTy] [Inhabited ValueTy] (M : ConcurrentMap KeyTy ValueTy)
    (k : KeyTy) (s : Nat) (between1 : List (KeyTy × Nat)) (v : ValueTy)
    (between2 : List (KeyTy × Nat)) : ConcurrentMap KeyTy ValueTy :=
  (((M.afterCall (k, s)).afterCalls between1).store
    (M.findOrAllocateNode k s).Slot v).afterCalls between2

/-- The keys of the nodes other than the sentinel. -/
def insertedKeys (M : ConcurrentMap KeyTy ValueTy) : List KeyTy :=
  ConcurrentMapNode.edgeKeys (M.Sentinel.edge EdgeSel.Left) ++
    ConcurrentMapNode.edgeKeys (M.Sentinel.edge EdgeSel.Right)

/-- Destruction of the map destroys its member `Sentinel`. -/
def destroy (M : ConcurrentMap KeyTy ValueTy) : List SlotRef :=
  M.Sentinel.destroy

end ConcurrentMap

/-! ## Predicates and reference functions the map claims are stated with -/

/-- The search for `Key` started at `P` ends on the node at `ref`, which holds `Key`. -/
inductive FoundAt {KeyTy ValueTy : Type} [LinearOrder KeyTy] :
    ConcurrentMapNode KeyTy ValueTy → KeyTy → SlotRef → Prop where
  | here (P : ConcurrentMapNode KeyTy ValueTy) (Key : KeyTy) :
      P.Key = Key → FoundAt P Key []
  | under (P c : ConcurrentMapNode KeyTy ValueTy) (Key : KeyTy) (ref : SlotRef) :
      P.Key ≠ Key → P.edge (selectEdge P Key) = some c → FoundAt c Key ref →
      FoundAt P Key (selectEdge P Key :: ref)

/-- The search for `Key` started at `P` passes through the node at `ref`. -/
inductive OnPath {KeyTy ValueTy : Type} [LinearOrder KeyTy] :
    ConcurrentMapNode KeyTy ValueTy → KeyTy → SlotRef → Prop where
  | start (P : ConcurrentMapNode KeyTy ValueTy) (Key : KeyTy) : OnPath P Key []
  | follow (P c : ConcurrentMapNode KeyTy ValueTy) (Key : KeyTy) (ref : SlotRef) :
      P.Key ≠ Key → P.edge (selectEdge P Key) = some c → OnPath c Key ref →
      OnPath P Key (selectEdge P Key :: ref)

/-- On which side of `key` the keys below edge `e` have to lie. -/
def EdgeSel.side {KeyTy : Type} [LT KeyTy] (e : EdgeSel) (x key : KeyTy) : Prop :=
  match e with
  | EdgeSel.Left => x < key
  | EdgeSel.Right => key < x

namespace ConcurrentMapNode

variable {KeyTy ValueTy : Type}

/-- The search-tree ordering at one node: the keys below `Left` are smaller than the key of
the node, the keys below `Right` are greater. -/
def Ordered [LT KeyTy] (n : ConcurrentMapNode KeyTy ValueTy) : Prop :=
  (∀ x ∈ edgeKeys (n.edge EdgeSel.Left), x < n.Key) ∧
    (∀ x ∈ edgeKeys (n.edge EdgeSel.Right), n.Key < x)

/-- The search-tree ordering at every node reachable from `P`, `P` included. -/
def SearchTree [LT KeyTy] (P : ConcurrentMapNode KeyTy ValueTy) : Prop :=
  ∀ (ref : SlotRef) (n : ConcurrentMapNode KeyTy ValueTy), P.nodeAt ref = some n → n.Ordered

/-- Reference insertion into an unbalanced search tree, written from the description:
equal, stop; less than the key of the node, lower edge; otherwise higher edge; an empty
edge receives a leaf. -/
def referenceInsert [LinearOrder KeyTy] [Inhabited ValueTy] :
    ConcurrentMapNode KeyTy ValueTy → KeyTy → ConcurrentMapNode KeyTy ValueTy
  | mk p l r k, key =>
    if key = k then mk p l r k
    else if key < k then
      mk p (match l with
        | none => some (new key)
        | some c => some (referenceInsert c key)) r k
    else
      mk p l (match r with
        | none => some (new key)
        | some c => some (referenceInsert c key)) k

/-- The part of the destruction log contributed by `delete` on one edge. -/
def edgeDestroy (e : EdgeSel) : Option (ConcurrentMapNode KeyTy ValueTy) → List SlotRef
  | none => []
  | some c => c.destroy.map (List.cons e)

/-- The tree after the node at `ref` had `c` stored into its edge `e` (a successful
compare-exchange on that edge). -/
def linkAt : ConcurrentMapNode KeyTy ValueTy → SlotRef → EdgeSel →
    ConcurrentMapNode KeyTy ValueTy → ConcurrentMapNode KeyTy ValueTy
  | P, [], e, c => P.setEdge e (some c)
  | P, e0 :: ref, e, c =>
    match P.edge e0 with
    | none => P
    | some child => P.setEdge e0 (some (linkAt child ref e c))

end ConcurrentMapNode

/-! ## Interleaving semantics of `findOrAllocateNode`

Several threads run `findOrAllocateNode(Key)` for one and the same `Key`.  A step of a
thread contains at most one access to an atomic edge. -/

/-- Where a thread stands inside `findOrAllocateNode_rec(P, Key)`; `P` is a pointer to a
linked node. -/
inductive FindState where
  /-- About to execute the body for `P` (lines 159-178). -/
  | search (P : SlotRef)
  /-- The selected edge of `P` was loaded as `nullptr`; about to execute `new` (line 181). -/
  | allocate (P : SlotRef)
  /-- `New` exists; about to execute the compare-exchange on the edge of `P` (line 185). -/
  | exchange (P : SlotRef)
  /-- The call has returned the reference `Slot`. -/
  | returned (Slot : SlotRef)
deriving DecidableEq

/-- The shared tree, the threads, and the counters of `new` and of `delete New`. -/
structure FindSystem (KeyTy ValueTy : Type) where
  Sentinel : ConcurrentMapNode KeyTy ValueTy
  threads : List FindState
  Allocated : Nat
  Freed : Nat

namespace FindSystem

variable {KeyTy ValueTy : Type}

/-- `T` threads have just called `findOrAllocateNode(Key)` on the map with root `Sentinel`. -/
def start (Sentinel : ConcurrentMapNode KeyTy ValueTy) (T : Nat) : FindSystem KeyTy ValueTy :=
  ⟨Sentinel, List.replicate T (FindState.search []), 0, 0⟩

/-- Whether a thread holds a node it created and has not yet published or deleted. -/
def holdsNew : FindState → Bool
  | FindState.exchange _ => true
  | _ => false

/-- One step of thread `move.1`; `move.2` makes a compare-exchange of this step fail although
the edge holds the expected `nullptr`.  A step holds at most one access to an atomic edge:
the comparisons with `P->Key` (never written after construction) go with the load of the
edge, and `delete New` (a node no other thread has seen) goes with the failed exchange. -/
def step [LinearOrder KeyTy] [Inhabited ValueTy] (Key : KeyTy)
    (sys : FindSystem KeyTy ValueTy) (move : Nat × Bool) : FindSystem KeyTy ValueTy :=
  match sys.threads[move.1]? with
  | none => sys
  | some (FindState.search P) =>
    match sys.Sentinel.nodeAt P with
    | none => sys
    | some n =>
      if n.Key = Key then
        { sys with threads := sys.threads.set move.1 (FindState.returned P) }
      else
        match n.edge (selectEdge n Key) with
        | some _ =>
          { sys with threads := sys.threads.set move.1 (FindState.search (P ++ [selectEdge n Key])) }
        | none => { sys with threads := sys.threads.set move.1 (FindState.allocate P) }
  | some (FindState.allocate P) =>
    { sys with
      threads := sys.threads.set move.1 (FindState.exchange P)
      Allocated := sys.Allocated + 1 }
  | some (FindState.exchange P) =>
    match sys.Sentinel.nodeAt P with
    | none => sys
    | some n =>
      match n.edge (selectEdge n Key), move.2 with
      | none, false =>
        { sys with
          Sentinel := sys.Sentinel.linkAt P (selectEdge n Key) (ConcurrentMapNode.new Key)
          threads := sys.threads.set move.1 (FindState.returned (P ++ [selectEdge n Key])) }
      | _, _ =>
        { sys with
          threads := sys.threads.set move.1 (FindState.search P)
          Freed := sys.Freed + 1 }
  | some (FindState.returned _) => sys

/-- The system after the steps of a schedule. -/
def run [LinearOrder KeyTy] [Inhabited ValueTy] (Key : KeyTy)
    (sys : FindSystem KeyTy ValueTy) (schedule : List (Nat × Bool)) : FindSystem KeyTy ValueTy :=
  schedule.foldl (step Key) sys

/-- Every thread has returned. -/
def allReturned (sys : FindSystem KeyTy ValueTy) : Prop :=
  ∀ t ∈ sys.threads, ∃ Slot, t = FindState.returned Slot

/-- What the invariant says about one thread: its `P` lies on the search path for `Key`; if
it has loaded an empty edge from `P`, the node at `P` does not hold `Key`; if it has
returned, the search for `Key` ends on the node whose slot it returned. -/
def threadOk [LinearOrder KeyTy] (root : ConcurrentMapNode KeyTy ValueTy) (Key : KeyTy) :
    FindState → Prop
  | FindState.search P => OnPath root Key P
  | FindState.allocate P => OnPath root Key P ∧ ∃ n, root.nodeAt P = some n ∧ n.Key ≠ Key
  | FindState.exchange P => OnPath root Key P ∧ ∃ n, root.nodeAt P = some n ∧ n.Key ≠ Key
  | FindState.returned Slot => FoundAt root Key Slot

/-- The invariant of the interleaving semantics of `findOrAllocateNode`, for threads started
on the tree `init`: every thread is in order, and either the tree is still `init` and every
node created so far was deleted or is held by a thread, or the tree is the one a single
sequential call would have produced and the nodes created, deleted and held account for the
node that call links. -/
structure Inv [LinearOrder KeyTy] [Inhabited ValueTy] (Key : KeyTy)
    (init : ConcurrentMapNode KeyTy ValueTy) (sys : FindSystem KeyTy ValueTy) : Prop where
  threadsOk : ∀ t ∈ sys.threads, threadOk sys.Sentinel Key t
  shape :
    (sys.Sentinel = init ∧ sys.Allocated = sys.Freed + sys.threads.countP holdsNew) ∨
    (sys.Sentinel = (findOrAllocateNode_rec init Key 0).P ∧
      sys.Allocated = sys.Freed + sys.threads.countP holdsNew +
        (findOrAllocateNode_rec init Key 0).Allocated)

end FindSystem

/-! ## Data model of the list -/

/-- A link of the list: `Payload` and `Next`.  A pointer is an index into the memory,
`none` is `nullptr`. -/
structure ConcurrentListNode (ElemTy : Type) where
  Payload : ElemTy
  Next : Option Nat

/-- The list: the atomic `First`, together with the memory `Mem` holding the nodes created
by `new ConcurrentListNode`, in allocation order. -/
structure ConcurrentList (ElemTy : Type) where
  Mem : List (ConcurrentListNode ElemTy)
  First : Option Nat

/-- A list iterator: `Ptr` points to the current link. -/
structure ConcurrentListIterator where
  Ptr : Option Nat
deriving DecidableEq

/-- The memory after the store `N->Next = v`. -/
def ConcurrentListNode.setNext {ElemTy : Type} (Mem : List (ConcurrentListNode ElemTy))
    (N : Nat) (v : Option Nat) : List (ConcurrentListNode ElemTy) :=
  match Mem[N]? with
  | none => Mem
  | some n => Mem.set N { n with Next := v }

/-- The value read by `N->Next` (no value when `N` is not the address of a node). -/
def ConcurrentListNode.getNext {ElemTy : Type} (Mem : List (ConcurrentListNode ElemTy))
    (N : Nat) : Option (Option Nat) :=
  (Mem[N]?).map ConcurrentListNode.Next

/-- `std::atomic_compare_exchange_weak_explicit(&obj, &expected, desired, ...)` on a pointer:
the result is the success flag, the new value of `obj` and the new value of `expected`.
With `spurious` the exchange fails even if `obj` equals `expected`. -/
def compare_exchange_weak (obj expected desired : Option Nat) (spurious : Bool) :
    Bool × Option Nat × Option Nat :=
  if obj = expected ∧ spurious = false then (true, desired, expected) else (false, obj, obj)

namespace ConcurrentListIterator

/-- `operator++`: `Ptr = Ptr->Next` (no result when `Ptr` does not point to a node). -/
def next {ElemTy : Type} (Mem : List (ConcurrentListNode ElemTy))
    (it : ConcurrentListIterator) : Option ConcurrentListIterator :=
  match it.Ptr with
  | none => none
  | some p => (Mem[p]?).map (fun n => ⟨n.Next⟩)

/-- `operator*`: `Ptr->Payload`. -/
def deref {ElemTy : Type} (Mem : List (ConcurrentListNode ElemTy))
    (it : ConcurrentListIterator) : Option ElemTy :=
  match it.Ptr with
  | none => none
  | some p => (Mem[p]?).map ConcurrentListNode.Payload

end ConcurrentListIterator

/-- Constructor `ConcurrentList() : First(nullptr)`, with nothing allocated yet. -/
def ConcurrentList.new (ElemTy : Type) : ConcurrentList ElemTy :=
  ⟨[], none⟩

namespace ConcurrentList

variable {ElemTy : Type}

/-- `begin()`: an iterator at the value loaded from `First`. -/
def begin (L : ConcurrentList ElemTy) : ConcurrentListIterator :=
  ⟨L.First⟩

/-- `end()`: the iterator at `nullptr`. -/
def end_ : ConcurrentListIterator :=
  ⟨none⟩

/-- The loop `for (it = start; it != end(); ++it)`, collecting for every position the address
`it.Ptr` and the element `*it`.  No result when more than `fuel` links are met or when a
pointer that is not the address of a node is followed. -/
def iterate (Mem : List (ConcurrentListNode ElemTy)) :
    Nat → ConcurrentListIterator → Option (List (Nat × ElemTy))
  | fuel, it =>
    if it = end_ then some []
    else
      match fuel with
      | 0 => none
      | fuel + 1 =>
        match it.Ptr, it.deref Mem, it.next Mem with
        | some p, some x, some it2 => (iterate Mem fuel it2).map (List.cons (p, x))
        | _, _, _ => none

/-- The elements met by an iteration from `it` to `end()`. -/
def elementsFrom (Mem : List (ConcurrentListNode ElemTy)) (fuel : Nat)
    (it : ConcurrentListIterator) : Option (List ElemTy) :=
  (iterate Mem fuel it).map (List.map Prod.snd)

/-- The loop `while (!compare_exchange_weak(&First, &OldFirst, N)) N->Next = OldFirst;` of
`push_front`, run with no other thread.  `attempts` holds one flag per executed exchange,
telling whether that exchange fails spuriously; there is no result when the flags run out
before an exchange succeeds. -/
def push_front_loop (N : Nat) :
    List Bool → ConcurrentList ElemTy → Option Nat → Option (ConcurrentList ElemTy)
  | [], _, _ => none
  | spurious :: attempts, L, OldFirst =>
    match compare_exchange_weak L.First OldFirst (some N) spurious with
    | (true, First2, _) => some { L with First := First2 }
    | (false, First2, OldFirst2) =>
      push_front_loop N attempts
        { Mem := ConcurrentListNode.setNext L.Mem N OldFirst2, First := First2 } OldFirst2

/-- `push_front(Elem)` run with no other thread; the exchange fails spuriously `spurious`
times and is then left alone. -/
def push_front (L : ConcurrentList ElemTy) (Elem : ElemTy) (spurious : Nat) :
    Option (ConcurrentList ElemTy) :=
  let N := L.Mem.length
  let Mem1 := L.Mem ++ [⟨Elem, none⟩]
  let Mem2 := ConcurrentListNode.setNext Mem1 N L.First
  match ConcurrentListNode.getNext Mem2 N with
  | none => none
  | some OldFirst =>
    push_front_loop N (List.replicate spurious true ++ [false]) ⟨Mem2, L.First⟩ OldFirst

/-- A sequence of `push_front` calls, each given as the element and the number of spurious
exchange failures it meets. -/
def push_front_all : ConcurrentList ElemTy → List (ElemTy × Nat) → Option (ConcurrentList ElemTy)
  | L, [] => some L
  | L, call :: calls =>
    match L.push_front call.1 call.2 with
    | none => none
    | some L2 => push_front_all L2 calls

end ConcurrentList

/-- The chain of links that starts at pointer `p`: the addresses and payloads of the nodes
met by following `Next` up to `nullptr`. -/
inductive LinkChain {ElemTy : Type} (Mem : List (ConcurrentListNode ElemTy)) :
    Option Nat → List (Nat × ElemTy) → Prop where
  | null : LinkChain Mem none []
  | link (a : Nat) (n : ConcurrentListNode ElemTy) (rest : List (Nat × ElemTy)) :
      Mem[a]? = some n → LinkChain Mem n.Next rest → LinkChain Mem (some a) ((a, n.Payload) :: rest)

/-! ## Interleaving semantics of `push_front` -/

/-- Where a thread stands inside `push_front`. -/
inductive PushState where
  /-- Outside of `push_front`. -/
  | idle
  /-- The node `N` exists (line 90); about to load `First` (lines 92-93). -/
  | allocated (N : Nat)
  /-- About to execute the compare-exchange of line 95 with the local `OldFirst`. -/
  | exchange (N : Nat) (OldFirst : Option Nat)
deriving DecidableEq

/-- A thread: the elements it still has to push, and where it stands. -/
structure PushThread (ElemTy : Type) where
  todo : List ElemTy
  pc : PushState

/-- The shared list and the threads working on it. -/
structure PushSystem (ElemTy : Type) where
  L : ConcurrentList ElemTy
  threads : List (PushThread ElemTy)

namespace PushSystem

variable {ElemTy : Type}

/-- The threads are about to push the elements of `work`, one list per thread, onto `L`. -/
def start (L : ConcurrentList ElemTy) (work : List (List ElemTy)) : PushSystem ElemTy :=
  ⟨L, work.map (fun todo => ⟨todo, PushState.idle⟩)⟩

/-- One step of thread `move.1`; `move.2` makes a compare-exchange of this step fail
although `First` equals `OldFirst`.  A step holds at most one access to the atomic `First`:
the stores into `N->Next` (a node no other thread has seen) go with the load of `First` and
with the failed exchange that precede them. -/
def step (sys : PushSystem ElemTy) (move : Nat × Bool) : PushSystem ElemTy :=
  match sys.threads[move.1]? with
  | none => sys
  | some t =>
    match t.pc with
    | PushState.idle =>
      match t.todo with
      | [] => sys
      | Elem :: todo =>
        { L := { sys.L with Mem := sys.L.Mem ++ [⟨Elem, none⟩] }
          threads := sys.threads.set move.1 ⟨todo, PushState.allocated sys.L.Mem.length⟩ }
    | PushState.allocated N =>
      let Mem2 := ConcurrentListNode.setNext sys.L.Mem N sys.L.First
      match ConcurrentListNode.getNext Mem2 N with
      | none => sys
      | some OldFirst =>
        { L := { sys.L with Mem := Mem2 }
          threads := sys.threads.set move.1 { t with pc := PushState.exchange N OldFirst } }
    | PushState.exchange N OldFirst =>
      match compare_exchange_weak sys.L.First OldFirst (some N) move.2 with
      | (true, First2, _) =>
        { L := { sys.L with First := First2 }
          threads := sys.threads.set move.1 { t with pc := PushState.idle } }
      | (false, First2, OldFirst2) =>
        { L := { Mem := ConcurrentListNode.setNext sys.L.Mem N OldFirst2, First := First2 }
          threads := sys.threads.set move.1 { t with pc := PushState.exchange N OldFirst2 } }

/-- The system after the steps of a schedule. -/
def run (sys : PushSystem ElemTy) (schedule : List (Nat × Bool)) : PushSystem ElemTy :=
  schedule.foldl step sys

/-- Every `push_front` call has completed. -/
def allDone (sys : PushSystem ElemTy) : Prop :=
  ∀ t ∈ sys.threads, t.todo = [] ∧ t.pc = PushState.idle

/-- The node a thread has created and not yet linked. -/
def owned (t : PushThread ElemTy) : Option Nat :=
  match t.pc with
  | PushState.idle => none
  | PushState.allocated N => some N
  | PushState.exchange N _ => some N

/-- The elements a thread has not yet linked: the payload of the node it holds, and the
elements it still has to push. -/
def pending (Mem : List (ConcurrentListNode ElemTy)) (t : PushThread ElemTy) : List ElemTy :=
  ((owned t).bind (fun N => (Mem[N]?).map ConcurrentListNode.Payload)).toList ++ t.todo

/-- The invariant of the interleaving semantics of `push_front`: `chain` is the chain that
starts at `First`; it has no node twice; the nodes held by the threads are allocated, are not
on the chain, and differ from thread to thread; a thread about to exchange has stored its
`OldFirst` in the `Next` of its node; and the elements on the chain together with the
elements not yet linked are the elements `total` the system started with. -/
structure Inv (sys : PushSystem ElemTy) (chain : List (Nat × ElemTy)) (total : List ElemTy) :
    Prop where
  chained : LinkChain sys.L.Mem sys.L.First chain
  chainNodup : (chain.map Prod.fst).Nodup
  ownedValid : ∀ t ∈ sys.threads, ∀ N, owned t = some N →
    N < sys.L.Mem.length ∧ N ∉ chain.map Prod.fst
  nextSet : ∀ t ∈ sys.threads, ∀ N OldFirst, t.pc = PushState.exchange N OldFirst →
    ∃ n, sys.L.Mem[N]? = some n ∧ n.Next = OldFirst
  ownedNodup : (sys.threads.filterMap owned).Nodup
  account : (chain.map Prod.snd ++ sys.threads.flatMap (pending sys.L.Mem)).Perm total

end PushSystem

/-! ## Destruction of the list -/

namespace ConcurrentList

variable {ElemTy : Type}

/-- The loop of `~ConcurrentList()`: `while (Ptr) { auto N = Ptr->Next; delete Ptr; Ptr = N; }`.
The result lists the addresses passed to `delete`, in order.  No result when more than `fuel`
links are met or when `Ptr` is not the address of a node. -/
def destroy_loop (Mem : List (ConcurrentListNode ElemTy)) : Nat → Option Nat → Option (List Nat)
  | _, none => some []
  | 0, some _ => none
  | fuel + 1, some Ptr =>
    match ConcurrentListNode.getNext Mem Ptr with
    | none => none
    | some N => (destroy_loop Mem fuel N).map (List.cons Ptr)

/-- Destructor `~ConcurrentList()`: the loop started at the value loaded from `First`. -/
def destroy (L : ConcurrentList ElemTy) (fuel : Nat) : Option (List Nat) :=
  destroy_loop L.Mem fuel L.First

end ConcurrentList

/-! ## The recursion of `findOrAllocateNode_rec` and degenerate trees -/

namespace ConcurrentMapNode

variable {KeyTy ValueTy : Type}

/-- The number of nodes on the longest chain of edges that starts at a node: the depth of
the tree that remains below and including it. -/
def height : ConcurrentMapNode KeyTy ValueTy → Nat
  | mk _ l r _ =>
    1 + max (match l with
      | none => 0
      | some c => height c)
    (match r with
      | none => 0
      | some c => height c)

end ConcurrentMapNode

/-- The pointers `P` with which `findOrAllocateNode_rec(P, Key)` is entered in the course of
one call run with no other thread, in order of entry and relative to the first `P`: the
function re-enters itself on the child at line 178 and on the same `P` at line 196. -/
def findOrAllocateNode_rec_entries {KeyTy ValueTy : Type} [LinearOrder KeyTy]
    (P : ConcurrentMapNode KeyTy ValueTy) (Key : KeyTy) (spurious : Nat) : List SlotRef :=
  if P.Key = Key then [[]]
  else
    let Edge := selectEdge P Key
    match _h : P.edge Edge with
    | some CurrentVal =>
      [] :: (findOrAllocateNode_rec_entries CurrentVal Key spurious).map (List.cons Edge)
    | none =>
      match spurious with
      | 0 => [[]]
      | s + 1 => [] :: findOrAllocateNode_rec_entries P Key s
termination_by (sizeOf P, spurious)
decreasing_by
  · have smaller : ∀ e : EdgeSel, P.edge e = some CurrentVal → sizeOf CurrentVal < sizeOf P := by
      intro e he
      cases P with
      | mk p l r k =>
        cases e <;> simp [ConcurrentMapNode.edge] at he <;> subst he <;> simp <;> omega
    exact Prod.Lex.left _ _ (smaller _ _h)
  · exact Prod.Lex.right _ (Nat.lt_succ_self s)

/-- The remaining depth below the node at `ref`, none when there is no such node. -/
def remainingDepth {KeyTy ValueTy : Type} (root : ConcurrentMapNode KeyTy ValueTy)
    (ref : SlotRef) : Option Nat :=
  (root.nodeAt ref).map ConcurrentMapNode.height

/-- The degenerate tree whose nodes hold `k` and then the keys of `keys`, each on the `Right`
edge of the one before, all `Left` edges empty and all payloads default-constructed. -/
def ConcurrentMapNode.rightSpine {KeyTy ValueTy : Type} [Inhabited ValueTy] :
    KeyTy → List KeyTy → ConcurrentMapNode KeyTy ValueTy
  | k, [] => ConcurrentMapNode.mk default none none k
  | k, k2 :: keys => ConcurrentMapNode.mk default none (some (rightSpine k2 keys)) k

/-! ## Counting the exchanges of one `push_front` call -/

/-- The system reached from the empty list, with the threads about to push the elements of
`work`, by the steps of `schedule`. -/
def PushSystem.reached {ElemTy : Type} (work : List (List ElemTy))
    (schedule : List (Nat × Bool)) : PushSystem ElemTy :=
  (PushSystem.start (ConcurrentList.new ElemTy) work).run schedule

/-- Counters kept for the `push_front` call of one thread that is in progress. -/
structure PushTally where
  /-- Exchanges of the call that failed. -/
  failed : Nat
  /-- Those among them that failed although `First` was equal to `OldFirst`. -/
  spurious : Nat
  /-- Exchanges of other threads that succeeded since the call was entered. -/
  others : Nat
deriving DecidableEq

namespace PushSystem

variable {ElemTy : Type}

/-- The counters of thread `i` after the step `move` taken in state `sys`: they are reset
when thread `i` enters `push_front`, and they record the outcome of the exchange when the
step executes one. -/
def tallyStep (i : Nat) (sys : PushSystem ElemTy) (tally : PushTally) (move : Nat × Bool) :
    PushTally :=
  match sys.threads[move.1]? with
  | none => tally
  | some t =>
    match t.pc with
    | PushState.idle =>
      match t.todo with
      | [] => tally
      | _ :: _ => if move.1 = i then ⟨0, 0, 0⟩ else tally
    | PushState.allocated _ => tally
    | PushState.exchange N OldFirst =>
      match compare_exchange_weak sys.L.First OldFirst (some N) move.2 with
      | (true, _, _) => if move.1 = i then tally else { tally with others := tally.others + 1 }
      | (false, _, _) =>
        if move.1 = i then
          { tally with
            failed := tally.failed + 1
            spurious := tally.spurious + (if sys.L.First = OldFirst then 1 else 0) }
        else tally

/-- The system and the counters of thread `i` after the steps of a schedule. -/
def runTally (i : Nat) :
    PushSystem ElemTy → PushTally → List (Nat × Bool) → PushSystem ElemTy × PushTally
  | sys, tally, [] => (sys, tally)
  | sys, tally, move :: schedule => runTally i (sys.step move) (tallyStep i sys tally move) schedule

/-- Whether thread `i` is about to exchange with an `OldFirst` that is no longer `First`. -/
def stale (i : Nat) (sys : PushSystem ElemTy) : Prop :=
  ∃ todo N OldFirst, sys.threads[i]? = some ⟨todo, PushState.exchange N OldFirst⟩ ∧
    sys.L.First ≠ OldFirst

end PushSystem

/-! ## Structure layout (`StructLayout.cpp`) -/

namespace irgen

/-- Modelled from the spec: `Size` is declared in `IRGen.h`, which is not among the sources.
It is a number of bytes, taken as a natural number: sums of sizes do not wrap around. -/
abbrev Size := Nat

/-- Modelled from the spec: `Alignment` is declared in `IRGen.h`, which is not among the
sources.  It is a number of bytes, taken as a natural number. -/
abbrev Alignment := Nat

/-- The two kinds of layout the source distinguishes in `requiresHeapHeader`. -/
inductive LayoutKind
  | NonHeapObject
  | HeapObject
  deriving DecidableEq

/-- Does this layout kind require a heap header? -/
def requiresHeapHeader : LayoutKind → Bool
  | LayoutKind.NonHeapObject => false
  | LayoutKind.HeapObject => true

/-- Modelled from the spec: `IRGenModule` is declared in `IRGenModule.h`, which is not among
the sources.  The layout code reads the pointer size and the pointer alignment from it. -/
structure IRGenModule where
  PointerSize : Size
  PointerAlignment : Alignment
  deriving DecidableEq

/-- Return the size of the standard heap header. -/
def getHeapHeaderSize (IGM : IRGenModule) : Size :=
  IGM.PointerSize * 2

/-- The IR types the layout code puts into `StructFields`: `IGM.RefCountedStructTy`, the
padding `[paddingRequired x i8]`, and the storage type of an element type. -/
inductive LLVMType
  | RefCountedStructTy
  | Int8Array (count : Nat)
  | Storage (id : Nat)
  deriving DecidableEq

/-- A named `llvm::StructType`, as `typeToFill` is one: which type it is, and its body, which
it has not while `isOpaque()` holds. -/
structure LLVMStructType where
  Id : Nat
  Body : Option (List LLVMType)
  deriving DecidableEq

/-- `llvm::StructType::isOpaque()`: the type has no body yet. -/
def LLVMStructType.isOpaque (type : LLVMStructType) : Bool :=
  type.Body.isNone

/-- The struct types the constructor of `StructLayout` stores into `Ty`: the element type of
`IGM.OpaquePtrTy`, the anonymous struct of `getAsAnonStruct`, or the `typeToFill`. -/
inductive StructTy
  | OpaquePtrElementTy
  | Anon (fields : List LLVMType)
  | Named (type : LLVMStructType)
  deriving DecidableEq

/-- The comparison `Ty == typeToFill` of two pointers to struct types: `Ty` is the named type
`typeToFill` points to. -/
def StructTy.isType : StructTy → LLVMStructType → Bool
  | StructTy.Named type, typeToFill => type.Id == typeToFill.Id
  | _, _ => false

/-- Modelled from the spec: `TypeInfo` and `FixedTypeInfo` are declared in `TypeInfo.h` and
`FixedTypeInfo.h`, which are not among the sources.  The record holds what `addFields` reads
of an element type: `getStorageType()`, `isKnownEmpty()`, `isPOD(ResilienceScope::Local)`,
whether the type is a `FixedTypeInfo` (which `cast<FixedTypeInfo>` asserts), its
`getFixedSize()` and `getFixedAlignment()`, and the ABI alignment the data layout gives the
storage type. -/
structure TypeInfo where
  StorageType : LLVMType
  KnownEmpty : Bool
  POD : Bool
  IsFixed : Bool
  FixedSize : Size
  FixedAlignment : Alignment
  ABITypeAlignment : Alignment
  deriving DecidableEq

/-- The kinds of an element layout: not laid out yet, laid out as empty, laid out at a fixed
offset. -/
inductive ElementLayoutKind
  | Incomplete
  | Empty
  | Fixed
  deriving DecidableEq

/-- Modelled from the spec: `ElementLayout` is declared in `StructLayout.h`, which is not
among the sources.  It holds the element type and what `completeEmpty` and `completeFixed`
are given; `ByteOffset` and `StructIndex` are meaningful for the kind `Fixed` only. -/
structure ElementLayout where
  Kind : ElementLayoutKind
  IsPOD : Bool
  ByteOffset : Size
  StructIndex : Nat
  Ty : TypeInfo
  deriving DecidableEq

namespace ElementLayout

/-- Modelled from the spec: `ElementLayout::getIncomplete(type)`, of `StructLayout.h`: only
the type is valid. -/
def getIncomplete (type : TypeInfo) : ElementLayout :=
  ⟨ElementLayoutKind.Incomplete, false, 0, 0, type⟩

/-- Modelled from the spec: `completeEmpty(isPOD)`, of `StructLayout.h`. -/
def completeEmpty (elt : ElementLayout) (isPOD : Bool) : ElementLayout :=
  { elt with Kind := ElementLayoutKind.Empty, IsPOD := isPOD }

/-- Modelled from the spec: `completeFixed(isPOD, byteOffset, structIndex)`, of
`StructLayout.h`. -/
def completeFixed (elt : ElementLayout) (isPOD : Bool) (byteOffset : Size)
    (structIndex : Nat) : ElementLayout :=
  { elt with Kind := ElementLayoutKind.Fixed, IsPOD := isPOD, ByteOffset := byteOffset,
             StructIndex := structIndex }

end ElementLayout

/-- The state of a `StructLayoutBuilder`: `CurSize`, `CurAlignment` and `StructFields`. -/
structure StructLayoutBuilder where
  CurSize : Size
  CurAlignment : Alignment
  StructFields : List LLVMType
  deriving DecidableEq

/-- What a call of `addFields` that returns leaves: the builder, the elements it has
completed in place, and the value it returns. -/
structure AddFieldsResult where
  Builder : StructLayoutBuilder
  Elts : List ElementLayout
  addedStorage : Bool
  deriving DecidableEq

namespace StructLayoutBuilder

/-- Modelled from the spec: the constructor `StructLayoutBuilder(IGM)` is declared in
`StructLayout.h`, which is not among the sources.  A new builder has size 0, alignment 1 and
no fields, which is what `addHeapHeaderToLayout` asserts of the layout it is given. -/
def new (_IGM : IRGenModule) : StructLayoutBuilder :=
  ⟨0, 1, []⟩

/-- Modelled from the spec: `StructLayoutBuilder::empty()` is declared in `StructLayout.h`,
which is not among the sources: the builder has no fields. -/
def empty (B : StructLayoutBuilder) : Bool :=
  B.StructFields.isEmpty

/-- `StructLayoutBuilder::addHeapHeader`.  There is no result when the assertion
`StructFields.empty()` fails. -/
def addHeapHeader (B : StructLayoutBuilder) (IGM : IRGenModule) : Option StructLayoutBuilder :=
  if B.StructFields.isEmpty then
    some { CurSize := getHeapHeaderSize IGM
           CurAlignment := IGM.PointerAlignment
           StructFields := B.StructFields ++ [LLVMType.RefCountedStructTy] }
  else none

/-- Lines 168 to 190 of `addFields`: the struct alignment becomes the maximum with the
alignment of the element, and when the current size is not a multiple of that alignment
the size is padded out, with an explicit `i8` array when the IR alignment of the storage
type differs from the alignment of the element.  There is no result when the alignment the
size is divided by is 0, or when one of the assertions `paddingRequired != 0` and
`fieldIRAlignment <= eltAlignment` fails.  (The source holds `paddingRequired` in an
`unsigned`; it is at most the alignment, and is kept as it is.) -/
def pad (B : StructLayoutBuilder) (eltTI : TypeInfo) : Option StructLayoutBuilder :=
  let CurAlignment := max B.CurAlignment eltTI.FixedAlignment
  let eltAlignment := eltTI.FixedAlignment
  if eltAlignment = 0 then none
  else
    let offsetFromAlignment := B.CurSize % eltAlignment
    if offsetFromAlignment ≠ 0 then
      let paddingRequired := eltAlignment - offsetFromAlignment
      if paddingRequired = 0 then none
      else
        let fieldIRAlignment := eltTI.ABITypeAlignment
        if fieldIRAlignment ≤ eltAlignment then
          some { CurSize := B.CurSize + paddingRequired
                 CurAlignment := CurAlignment
                 StructFields :=
                   if fieldIRAlignment ≠ eltAlignment then
                     B.StructFields ++ [LLVMType.Int8Array paddingRequired]
                   else B.StructFields }
        else none
    else
      some { B with CurAlignment := CurAlignment }

/-- The loop of `StructLayoutBuilder::addFields` over the elements, from the builder `B` and
the current value of `addedStorage`.  There is no result when an element type that is not
known-empty is not a `FixedTypeInfo` (the `cast` of line 160), or when the padding for an
element has none.  The layout strategy is not read by the source. -/
def addFields_loop {LayoutStrategy : Type} (strategy : LayoutStrategy) :
    StructLayoutBuilder → Bool → List ElementLayout → Option AddFieldsResult
  | B, addedStorage, [] => some ⟨B, [], addedStorage⟩
  | B, addedStorage, elt :: elts =>
    let eltTI := elt.Ty
    let isPOD := eltTI.POD
    if eltTI.KnownEmpty then
      (addFields_loop strategy B addedStorage elts).map
        (fun rest => { rest with Elts := elt.completeEmpty isPOD :: rest.Elts })
    else if eltTI.IsFixed then
      match B.pad eltTI with
      | none => none
      | some B1 =>
        let done := elt.completeFixed isPOD B1.CurSize B1.StructFields.length
        let B2 : StructLayoutBuilder :=
          { B1 with StructFields := B1.StructFields ++ [eltTI.StorageType]
                    CurSize := B1.CurSize + eltTI.FixedSize }
        (addFields_loop strategy B2 true elts).map
          (fun rest => { rest with Elts := done :: rest.Elts })
    else none

/-- `StructLayoutBuilder::addFields(elts, strategy)`. -/
def addFields {LayoutStrategy : Type} (B : StructLayoutBuilder) (elts : List ElementLayout)
    (strategy : LayoutStrategy) : Option AddFieldsResult :=
  addFields_loop strategy B false elts

/-- `StructLayoutBuilder::setAsBodyOfStruct(type)`: set the current fields as the body of the
given struct type.  There is no result when the assertion `type->isOpaque()` fails. -/
def setAsBodyOfStruct (B : StructLayoutBuilder) (type : LLVMStructType) :
    Option LLVMStructType :=
  if type.isOpaque then some { type with Body := some B.StructFields } else none

/-- `StructLayoutBuilder::getAsAnonStruct()`: the current fields as an anonymous structure. -/
def getAsAnonStruct (B : StructLayoutBuilder) : StructTy :=
  StructTy.Anon B.StructFields

end StructLayoutBuilder

/-- What the constructor of `StructLayout` computes: `MinimumAlign`, `MinimumSize`, the
elements and `Ty`. -/
structure StructLayout where
  MinimumAlign : Alignment
  MinimumSize : Size
  Elements : List ElementLayout
  Ty : StructTy
  deriving DecidableEq

/-- The builder of the constructor of `StructLayout` before `addFields`: a new builder, with
the heap header added when the layout kind requires it. -/
def StructLayout.builder (IGM : IRGenModule) (layoutKind : LayoutKind) :
    Option StructLayoutBuilder :=
  if requiresHeapHeader layoutKind then
    (StructLayoutBuilder.new IGM).addHeapHeader IGM
  else
    some (StructLayoutBuilder.new IGM)

/-- The call `builder.addFields(Elements, strategy)` of the constructor of `StructLayout`,
on the elements `getIncomplete` makes of the types. -/
def StructLayout.laidOut {LayoutStrategy : Type} (IGM : IRGenModule) (layoutKind : LayoutKind)
    (strategy : LayoutStrategy) (types : List TypeInfo) : Option AddFieldsResult :=
  (StructLayout.builder IGM layoutKind).bind
    (fun builder => builder.addFields (types.map ElementLayout.getIncomplete) strategy)

/-- The last assertion of the constructor, `typeToFill == nullptr || Ty == typeToFill`. -/
def StructLayout.checkTy (layout : StructLayout) (typeToFill : Option LLVMStructType) :
    Option StructLayout :=
  match typeToFill with
  | none => some layout
  | some type => if layout.Ty.isType type then some layout else none

/-- The constructor `StructLayout::StructLayout(IGM, layoutKind, strategy, types,
typeToFill)`: perform structure layout on the given types.  A `typeToFill` of `none` is the
null pointer.  There is no result when an assertion of the constructor or of the builder
fails. -/
def StructLayout.construct {LayoutStrategy : Type} (IGM : IRGenModule)
    (layoutKind : LayoutKind) (strategy : LayoutStrategy) (types : List TypeInfo)
    (typeToFill : Option LLVMStructType) : Option StructLayout :=
  if typeToFill.all LLVMStructType.isOpaque then
    match StructLayout.laidOut IGM layoutKind strategy types with
    | none => none
    | some result =>
      let nonEmpty := result.addedStorage
      if !nonEmpty then
        if (!result.Builder.empty) == requiresHeapHeader layoutKind then
          StructLayout.checkTy
            { MinimumAlign := 1
              MinimumSize := 0
              Elements := result.Elts
              Ty := match typeToFill with
                | some type => StructTy.Named type
                | none => StructTy.OpaquePtrElementTy }
            typeToFill
        else none
      else
        match typeToFill with
        | some type =>
          match result.Builder.setAsBodyOfStruct type with
          | none => none
          | some filled =>
            StructLayout.checkTy
              { MinimumAlign := result.Builder.CurAlignment
                MinimumSize := result.Builder.CurSize
                Elements := result.Elts
                Ty := StructTy.Named filled }
              typeToFill
        | none =>
          StructLayout.checkTy
            { MinimumAlign := result.Builder.CurAlignment
              MinimumSize := result.Builder.CurSize
              Elements := result.Elts
              Ty := result.Builder.getAsAnonStruct }
            typeToFill
  else none

end irgen

/-! # Theorems -/

/-! ## Nodes, edges and references -/

namespace ConcurrentMapNode

variable {KeyTy ValueTy : Type}

theorem edge_induction {motive : ConcurrentMapNode KeyTy ValueTy → Prop}
    (step : ∀ P, (∀ e c, P.edge e = some c → motive c) → motive P) :
    ∀ P, motive P
  | mk p l r k => step (mk p l r k) (fun e c h => by
      cases e
      · have hl : l = some c := h
        subst hl
        exact edge_induction step c
      · have hr : r = some c := h
        subst hr
        exact edge_induction step c)

@[simp]
theorem Key_setEdge (P : ConcurrentMapNode KeyTy ValueTy) (e : EdgeSel)
    (c : Option (ConcurrentMapNode KeyTy ValueTy)) : (P.setEdge e c).Key = P.Key := by
  cases P; cases e <;> rfl

@[simp]
theorem Payload_setEdge (P : ConcurrentMapNode KeyTy ValueTy) (e : EdgeSel)
    (c : Option (ConcurrentMapNode KeyTy ValueTy)) : (P.setEdge e c).Payload = P.Payload := by
  cases P; cases e <;> rfl

@[simp]
theorem edge_setEdge_same (P : ConcurrentMapNode KeyTy ValueTy) (e : EdgeSel)
    (c : Option (ConcurrentMapNode KeyTy ValueTy)) : (P.setEdge e c).edge e = c := by
  cases P; cases e <;> rfl

theorem edge_setEdge_other (P : ConcurrentMapNode KeyTy ValueTy) (e e2 : EdgeSel)
    (c : Option (ConcurrentMapNode KeyTy ValueTy)) (h : e2 ≠ e) :
    (P.setEdge e c).edge e2 = P.edge e2 := by
  cases P; cases e <;> cases e2 <;> first | rfl | exact absurd rfl h

theorem setEdge_edge (P : ConcurrentMapNode KeyTy ValueTy) (e : EdgeSel) :
    P.setEdge e (P.edge e) = P := by
  cases P; cases e <;> rfl

@[simp]
theorem Key_setPayload (P : ConcurrentMapNode KeyTy ValueTy) (v : ValueTy) :
    (P.setPayload v).Key = P.Key := by
  cases P; rfl

@[simp]
theorem edge_setPayload (P : ConcurrentMapNode KeyTy ValueTy) (v : ValueTy) (e : EdgeSel) :
    (P.setPayload v).edge e = P.edge e := by
  cases P; cases e <;> rfl

@[simp]
theorem Payload_setPayload (P : ConcurrentMapNode KeyTy ValueTy) (v : ValueTy) :
    (P.setPayload v).Payload = v := by
  cases P; rfl

theorem storeAt_Key (P : ConcurrentMapNode KeyTy ValueTy) (ref : SlotRef) (v : ValueTy) :
    (P.storeAt ref v).Key = P.Key := by
  cases ref with
  | nil => simp [storeAt]
  | cons e ref =>
    simp only [storeAt]
    cases P.edge e <;> simp

theorem payloadAt_storeAt (P : ConcurrentMapNode KeyTy ValueTy) (ref : SlotRef) (v : ValueTy)
    (h : (P.nodeAt ref).isSome) : (P.storeAt ref v).payloadAt ref = some v := by
  induction ref generalizing P with
  | nil => simp [storeAt, payloadAt, nodeAt]
  | cons e ref ih =>
    cases hc : P.edge e with
    | none => simp [nodeAt, hc] at h
    | some c =>
      simp only [nodeAt, hc] at h
      have := ih c h
      simp only [payloadAt] at this
      simp [storeAt, payloadAt, nodeAt, hc, this]

theorem nodeAt_append (P : ConcurrentMapNode KeyTy ValueTy) (ref ref2 : SlotRef) :
    P.nodeAt (ref ++ ref2) = (P.nodeAt ref).bind (fun n => n.nodeAt ref2) := by
  induction ref generalizing P with
  | nil => rfl
  | cons e ref ih =>
    simp only [List.cons_append, nodeAt]
    cases P.edge e with
    | none => rfl
    | some c => exact ih c

theorem isSome_nodeAt_of_append (P : ConcurrentMapNode KeyTy ValueTy) (ref ref2 : SlotRef)
    (h : (P.nodeAt (ref ++ ref2)).isSome) : (P.nodeAt ref).isSome := by
  rw [nodeAt_append] at h
  cases hn : P.nodeAt ref with
  | none => rw [hn] at h; exact h
  | some n => rfl

theorem keys_eq (P : ConcurrentMapNode KeyTy ValueTy) :
    P.keys = edgeKeys (P.edge EdgeSel.Left) ++ P.Key :: edgeKeys (P.edge EdgeSel.Right) := by
  cases P with
  | mk p l r k => cases l <;> cases r <;> rfl

theorem mem_keys_iff (P : ConcurrentMapNode KeyTy ValueTy) (x : KeyTy) :
    x ∈ P.keys ↔ x = P.Key ∨ ∃ e, x ∈ edgeKeys (P.edge e) := by
  rw [keys_eq]
  simp only [List.mem_append, List.mem_cons]
  constructor
  · rintro (h | h | h)
    · exact Or.inr ⟨_, h⟩
    · exact Or.inl h
    · exact Or.inr ⟨_, h⟩
  · rintro (h | ⟨e, h⟩)
    · exact Or.inr (Or.inl h)
    · cases e
      · exact Or.inl h
      · exact Or.inr (Or.inr h)

theorem ordered_iff [LT KeyTy] (n : ConcurrentMapNode KeyTy ValueTy) :
    n.Ordered ↔ ∀ e x, x ∈ edgeKeys (n.edge e) → e.side x n.Key := by
  constructor
  · intro h e x hx
    cases e
    · exact h.1 x hx
    · exact h.2 x hx
  · intro h
    exact ⟨fun x hx => h EdgeSel.Left x hx, fun x hx => h EdgeSel.Right x hx⟩

theorem searchTree_iff [LT KeyTy] (P : ConcurrentMapNode KeyTy ValueTy) :
    P.SearchTree ↔ P.Ordered ∧ ∀ e c, P.edge e = some c → c.SearchTree := by
  constructor
  · intro h
    refine ⟨h [] P rfl, fun e c hc ref n hn => h (e :: ref) n ?_⟩
    simp [nodeAt, hc, hn]
  · rintro ⟨h0, h1⟩ ref n hn
    cases ref with
    | nil =>
      simp only [nodeAt, Option.some.injEq] at hn
      subst hn
      exact h0
    | cons e ref =>
      cases hc : P.edge e with
      | none => simp [nodeAt, hc] at hn
      | some c =>
        simp only [nodeAt, hc] at hn
        exact h1 e c hc ref n hn

theorem nodup_keys_of_searchTree [Preorder KeyTy] (P : ConcurrentMapNode KeyTy ValueTy)
    (h : P.SearchTree) : P.keys.Nodup := by
  induction P using edge_induction with
  | step P ih =>
    rw [searchTree_iff] at h
    obtain ⟨⟨hl, hr⟩, hc⟩ := h
    have hn : ∀ e, (edgeKeys (P.edge e)).Nodup := by
      intro e
      cases he : P.edge e with
      | none => exact List.nodup_nil
      | some c => exact ih e c he (hc e c he)
    rw [keys_eq, List.nodup_append]
    refine ⟨hn _, ?_, ?_⟩
    · rw [List.nodup_cons]
      exact ⟨fun hm => lt_irrefl _ (hr _ hm), hn _⟩
    · intro x hx hx2
      rw [List.mem_cons] at hx2
      rcases hx2 with hx2 | hx2
      · subst hx2
        exact lt_irrefl _ (hl _ hx)
      · exact lt_irrefl _ (lt_trans (hl _ hx) (hr _ hx2))

theorem searchTree_new [LT KeyTy] [Inhabited ValueTy] (H : KeyTy) :
    (new H : ConcurrentMapNode KeyTy ValueTy).SearchTree := by
  intro ref n hn
  cases ref with
  | nil =>
    simp only [nodeAt, Option.some.injEq] at hn
    subst hn
    exact ⟨fun x hx => by simp [new, edge, edgeKeys] at hx,
      fun x hx => by simp [new, edge, edgeKeys] at hx⟩
  | cons e ref =>
    cases e <;> simp [nodeAt, new, edge] at hn

end ConcurrentMapNode

/-! ## Destruction of a tree -/

namespace ConcurrentMapNode

variable {KeyTy ValueTy : Type}

theorem destroy_eq (P : ConcurrentMapNode KeyTy ValueTy) :
    P.destroy = (edgeDestroy EdgeSel.Left (P.edge EdgeSel.Left) ++
      edgeDestroy EdgeSel.Right (P.edge EdgeSel.Right)) ++ [[]] := by
  cases P with
  | mk p l r k => cases l <;> cases r <;> rfl

theorem mem_edgeDestroy (P : ConcurrentMapNode KeyTy ValueTy) (e : EdgeSel) (ref : SlotRef)
    (ih : ∀ e c, P.edge e = some c → ∀ ref, ref ∈ c.destroy ↔ (c.nodeAt ref).isSome) :
    ref ∈ edgeDestroy e (P.edge e) ↔ ∃ tl, ref = e :: tl ∧ (P.nodeAt (e :: tl)).isSome := by
  cases hc : P.edge e with
  | none => simp [edgeDestroy, nodeAt, hc]
  | some c =>
    simp only [edgeDestroy, List.mem_map, nodeAt, hc]
    constructor
    · rintro ⟨tl, htl, rfl⟩
      exact ⟨tl, rfl, (ih e c hc tl).mp htl⟩
    · rintro ⟨tl, rfl, htl⟩
      exact ⟨tl, (ih e c hc tl).mpr htl, rfl⟩

theorem mem_destroy (P : ConcurrentMapNode KeyTy ValueTy) :
    ∀ ref, ref ∈ P.destroy ↔ (P.nodeAt ref).isSome := by
  induction P using edge_induction with
  | step P ih =>
    intro ref
    rw [destroy_eq]
    simp only [List.mem_append, List.mem_singleton, mem_edgeDestroy P _ ref ih]
    cases ref with
    | nil => simp [nodeAt]
    | cons e tl =>
      cases e <;> simp

theorem nodup_edgeDestroy (P : ConcurrentMapNode KeyTy ValueTy) (e : EdgeSel)
    (ih : ∀ e c, P.edge e = some c → c.destroy.Nodup) : (edgeDestroy e (P.edge e)).Nodup := by
  cases hc : P.edge e with
  | none => exact List.nodup_nil
  | some c =>
    exact (ih e c hc).map (fun a b hab => List.tail_eq_of_cons_eq hab)

theorem head_of_mem_edgeDestroy (e : EdgeSel) (o : Option (ConcurrentMapNode KeyTy ValueTy))
    (ref : SlotRef) (h : ref ∈ edgeDestroy e o) : ∃ tl, ref = e :: tl := by
  cases o with
  | none => simp [edgeDestroy] at h
  | some c =>
    simp only [edgeDestroy, List.mem_map] at h
    obtain ⟨tl, -, rfl⟩ := h
    exact ⟨tl, rfl⟩

theorem nodup_destroy (P : ConcurrentMapNode KeyTy ValueTy) : P.destroy.Nodup := by
  induction P using edge_induction with
  | step P ih =>
    rw [destroy_eq, List.nodup_append]
    refine ⟨?_, List.nodup_singleton _, ?_⟩
    · rw [List.nodup_append]
      refine ⟨nodup_edgeDestroy P _ ih, nodup_edgeDestroy P _ ih, ?_⟩
      intro a ha hb
      obtain ⟨t1, rfl⟩ := head_of_mem_edgeDestroy _ _ _ ha
      obtain ⟨t2, h2⟩ := head_of_mem_edgeDestroy _ _ _ hb
      cases h2
    · intro a ha hb
      rw [List.mem_singleton] at hb
      subst hb
      rw [List.mem_append] at ha
      rcases ha with ha | ha <;> obtain ⟨t, ht⟩ := head_of_mem_edgeDestroy _ _ _ ha <;> cases ht

theorem length_edgeDestroy (P : ConcurrentMapNode KeyTy ValueTy) (e : EdgeSel)
    (ih : ∀ e c, P.edge e = some c → c.destroy.length = c.keys.length) :
    (edgeDestroy e (P.edge e)).length = (edgeKeys (P.edge e)).length := by
  cases hc : P.edge e with
  | none => rfl
  | some c => simp [edgeDestroy, edgeKeys, ih e c hc]

theorem length_destroy (P : ConcurrentMapNode KeyTy ValueTy) :
    P.destroy.length = P.keys.length := by
  induction P using edge_induction with
  | step P ih =>
    rw [destroy_eq, keys_eq]
    simp only [List.length_append, List.length_cons, List.length_nil, length_edgeDestroy P _ ih]
    omega

theorem pairwise_edgeDestroy (P : ConcurrentMapNode KeyTy ValueTy) (e : EdgeSel)
    (ih : ∀ e c, P.edge e = some c →
      c.destroy.Pairwise (fun earlier later => ∀ e2, later ≠ earlier ++ [e2])) :
    (edgeDestroy e (P.edge e)).Pairwise (fun earlier later => ∀ e2, later ≠ earlier ++ [e2]) := by
  cases hc : P.edge e with
  | none => exact List.Pairwise.nil
  | some c =>
    simp only [edgeDestroy]
    rw [List.pairwise_map]
    refine (ih e c hc).imp ?_
    intro a b hab e2 h
    exact hab e2 (by simpa using h)

theorem pairwise_destroy (P : ConcurrentMapNode KeyTy ValueTy) :
    P.destroy.Pairwise (fun earlier later => ∀ e, later ≠ earlier ++ [e]) := by
  induction P using edge_induction with
  | step P ih =>
    rw [destroy_eq, List.pairwise_append]
    refine ⟨?_, List.pairwise_singleton _ _, ?_⟩
    · rw [List.pairwise_append]
      refine ⟨pairwise_edgeDestroy P _ ih, pairwise_edgeDestroy P _ ih, ?_⟩
      intro a ha b hb e2 h
      obtain ⟨t1, rfl⟩ := head_of_mem_edgeDestroy _ _ _ ha
      obtain ⟨t2, rfl⟩ := head_of_mem_edgeDestroy _ _ _ hb
      simp at h
    · intro a _ b hb e2 h
      rw [List.mem_singleton] at hb
      subst hb
      simp at h

end ConcurrentMapNode

/-- In a list where no element is followed by one related to it the other way round, an
element is met before every element it is related to. -/
theorem before_of_pairwise {α : Type} {R : α → α → Prop} (l : List α) (a b : α)
    (hp : l.Pairwise R) (ha : a ∈ l) (hb : b ∈ l) (hR : ¬ R b a) (hne : a ≠ b) :
    ∃ pre post, l = pre ++ a :: post ∧ b ∈ post := by
  obtain ⟨pre, post, rfl⟩ := List.append_of_mem ha
  refine ⟨pre, post, rfl, ?_⟩
  rw [List.pairwise_append] at hp
  rcases List.mem_append.mp hb with h | h
  · exact absurd (hp.2.2 b h a (List.mem_cons_self _ _)) hR
  · rcases List.mem_cons.mp h with h | h
    · exact absurd h.symm hne
    · exact h

/-! ## One sequential call of `findOrAllocateNode_rec` -/

section SequentialCall

variable {KeyTy ValueTy : Type} [LinearOrder KeyTy]

theorem selectEdge_congr (P Q : ConcurrentMapNode KeyTy ValueTy) (Key : KeyTy)
    (h : Q.Key = P.Key) : selectEdge Q Key = selectEdge P Key := by
  unfold selectEdge
  rw [h]

theorem selectEdge_side (P : ConcurrentMapNode KeyTy ValueTy) (Key : KeyTy) (h : P.Key ≠ Key) :
    (selectEdge P Key).side Key P.Key := by
  unfold selectEdge
  by_cases hgt : P.Key > Key
  · rw [if_pos hgt]; exact hgt
  · rw [if_neg hgt]
    exact lt_of_le_of_ne (not_lt.mp hgt) h

theorem nodeAt_of_foundAt {P : ConcurrentMapNode KeyTy ValueTy} {Key : KeyTy} {ref : SlotRef}
    (h : FoundAt P Key ref) : ∃ n, P.nodeAt ref = some n ∧ n.Key = Key := by
  induction h with
  | here P Key hk => exact ⟨P, rfl, hk⟩
  | under P c Key ref hk hc _ ih =>
    obtain ⟨n, hn, hkn⟩ := ih
    exact ⟨n, by simp [ConcurrentMapNode.nodeAt, hc, hn], hkn⟩

theorem foundAt_storeAt {P : ConcurrentMapNode KeyTy ValueTy} {Key : KeyTy} {ref : SlotRef}
    (h : FoundAt P Key ref) (ref2 : SlotRef) (v : ValueTy) :
    FoundAt (P.storeAt ref2 v) Key ref := by
  induction h generalizing ref2 with
  | here P Key hk => exact FoundAt.here _ Key (by rw [ConcurrentMapNode.storeAt_Key]; exact hk)
  | under P c Key ref hk hc hf ih =>
    have hkey := ConcurrentMapNode.storeAt_Key P ref2 v
    have hsel := selectEdge_congr P (P.storeAt ref2 v) Key hkey
    rw [← hsel]
    cases ref2 with
    | nil =>
      refine FoundAt.under _ c Key ref (by rw [hkey]; exact hk) ?_ hf
      rw [hsel]
      simp [ConcurrentMapNode.storeAt, hc]
    | cons e ref2 =>
      by_cases he : e = selectEdge P Key
      · refine FoundAt.under _ (c.storeAt ref2 v) Key ref (by rw [hkey]; exact hk) ?_ (ih ref2)
        rw [hsel]
        simp [ConcurrentMapNode.storeAt, he, hc]
      · refine FoundAt.under _ c Key ref (by rw [hkey]; exact hk) ?_ hf
        rw [hsel]
        simp only [ConcurrentMapNode.storeAt]
        cases hc2 : P.edge e with
        | none => exact hc
        | some c2 =>
          simp only []
          rw [ConcurrentMapNode.edge_setEdge_other _ _ _ _ (Ne.symm he)]
          exact hc

variable [Inhabited ValueTy]

theorem find_here (P : ConcurrentMapNode KeyTy ValueTy) (Key : KeyTy) (s : Nat)
    (h : P.Key = Key) : findOrAllocateNode_rec P Key s = ⟨P, [], 0, 0⟩ := by
  rw [findOrAllocateNode_rec, if_pos h]

theorem find_descend (P c : ConcurrentMapNode KeyTy ValueTy) (Key : KeyTy) (s : Nat)
    (h : P.Key ≠ Key) (hc : P.edge (selectEdge P Key) = some c) :
    findOrAllocateNode_rec P Key s =
      ⟨P.setEdge (selectEdge P Key) (some (findOrAllocateNode_rec c Key s).P),
        selectEdge P Key :: (findOrAllocateNode_rec c Key s).Slot,
        (findOrAllocateNode_rec c Key s).Allocated, (findOrAllocateNode_rec c Key s).Freed⟩ := by
  rw [findOrAllocateNode_rec, if_neg h]
  simp only []
  split
  · rename_i c2 h2
    rw [hc] at h2
    cases h2
    rfl
  · rename_i h2
    rw [hc] at h2
    cases h2

theorem find_install (P : ConcurrentMapNode KeyTy ValueTy) (Key : KeyTy) (s : Nat)
    (h : P.Key ≠ Key) (hc : P.edge (selectEdge P Key) = none) :
    findOrAllocateNode_rec P Key s =
      ⟨P.setEdge (selectEdge P Key) (some (ConcurrentMapNode.new Key)), [selectEdge P Key],
        s + 1, s⟩ := by
  induction s with
  | zero =>
    rw [findOrAllocateNode_rec, if_neg h]
    simp only []
    split
    · rename_i c2 h2
      rw [hc] at h2
      cases h2
    · rfl
  | succ s ih =>
    rw [findOrAllocateNode_rec, if_neg h]
    simp only []
    split
    · rename_i c2 h2
      rw [hc] at h2
      cases h2
    · simp only [ih]

theorem find_Key (P : ConcurrentMapNode KeyTy ValueTy) (Key : KeyTy) (s : Nat) :
    (findOrAllocateNode_rec P Key s).P.Key = P.Key := by
  by_cases h : P.Key = Key
  · rw [find_here P Key s h]
  · cases hc : P.edge (selectEdge P Key) with
    | none => rw [find_install P Key s h hc]; simp
    | some c => rw [find_descend P c Key s h hc]; simp

theorem find_Payload (P : ConcurrentMapNode KeyTy ValueTy) (Key : KeyTy) (s : Nat) :
    (findOrAllocateNode_rec P Key s).P.Payload = P.Payload := by
  by_cases h : P.Key = Key
  · rw [find_here P Key s h]
  · cases hc : P.edge (selectEdge P Key) with
    | none => rw [find_install P Key s h hc]; simp
    | some c => rw [find_descend P c Key s h hc]; simp

/-- How one call changes the node it starts at, seen edge by edge. -/
theorem find_edge (P : ConcurrentMapNode KeyTy ValueTy) (Key : KeyTy) (s : Nat) (e : EdgeSel) :
    (findOrAllocateNode_rec P Key s).P.edge e =
      if P.Key ≠ Key ∧ e = selectEdge P Key then
        match P.edge e with
        | none => some (ConcurrentMapNode.new Key)
        | some c => some (findOrAllocateNode_rec c Key s).P
      else P.edge e := by
  by_cases h : P.Key = Key
  · rw [find_here P Key s h, if_neg (fun hh => hh.1 h)]
  · by_cases he : e = selectEdge P Key
    · rw [if_pos ⟨h, he⟩]
      subst he
      cases hc : P.edge (selectEdge P Key) with
      | none => rw [find_install P Key s h hc]; simp
      | some c => rw [find_descend P c Key s h hc]; simp
    · rw [if_neg (fun hh => he hh.2)]
      cases hc : P.edge (selectEdge P Key) with
      | none => rw [find_install P Key s h hc, ConcurrentMapNode.edge_setEdge_other _ _ _ _ he]
      | some c => rw [find_descend P c Key s h hc, ConcurrentMapNode.edge_setEdge_other _ _ _ _ he]

theorem find_Slot_eq_nil_iff (P : ConcurrentMapNode KeyTy ValueTy) (Key : KeyTy) (s : Nat) :
    (findOrAllocateNode_rec P Key s).Slot = [] ↔ Key = P.Key := by
  by_cases h : P.Key = Key
  · rw [find_here P Key s h]; simp [h]
  · cases hc : P.edge (selectEdge P Key) with
    | none => rw [find_install P Key s h hc]; simp [Ne.symm h]
    | some c => rw [find_descend P c Key s h hc]; simp [Ne.symm h]

end SequentialCall

/-! ## What a call finds, keeps and adds -/

section SequentialFacts

variable {KeyTy ValueTy : Type} [LinearOrder KeyTy] [Inhabited ValueTy]

theorem foundAt_find (P : ConcurrentMapNode KeyTy ValueTy) (Key : KeyTy) (s : Nat) :
    FoundAt (findOrAllocateNode_rec P Key s).P Key (findOrAllocateNode_rec P Key s).Slot := by
  induction P using ConcurrentMapNode.edge_induction with
  | step P ih =>
    by_cases h : P.Key = Key
    · rw [find_here P Key s h]
      exact FoundAt.here P Key h
    · cases hc : P.edge (selectEdge P Key) with
      | none =>
        rw [find_install P Key s h hc]
        have hk : (P.setEdge (selectEdge P Key) (some (ConcurrentMapNode.new Key))).Key = P.Key := by
          simp
        have hsel := selectEdge_congr P _ Key hk
        have := FoundAt.under (P.setEdge (selectEdge P Key) (some (ConcurrentMapNode.new Key)))
          (ConcurrentMapNode.new Key) Key [] (by rw [hk]; exact h)
          (by rw [hsel]; simp) (FoundAt.here _ Key rfl)
        rw [hsel] at this
        exact this
      | some c =>
        rw [find_descend P c Key s h hc]
        have hk : (P.setEdge (selectEdge P Key)
            (some (findOrAllocateNode_rec c Key s).P)).Key = P.Key := by simp
        have hsel := selectEdge_congr P _ Key hk
        have := FoundAt.under _ (findOrAllocateNode_rec c Key s).P Key _ (by rw [hk]; exact h)
          (by rw [hsel]; simp) (ih _ c hc)
        rw [hsel] at this
        exact this

theorem find_of_foundAt {P : ConcurrentMapNode KeyTy ValueTy} {Key : KeyTy} {ref : SlotRef}
    (h : FoundAt P Key ref) (s : Nat) : findOrAllocateNode_rec P Key s = ⟨P, ref, 0, 0⟩ := by
  induction h with
  | here P Key hk => exact find_here P Key s hk
  | under P c Key ref hk hc _ ih =>
    rw [find_descend P c Key s hk hc, ih, ← hc, ConcurrentMapNode.setEdge_edge]

theorem foundAt_find_other {P : ConcurrentMapNode KeyTy ValueTy} {Key : KeyTy} {ref : SlotRef}
    (h : FoundAt P Key ref) (Key2 : KeyTy) (s : Nat) :
    FoundAt (findOrAllocateNode_rec P Key2 s).P Key ref := by
  induction h with
  | here P Key hk => exact FoundAt.here _ Key (by rw [find_Key]; exact hk)
  | under P c Key ref hk hc hf ih =>
    have hsel := selectEdge_congr P (findOrAllocateNode_rec P Key2 s).P Key (find_Key P Key2 s)
    rw [← hsel]
    by_cases he : P.Key ≠ Key2 ∧ selectEdge P Key = selectEdge P Key2
    · refine FoundAt.under _ (findOrAllocateNode_rec c Key2 s).P Key ref
        (by rw [find_Key]; exact hk) ?_ ih
      rw [hsel, find_edge, if_pos he, hc]
    · refine FoundAt.under _ c Key ref (by rw [find_Key]; exact hk) ?_ hf
      rw [hsel, find_edge, if_neg he, hc]

theorem payloadAt_find (P : ConcurrentMapNode KeyTy ValueTy) (ref : SlotRef) (x : ValueTy)
    (h : P.payloadAt ref = some x) (Key : KeyTy) (s : Nat) :
    (findOrAllocateNode_rec P Key s).P.payloadAt ref = some x := by
  induction ref generalizing P with
  | nil =>
    simp only [ConcurrentMapNode.payloadAt, ConcurrentMapNode.nodeAt, Option.map_some',
      Option.some.injEq] at h ⊢
    rw [find_Payload]; exact h
  | cons e ref ih =>
    cases hc : P.edge e with
    | none => simp [ConcurrentMapNode.payloadAt, ConcurrentMapNode.nodeAt, hc] at h
    | some c =>
      have hc0 : c.payloadAt ref = some x := by
        simpa [ConcurrentMapNode.payloadAt, ConcurrentMapNode.nodeAt, hc] using h
      by_cases he : P.Key ≠ Key ∧ e = selectEdge P Key
      · have hedge : (findOrAllocateNode_rec P Key s).P.edge e =
            some (findOrAllocateNode_rec c Key s).P := by
          rw [find_edge, if_pos he, hc]
        have := ih c hc0
        simp only [ConcurrentMapNode.payloadAt] at this
        simp [ConcurrentMapNode.payloadAt, ConcurrentMapNode.nodeAt, hedge, this]
      · have hedge : (findOrAllocateNode_rec P Key s).P.edge e = some c := by
          rw [find_edge, if_neg he, hc]
        simp only [ConcurrentMapNode.payloadAt] at hc0
        simp [ConcurrentMapNode.payloadAt, ConcurrentMapNode.nodeAt, hedge, hc0]

theorem mem_keys_find (P : ConcurrentMapNode KeyTy ValueTy) (Key : KeyTy) (s : Nat) (x : KeyTy) :
    x ∈ (findOrAllocateNode_rec P Key s).P.keys ↔ x = Key ∨ x ∈ P.keys := by
  induction P using ConcurrentMapNode.edge_induction with
  | step P ih =>
    by_cases h : P.Key = Key
    · rw [find_here P Key s h]
      constructor
      · exact Or.inr
      · rintro (hx | hx)
        · rw [ConcurrentMapNode.mem_keys_iff]; exact Or.inl (hx.trans h.symm)
        · exact hx
    · rw [ConcurrentMapNode.mem_keys_iff, ConcurrentMapNode.mem_keys_iff P, find_Key]
      have hedge : ∀ e, x ∈ ConcurrentMapNode.edgeKeys ((findOrAllocateNode_rec P Key s).P.edge e) ↔
          (e = selectEdge P Key ∧ x = Key) ∨ x ∈ ConcurrentMapNode.edgeKeys (P.edge e) := by
        intro e
        rw [find_edge]
        by_cases he : e = selectEdge P Key
        · rw [if_pos ⟨h, he⟩]
          cases hc : P.edge e with
          | none =>
            simp [ConcurrentMapNode.edgeKeys, ConcurrentMapNode.new, ConcurrentMapNode.keys, he]
          | some c =>
            simp only [ConcurrentMapNode.edgeKeys]
            rw [ih e c hc]
            simp [he]
        · rw [if_neg (fun hh => he hh.2)]
          simp [he]
      constructor
      · rintro (hx | ⟨e, hx⟩)
        · exact Or.inr (Or.inl hx)
        · rcases (hedge e).mp hx with ⟨-, hx⟩ | hx
          · exact Or.inl hx
          · exact Or.inr (Or.inr ⟨e, hx⟩)
      · rintro (hx | hx | ⟨e, hx⟩)
        · exact Or.inr ⟨selectEdge P Key, (hedge _).mpr (Or.inl ⟨rfl, hx⟩)⟩
        · exact Or.inl hx
        · exact Or.inr ⟨e, (hedge e).mpr (Or.inr hx)⟩

theorem searchTree_find (P : ConcurrentMapNode KeyTy ValueTy) (Key : KeyTy) (s : Nat)
    (hP : P.SearchTree) : (findOrAllocateNode_rec P Key s).P.SearchTree := by
  induction P using ConcurrentMapNode.edge_induction with
  | step P ih =>
    by_cases h : P.Key = Key
    · rw [find_here P Key s h]; exact hP
    · rw [ConcurrentMapNode.searchTree_iff] at hP ⊢
      obtain ⟨hord, hch⟩ := hP
      rw [ConcurrentMapNode.ordered_iff] at hord ⊢
      constructor
      · intro e x hx
        rw [find_Key]
        rw [find_edge] at hx
        by_cases he : e = selectEdge P Key
        · rw [if_pos ⟨h, he⟩] at hx
          cases hc : P.edge e with
          | none =>
            rw [hc] at hx
            simp [ConcurrentMapNode.edgeKeys, ConcurrentMapNode.new, ConcurrentMapNode.keys] at hx
            rw [hx, he]
            exact selectEdge_side P Key h
          | some c =>
            rw [hc] at hx
            simp only [ConcurrentMapNode.edgeKeys] at hx
            rw [mem_keys_find] at hx
            rcases hx with hx | hx
            · rw [hx, he]
              exact selectEdge_side P Key h
            · exact hord e x (by rw [hc]; exact hx)
        · rw [if_neg (fun hh => he hh.2)] at hx
          exact hord e x hx
      · intro e c hc
        rw [find_edge] at hc
        by_cases he : e = selectEdge P Key
        · rw [if_pos ⟨h, he⟩] at hc
          cases hc0 : P.edge e with
          | none =>
            rw [hc0] at hc
            simp only [Option.some.injEq] at hc
            subst hc
            exact ConcurrentMapNode.searchTree_new Key
          | some c0 =>
            rw [hc0] at hc
            simp only [Option.some.injEq] at hc
            subst hc
            exact ih e c0 hc0 (hch e c0 hc0)
        · rw [if_neg (fun hh => he hh.2)] at hc
          exact hch e c hc

end SequentialFacts

/-! ## Sequences of calls -/

section SequentialCalls

variable {KeyTy ValueTy : Type} [LinearOrder KeyTy] [Inhabited ValueTy]

theorem foundAt_afterCalls (calls : List (KeyTy × Nat)) (M : ConcurrentMap KeyTy ValueTy)
    (Key : KeyTy) (ref : SlotRef) (h : FoundAt M.Sentinel Key ref) :
    FoundAt (M.afterCalls calls).Sentinel Key ref := by
  induction calls generalizing M with
  | nil => exact h
  | cons c calls ih => exact ih (M.afterCall c) (foundAt_find_other h c.1 c.2)

theorem payloadAt_afterCalls (calls : List (KeyTy × Nat)) (M : ConcurrentMap KeyTy ValueTy)
    (ref : SlotRef) (x : ValueTy) (h : M.Sentinel.payloadAt ref = some x) :
    (M.afterCalls calls).Sentinel.payloadAt ref = some x := by
  induction calls generalizing M with
  | nil => exact h
  | cons c calls ih => exact ih (M.afterCall c) (payloadAt_find M.Sentinel ref x h c.1 c.2)

theorem searchTree_afterCalls (calls : List (KeyTy × Nat)) (M : ConcurrentMap KeyTy ValueTy)
    (h : M.Sentinel.SearchTree) : (M.afterCalls calls).Sentinel.SearchTree := by
  induction calls generalizing M with
  | nil => exact h
  | cons c calls ih => exact ih (M.afterCall c) (searchTree_find M.Sentinel c.1 c.2 h)

theorem key_afterCalls (calls : List (KeyTy × Nat)) (M : ConcurrentMap KeyTy ValueTy) :
    (M.afterCalls calls).Sentinel.Key = M.Sentinel.Key := by
  induction calls generalizing M with
  | nil => rfl
  | cons c calls ih => exact (ih (M.afterCall c)).trans (find_Key M.Sentinel c.1 c.2)

theorem mem_keys_afterCalls (calls : List (KeyTy × Nat)) (M : ConcurrentMap KeyTy ValueTy)
    (x : KeyTy) :
    x ∈ (M.afterCalls calls).Sentinel.keys ↔ x ∈ calls.map Prod.fst ∨ x ∈ M.Sentinel.keys := by
  induction calls generalizing M with
  | nil => simp [ConcurrentMap.afterCalls]
  | cons c calls ih =>
    have := ih (M.afterCall c)
    simp only [ConcurrentMap.afterCalls, List.foldl_cons] at this ⊢
    rw [this]
    simp only [ConcurrentMap.afterCall, ConcurrentMap.findOrAllocateNode, mem_keys_find,
      List.map_cons, List.mem_cons]
    tauto

omit [Inhabited ValueTy] in
theorem mem_insertedKeys_iff (M : ConcurrentMap KeyTy ValueTy) (h : M.Sentinel.SearchTree)
    (x : KeyTy) : x ∈ M.insertedKeys ↔ x ∈ M.Sentinel.keys ∧ x ≠ M.Sentinel.Key := by
  have hord := (h [] M.Sentinel rfl)
  rw [ConcurrentMapNode.keys_eq]
  simp only [ConcurrentMap.insertedKeys, List.mem_append, List.mem_cons]
  constructor
  · rintro (hx | hx)
    · exact ⟨Or.inl hx, ne_of_lt (hord.1 x hx)⟩
    · exact ⟨Or.inr (Or.inr hx), ne_of_gt (hord.2 x hx)⟩
  · rintro ⟨hx | hx | hx, hne⟩
    · exact Or.inl hx
    · exact absurd hx hne
    · exact Or.inr hx

omit [Inhabited ValueTy] in
theorem nodup_insertedKeys (M : ConcurrentMap KeyTy ValueTy) (h : M.Sentinel.SearchTree) :
    M.insertedKeys.Nodup := by
  have := ConcurrentMapNode.nodup_keys_of_searchTree M.Sentinel h
  rw [ConcurrentMapNode.keys_eq] at this
  exact this.sublist (List.Sublist.append_left (List.sublist_cons_self _ _) _)

omit [LinearOrder KeyTy] [Inhabited ValueTy] in
theorem length_keys_eq (M : ConcurrentMap KeyTy ValueTy) :
    M.Sentinel.keys.length = M.insertedKeys.length + 1 := by
  rw [ConcurrentMapNode.keys_eq]
  simp [ConcurrentMap.insertedKeys]
  omega

theorem referenceInsert_eq (P : ConcurrentMapNode KeyTy ValueTy) (key : KeyTy) :
    P.referenceInsert key =
      if key = P.Key then P
      else P.setEdge (selectEdge P key)
        (match P.edge (selectEdge P key) with
          | none => some (ConcurrentMapNode.new key)
          | some c => some (c.referenceInsert key)) := by
  cases P with
  | mk p l r k =>
    by_cases h : key = k
    · cases l <;> cases r <;> simp [ConcurrentMapNode.referenceInsert, ConcurrentMapNode.Key, h]
    · by_cases hlt : key < k
      · have hs : selectEdge (ConcurrentMapNode.mk p l r k) key = EdgeSel.Left := by
          simp [selectEdge, ConcurrentMapNode.Key, hlt]
        rw [hs]
        cases l <;> cases r <;>
          simp [ConcurrentMapNode.referenceInsert, ConcurrentMapNode.Key, h, hlt,
            ConcurrentMapNode.edge, ConcurrentMapNode.setEdge]
      · have hs : selectEdge (ConcurrentMapNode.mk p l r k) key = EdgeSel.Right := by
          simp [selectEdge, ConcurrentMapNode.Key, hlt]
        rw [hs]
        cases l <;> cases r <;>
          simp [ConcurrentMapNode.referenceInsert, ConcurrentMapNode.Key, h, hlt,
            ConcurrentMapNode.edge, ConcurrentMapNode.setEdge]

theorem find_eq_referenceInsert (P : ConcurrentMapNode KeyTy ValueTy) (Key : KeyTy) (s : Nat) :
    (findOrAllocateNode_rec P Key s).P = P.referenceInsert Key := by
  induction P using ConcurrentMapNode.edge_induction with
  | step P ih =>
    rw [referenceInsert_eq]
    by_cases h : P.Key = Key
    · rw [find_here P Key s h, if_pos h.symm]
    · rw [if_neg (Ne.symm h)]
      cases hc : P.edge (selectEdge P Key) with
      | none => rw [find_install P Key s h hc]
      | some c => rw [find_descend P c Key s h hc, ih _ c hc]

theorem afterCalls_eq_foldl (calls : List (KeyTy × Nat)) (M : ConcurrentMap KeyTy ValueTy) :
    (M.afterCalls calls).Sentinel =
      (calls.map Prod.fst).foldl ConcurrentMapNode.referenceInsert M.Sentinel := by
  induction calls generalizing M with
  | nil => rfl
  | cons c calls ih =>
    have := ih (M.afterCall c)
    simp only [ConcurrentMap.afterCalls, List.foldl_cons, List.map_cons] at this ⊢
    rw [this]
    simp only [ConcurrentMap.afterCall, ConcurrentMap.findOrAllocateNode,
      find_eq_referenceInsert]

variable [Zero KeyTy]

theorem searchTree_reachable (calls : List (KeyTy × Nat)) :
    ((ConcurrentMap.new KeyTy ValueTy).afterCalls calls).Sentinel.SearchTree :=
  searchTree_afterCalls calls _ (ConcurrentMapNode.searchTree_new 0)

theorem key_reachable (calls : List (KeyTy × Nat)) :
    ((ConcurrentMap.new KeyTy ValueTy).afterCalls calls).Sentinel.Key = 0 :=
  key_afterCalls calls _

theorem mem_insertedKeys_reachable (calls : List (KeyTy × Nat)) (hnull : ∀ c ∈ calls, c.1 ≠ 0)
    (x : KeyTy) :
    x ∈ ((ConcurrentMap.new KeyTy ValueTy).afterCalls calls).insertedKeys ↔
      x ∈ calls.map Prod.fst := by
  rw [mem_insertedKeys_iff _ (searchTree_reachable calls), mem_keys_afterCalls, key_reachable]
  have hk : (ConcurrentMap.new KeyTy ValueTy).Sentinel.keys = [0] := rfl
  rw [hk]
  simp only [List.mem_singleton]
  constructor
  · rintro ⟨h | h, hne⟩
    · exact h
    · exact absurd h hne
  · intro h
    refine ⟨Or.inl h, ?_⟩
    rw [List.mem_map] at h
    obtain ⟨c, hc, rfl⟩ := h
    exact hnull c hc

theorem length_insertedKeys_reachable (calls : List (KeyTy × Nat))
    (hnull : ∀ c ∈ calls, c.1 ≠ 0) :
    ((ConcurrentMap.new KeyTy ValueTy).afterCalls calls).insertedKeys.length =
      (calls.map Prod.fst).dedup.length := by
  have hnd := nodup_insertedKeys _ (@searchTree_reachable KeyTy ValueTy _ _ _ calls)
  rw [← List.card_toFinset, ← List.toFinset_card_of_nodup hnd]
  congr 1
  ext x
  simp only [List.mem_toFinset]
  exact mem_insertedKeys_reachable calls hnull x

end SequentialCalls

/-! ## The sequential contract of the map -/

section MapClaims

variable {KeyTy ValueTy : Type} [LinearOrder KeyTy] [Inhabited ValueTy]

/-- C1: two calls `findOrAllocateNode(k)` return a reference to the same value slot, whatever
the map state `M`, whatever calls are made in between (`between1`, `between2`) and however
often the weak compare-exchange fails spuriously: the later call returns the reference of the
first call, a value `v` stored through the first reference (at any moment between the two
calls) is the value read through that reference after the later call, and the later call
creates no node, deletes none, and returns the tree as it found it. -/
theorem findOrAllocateNode_same_slot (M : ConcurrentMap KeyTy ValueTy) (k : KeyTy)
    (s1 s2 : Nat) (v : ValueTy) (between1 between2 : List (KeyTy × Nat)) :
    (M.afterUse k s1 between1 v between2).findOrAllocateNode k s2 =
      ⟨(M.afterUse k s1 between1 v between2).Sentinel, (M.findOrAllocateNode k s1).Slot, 0, 0⟩ ∧
    (M.afterUse k s1 between1 v between2).Sentinel.payloadAt (M.findOrAllocateNode k s1).Slot =
      some v := by
  have h0 : FoundAt (M.afterCall (k, s1)).Sentinel k (M.findOrAllocateNode k s1).Slot :=
    foundAt_find M.Sentinel k s1
  have h1 := foundAt_afterCalls between1 _ k _ h0
  have h1s := foundAt_storeAt h1 (M.findOrAllocateNode k s1).Slot v
  have hp : (((M.afterCall (k, s1)).afterCalls between1).store
      (M.findOrAllocateNode k s1).Slot v).Sentinel.payloadAt (M.findOrAllocateNode k s1).Slot =
      some v := by
    obtain ⟨n, hn, -⟩ := nodeAt_of_foundAt h1
    exact ConcurrentMapNode.payloadAt_storeAt _ _ _ (by rw [hn]; rfl)
  exact ⟨find_of_foundAt (foundAt_afterCalls between2 _ k _ h1s) s2,
    payloadAt_afterCalls between2 _ _ _ hp⟩

/-- C2: after any sequence of sequential `findOrAllocateNode` calls on an empty map, none of
them for the null key `0`, the keys held by the nodes other than the sentinel are pairwise
distinct, they are exactly the keys that were passed, and so the number of these nodes is the
number of distinct keys passed. -/
theorem insertedKeys_afterCalls [Zero KeyTy] (calls : List (KeyTy × Nat))
    (hnull : ∀ c ∈ calls, c.1 ≠ 0) :
    ((ConcurrentMap.new KeyTy ValueTy).afterCalls calls).insertedKeys.Nodup ∧
    (∀ x, x ∈ ((ConcurrentMap.new KeyTy ValueTy).afterCalls calls).insertedKeys ↔
      x ∈ calls.map Prod.fst) ∧
    ((ConcurrentMap.new KeyTy ValueTy).afterCalls calls).insertedKeys.length =
      (calls.map Prod.fst).dedup.length :=
  ⟨nodup_insertedKeys _ (searchTree_reachable calls),
    mem_insertedKeys_reachable calls hnull, length_insertedKeys_reachable calls hnull⟩

/-- C3: the search-tree ordering is an invariant of the map.  It holds for the freshly
constructed map, every `findOrAllocateNode` call preserves it, and hence in every tree
reached by calls from the fresh map every node, the sentinel included, has only smaller keys
below its `Left` edge and only greater keys below its `Right` edge. -/
theorem searchTree_invariant [Zero KeyTy] :
    (ConcurrentMap.new KeyTy ValueTy).Sentinel.SearchTree ∧
    (∀ (M : ConcurrentMap KeyTy ValueTy) (k : KeyTy) (s : Nat),
      M.Sentinel.SearchTree → (M.findOrAllocateNode k s).P.SearchTree) ∧
    (∀ (calls : List (KeyTy × Nat)) (ref : SlotRef) (n : ConcurrentMapNode KeyTy ValueTy),
      ((ConcurrentMap.new KeyTy ValueTy).afterCalls calls).Sentinel.nodeAt ref =
        some n →
      (∀ x ∈ ConcurrentMapNode.edgeKeys (n.edge EdgeSel.Left), x < n.Key) ∧
        (∀ x ∈ ConcurrentMapNode.edgeKeys (n.edge EdgeSel.Right), n.Key < x)) :=
  ⟨ConcurrentMapNode.searchTree_new 0,
    fun M k s h => searchTree_find M.Sentinel k s h,
    fun calls ref n hn => searchTree_reachable calls ref n hn⟩

/-- C4: the tree built by sequential `findOrAllocateNode` calls is the tree built by folding
the reference insertion over the same keys, starting at the sentinel; for the keys
5, 3, 8, 3, 5, 10 it is the sentinel with 5 on its higher edge, 3 and 8 on the lower and
higher edge of 5, 10 on the higher edge of 8, and nothing else. -/
theorem afterCalls_eq_referenceInsert [Zero KeyTy] :
    (∀ calls : List (KeyTy × Nat),
      ((ConcurrentMap.new KeyTy ValueTy).afterCalls calls).Sentinel =
        (calls.map Prod.fst).foldl ConcurrentMapNode.referenceInsert (ConcurrentMapNode.new 0)) ∧
    (∀ calls : List (Nat × Nat), calls.map Prod.fst = [5, 3, 8, 3, 5, 10] →
      ((ConcurrentMap.new Nat ValueTy).afterCalls calls).Sentinel =
        ConcurrentMapNode.mk default none
          (some (ConcurrentMapNode.mk default
            (some (ConcurrentMapNode.mk default none none 3))
            (some (ConcurrentMapNode.mk default none
              (some (ConcurrentMapNode.mk default none none 10)) 8)) 5)) 0) := by
  refine ⟨fun calls => afterCalls_eq_foldl calls _, fun calls h => ?_⟩
  rw [afterCalls_eq_foldl, h]
  rfl

/-- C7: in every map reached by calls from the fresh map, `findOrAllocateNode(k)` returns the
value slot of the sentinel exactly when `k` is the null key `0`; in every case the node whose
slot is returned holds `k`, so for `k` other than `0` it is not the sentinel; and a call for
the null key creates no node and leaves the tree as it was. -/
theorem sentinel_slot_iff_null_key [Zero KeyTy] (calls : List (KeyTy × Nat)) (k : KeyTy)
    (s : Nat) :
    ((((ConcurrentMap.new KeyTy ValueTy).afterCalls calls).findOrAllocateNode k s).Slot = [] ↔
      k = 0) ∧
    (∃ n, (((ConcurrentMap.new KeyTy ValueTy).afterCalls calls).findOrAllocateNode k s).P.nodeAt
        (((ConcurrentMap.new KeyTy ValueTy).afterCalls calls).findOrAllocateNode k s).Slot =
          some n ∧ n.Key = k) ∧
    (((ConcurrentMap.new KeyTy ValueTy).afterCalls calls).findOrAllocateNode 0 s).Allocated = 0 ∧
    (((ConcurrentMap.new KeyTy ValueTy).afterCalls calls).findOrAllocateNode 0 s).P =
      ((ConcurrentMap.new KeyTy ValueTy).afterCalls calls).Sentinel := by
  have hk : ((ConcurrentMap.new KeyTy ValueTy).afterCalls calls).Sentinel.Key = 0 :=
    key_reachable calls
  have h0 := find_here ((ConcurrentMap.new KeyTy ValueTy).afterCalls calls).Sentinel 0 s hk
  refine ⟨?_, nodeAt_of_foundAt (foundAt_find _ k s), ?_, ?_⟩
  · simp only [ConcurrentMap.findOrAllocateNode]
    rw [find_Slot_eq_nil_iff, hk]
  · simp only [ConcurrentMap.findOrAllocateNode]
    rw [h0]
  · simp only [ConcurrentMap.findOrAllocateNode]
    rw [h0]

/-- C10: destroying a map into which calls for `K` distinct keys, none of them the null key,
have inserted nodes destroys exactly `K + 1` nodes, the sentinel included: every node of the
tree is destroyed, nothing else is, no node is destroyed twice, and every child is destroyed
before its parent. -/
theorem destroy_afterCalls [Zero KeyTy] (calls : List (KeyTy × Nat))
    (hnull : ∀ c ∈ calls, c.1 ≠ 0) :
    ((ConcurrentMap.new KeyTy ValueTy).afterCalls calls).destroy.length =
      (calls.map Prod.fst).dedup.length + 1 ∧
    ((ConcurrentMap.new KeyTy ValueTy).afterCalls calls).destroy.Nodup ∧
    (∀ ref, ref ∈ ((ConcurrentMap.new KeyTy ValueTy).afterCalls calls).destroy ↔
      (((ConcurrentMap.new KeyTy ValueTy).afterCalls calls).Sentinel.nodeAt ref).isSome) ∧
    (∀ ref e,
      (((ConcurrentMap.new KeyTy ValueTy).afterCalls calls).Sentinel.nodeAt (ref ++ [e])).isSome →
      ∃ earlier later, ((ConcurrentMap.new KeyTy ValueTy).afterCalls calls).destroy =
        earlier ++ (ref ++ [e]) :: later ∧ ref ∈ later) := by
  refine ⟨?_, ConcurrentMapNode.nodup_destroy _, ConcurrentMapNode.mem_destroy _, ?_⟩
  · rw [ConcurrentMap.destroy, ConcurrentMapNode.length_destroy, length_keys_eq]
    exact congrArg (· + 1) (length_insertedKeys_reachable calls hnull)
  · intro ref e h
    have hchild := (ConcurrentMapNode.mem_destroy _ _).mpr h
    have hparent : ref ∈ ((ConcurrentMap.new KeyTy ValueTy).afterCalls calls).destroy :=
      (ConcurrentMapNode.mem_destroy _ _).mpr
        (ConcurrentMapNode.isSome_nodeAt_of_append _ ref [e] h)
    exact before_of_pairwise _ _ _ (ConcurrentMapNode.pairwise_destroy _) hchild hparent
      (fun hR => hR e rfl) (by simp)

/-- Witness of C2 on the calls for 5, 3, 8, 3, 5, 10: four nodes, for 3, 5, 8 and 10. -/
theorem insertedKeys_afterCalls_witness :
    (∀ c ∈ [((5 : Nat), 0), (3, 1), (8, 0), (3, 0), (5, 2), (10, 0)], c.1 ≠ 0) ∧
    ((ConcurrentMap.new Nat Nat).afterCalls
        [(5, 0), (3, 1), (8, 0), (3, 0), (5, 2), (10, 0)]).insertedKeys.Nodup ∧
    (∀ x, x ∈ ((ConcurrentMap.new Nat Nat).afterCalls
        [(5, 0), (3, 1), (8, 0), (3, 0), (5, 2), (10, 0)]).insertedKeys ↔
      x ∈ [5, 3, 8, 3, 5, 10]) ∧
    ((ConcurrentMap.new Nat Nat).afterCalls
        [(5, 0), (3, 1), (8, 0), (3, 0), (5, 2), (10, 0)]).insertedKeys.length = 4 :=
  ⟨by decide,
    @insertedKeys_afterCalls Nat Nat _ _ _
      [(5, 0), (3, 1), (8, 0), (3, 0), (5, 2), (10, 0)] (by decide)⟩

/-- Witness of C3: the ordering survives a call on the fresh map, and the node holding 5
after the calls for 5 and 3 has 3 below its lower edge and nothing below its higher edge. -/
theorem searchTree_invariant_witness :
    (ConcurrentMap.new Nat Nat).Sentinel.SearchTree ∧
    ((ConcurrentMap.new Nat Nat).findOrAllocateNode 5 1).P.SearchTree ∧
    ((ConcurrentMap.new Nat Nat).afterCalls [(5, 0), (3, 2)]).Sentinel.nodeAt
        [EdgeSel.Right] =
      some (ConcurrentMapNode.mk 0 (some (ConcurrentMapNode.mk 0 none none 3)) none 5) ∧
    (∀ x ∈ [3], x < 5) ∧ (∀ x ∈ ([] : List Nat), 5 < x) :=
  have reached : ((ConcurrentMap.new Nat Nat).afterCalls
      [(5, 0), (3, 2)]).Sentinel.nodeAt [EdgeSel.Right] =
      some (ConcurrentMapNode.mk 0 (some (ConcurrentMapNode.mk 0 none none 3)) none 5) := by
    rw [afterCalls_eq_foldl]; rfl
  ⟨(@searchTree_invariant Nat Nat _ _ _).1,
    (@searchTree_invariant Nat Nat _ _ _).2.1 (ConcurrentMap.new Nat Nat) 5 1
      (@searchTree_invariant Nat Nat _ _ _).1,
    reached,
    (@searchTree_invariant Nat Nat _ _ _).2.2 [(5, 0), (3, 2)] [EdgeSel.Right] _ reached⟩

/-- Witness of C4 on the calls for 5, 3, 8, 3, 5, 10, three of them meeting spurious
failures of the exchange. -/
theorem afterCalls_eq_referenceInsert_witness :
    [((5 : Nat), 0), (3, 1), (8, 0), (3, 0), (5, 2), (10, 3)].map Prod.fst = [5, 3, 8, 3, 5, 10] ∧
    ((ConcurrentMap.new Nat Nat).afterCalls
        [(5, 0), (3, 1), (8, 0), (3, 0), (5, 2), (10, 3)]).Sentinel =
      ConcurrentMapNode.mk 0 none
        (some (ConcurrentMapNode.mk 0
          (some (ConcurrentMapNode.mk 0 none none 3))
          (some (ConcurrentMapNode.mk 0 none
            (some (ConcurrentMapNode.mk 0 none none 10)) 8)) 5)) 0 :=
  ⟨rfl, (@afterCalls_eq_referenceInsert Nat Nat _ _ _).2
    [(5, 0), (3, 1), (8, 0), (3, 0), (5, 2), (10, 3)] rfl⟩

/-- Witness of C10 on the calls for 5, 3, 8, 3, 5, 10: five nodes are destroyed. -/
theorem destroy_afterCalls_witness :
    (∀ c ∈ [((5 : Nat), 0), (3, 1), (8, 0), (3, 0), (5, 2), (10, 0)], c.1 ≠ 0) ∧
    ((ConcurrentMap.new Nat Nat).afterCalls
        [(5, 0), (3, 1), (8, 0), (3, 0), (5, 2), (10, 0)]).destroy.length = 4 + 1 ∧
    ((ConcurrentMap.new Nat Nat).afterCalls
        [(5, 0), (3, 1), (8, 0), (3, 0), (5, 2), (10, 0)]).destroy.Nodup :=
  ⟨by decide,
    (@destroy_afterCalls Nat Nat _ _ _
      [(5, 0), (3, 1), (8, 0), (3, 0), (5, 2), (10, 0)] (by decide)).1,
    (@destroy_afterCalls Nat Nat _ _ _
      [(5, 0), (3, 1), (8, 0), (3, 0), (5, 2), (10, 0)] (by decide)).2.1⟩

end MapClaims

/-! ## The memory of the list and its chains -/

section ListMemory

variable {ElemTy : Type}

theorem length_setNext (Mem : List (ConcurrentListNode ElemTy)) (N : Nat) (v : Option Nat) :
    (ConcurrentListNode.setNext Mem N v).length = Mem.length := by
  unfold ConcurrentListNode.setNext
  cases Mem[N]? <;> simp

theorem getElem?_setNext_ne (Mem : List (ConcurrentListNode ElemTy)) (N a : Nat)
    (v : Option Nat) (h : a ≠ N) : (ConcurrentListNode.setNext Mem N v)[a]? = Mem[a]? := by
  unfold ConcurrentListNode.setNext
  cases Mem[N]? with
  | none => rfl
  | some n => exact List.getElem?_set_ne (Ne.symm h)

theorem getElem?_setNext_self (Mem : List (ConcurrentListNode ElemTy)) (N : Nat)
    (v : Option Nat) (n : ConcurrentListNode ElemTy) (h : Mem[N]? = some n) :
    (ConcurrentListNode.setNext Mem N v)[N]? = some ⟨n.Payload, v⟩ := by
  unfold ConcurrentListNode.setNext
  rw [h]
  have hlt : N < Mem.length := by
    rcases Nat.lt_or_ge N Mem.length with h1 | h1
    · exact h1
    · rw [List.getElem?_eq_none h1] at h; cases h
  simp [List.getElem?_set_self hlt]

theorem setNext_same (Mem : List (ConcurrentListNode ElemTy)) (N : Nat)
    (n : ConcurrentListNode ElemTy) (h : Mem[N]? = some n) :
    ConcurrentListNode.setNext Mem N n.Next = Mem := by
  apply List.ext_getElem?
  intro a
  by_cases ha : a = N
  · subst ha
    rw [getElem?_setNext_self Mem a n.Next n h, h]
  · exact getElem?_setNext_ne Mem N a n.Next ha

theorem linkChain_congr {Mem Mem2 : List (ConcurrentListNode ElemTy)} {p : Option Nat}
    {chain : List (Nat × ElemTy)} (h : LinkChain Mem p chain)
    (hsame : ∀ a, a ∈ chain.map Prod.fst → Mem2[a]? = Mem[a]?) : LinkChain Mem2 p chain := by
  induction h with
  | null => exact LinkChain.null
  | link a n rest hn _ ih =>
    refine LinkChain.link a n rest ?_ (ih (fun b hb => hsame b (by simp [hb])))
    rw [hsame a (by simp), hn]

theorem linkChain_lt {Mem : List (ConcurrentListNode ElemTy)} {p : Option Nat}
    {chain : List (Nat × ElemTy)} (h : LinkChain Mem p chain) :
    ∀ a, a ∈ chain.map Prod.fst → a < Mem.length := by
  induction h with
  | null => intro a ha; simp at ha
  | link a n rest hn _ ih =>
    intro b hb
    simp only [List.map_cons, List.mem_cons] at hb
    rcases hb with hb | hb
    · subst hb
      rcases Nat.lt_or_ge b Mem.length with h1 | h1
      · exact h1
      · rw [List.getElem?_eq_none h1] at hn; cases hn
    · exact ih b hb

theorem linkChain_append {Mem : List (ConcurrentListNode ElemTy)} {p : Option Nat}
    {chain : List (Nat × ElemTy)} (h : LinkChain Mem p chain)
    (more : List (ConcurrentListNode ElemTy)) : LinkChain (Mem ++ more) p chain :=
  linkChain_congr h (fun a ha => List.getElem?_append_left (linkChain_lt h a ha))

theorem linkChain_setNext {Mem : List (ConcurrentListNode ElemTy)} {p : Option Nat}
    {chain : List (Nat × ElemTy)} (h : LinkChain Mem p chain) (N : Nat) (v : Option Nat)
    (hN : N ∉ chain.map Prod.fst) : LinkChain (ConcurrentListNode.setNext Mem N v) p chain :=
  linkChain_congr h (fun a ha => getElem?_setNext_ne Mem N a v (fun e => hN (e ▸ ha)))

theorem linkChain_unique {Mem : List (ConcurrentListNode ElemTy)} {p : Option Nat}
    {c1 c2 : List (Nat × ElemTy)} (h1 : LinkChain Mem p c1) (h2 : LinkChain Mem p c2) :
    c1 = c2 := by
  induction h1 generalizing c2 with
  | null => cases h2; rfl
  | link a n rest hn _ ih =>
    cases h2 with
    | link _ n2 rest2 hn2 hr2 =>
      rw [hn] at hn2
      cases hn2
      rw [ih hr2]

theorem iterate_of_linkChain {Mem : List (ConcurrentListNode ElemTy)} {p : Option Nat}
    {chain : List (Nat × ElemTy)} (h : LinkChain Mem p chain) (extra : Nat) :
    ConcurrentList.iterate Mem (chain.length + extra) ⟨p⟩ = some chain := by
  induction h with
  | null =>
    unfold ConcurrentList.iterate
    simp [ConcurrentList.end_]
  | link a n rest hn _ ih =>
    have hlen : ((a, n.Payload) :: rest).length + extra = (rest.length + extra) + 1 := by
      simp; omega
    rw [hlen]
    unfold ConcurrentList.iterate
    simp [ConcurrentList.end_, ConcurrentListIterator.deref, ConcurrentListIterator.next, hn, ih]

end ListMemory

/-! ## `push_front` with no other thread -/

section ListSequential

variable {ElemTy : Type}

theorem push_front_loop_alone (N : Nat) (s : Nat) (L : ConcurrentList ElemTy)
    (n : ConcurrentListNode ElemTy) (hn : L.Mem[N]? = some n) (hnext : n.Next = L.First) :
    ConcurrentList.push_front_loop N (List.replicate s true ++ [false]) L L.First =
      some ⟨L.Mem, some N⟩ := by
  induction s with
  | zero =>
    simp [ConcurrentList.push_front_loop, compare_exchange_weak]
  | succ s ih =>
    simp only [List.replicate_succ, List.cons_append, ConcurrentList.push_front_loop,
      compare_exchange_weak]
    simp only [Bool.true_eq_false, and_false, if_false]
    rw [← hnext, setNext_same L.Mem N n hn, hnext]
    exact ih

theorem push_front_eq (L : ConcurrentList ElemTy) (Elem : ElemTy) (s : Nat) :
    L.push_front Elem s = some ⟨L.Mem ++ [⟨Elem, L.First⟩], some L.Mem.length⟩ := by
  have h0 : (L.Mem ++ [(⟨Elem, none⟩ : ConcurrentListNode ElemTy)])[L.Mem.length]? =
      some ⟨Elem, none⟩ := by simp
  have h1 := getElem?_setNext_self _ L.Mem.length L.First _ h0
  have hmem : ConcurrentListNode.setNext (L.Mem ++ [(⟨Elem, none⟩ : ConcurrentListNode ElemTy)])
      L.Mem.length L.First = L.Mem ++ [⟨Elem, L.First⟩] := by
    apply List.ext_getElem?
    intro a
    by_cases ha : a = L.Mem.length
    · subst ha
      rw [h1]; simp
    · rw [getElem?_setNext_ne _ _ _ _ ha]
      rcases Nat.lt_or_ge a L.Mem.length with hlt | hge
      · rw [List.getElem?_append_left hlt, List.getElem?_append_left hlt]
      · have hgt : L.Mem.length < a := lt_of_le_of_ne hge (Ne.symm ha)
        rw [List.getElem?_eq_none (by simp; omega), List.getElem?_eq_none (by simp; omega)]
  unfold ConcurrentList.push_front
  simp only [ConcurrentListNode.getNext, h1, Option.map_some']
  have := push_front_loop_alone L.Mem.length s
    ⟨ConcurrentListNode.setNext (L.Mem ++ [(⟨Elem, none⟩ : ConcurrentListNode ElemTy)])
      L.Mem.length L.First, L.First⟩ ⟨Elem, L.First⟩ h1 rfl
  rw [this, hmem]

theorem push_front_all_spec (calls : List (ElemTy × Nat)) (L : ConcurrentList ElemTy)
    (chain : List (Nat × ElemTy)) (h : LinkChain L.Mem L.First chain) :
    ∃ L2, L.push_front_all calls = some L2 ∧
      LinkChain L2.Mem L2.First
        (((calls.map Prod.fst).enumFrom L.Mem.length).reverse ++ chain) ∧
      L2.Mem.length = L.Mem.length + calls.length ∧
      ∀ a, a < L.Mem.length → L2.Mem[a]? = L.Mem[a]? := by
  induction calls generalizing L chain with
  | nil => exact ⟨L, rfl, by simpa using h, rfl, fun _ _ => rfl⟩
  | cons c calls ih =>
    have hstep : LinkChain (L.Mem ++ [⟨c.1, L.First⟩]) (some L.Mem.length)
        ((L.Mem.length, c.1) :: chain) :=
      LinkChain.link L.Mem.length ⟨c.1, L.First⟩ chain (by simp) (linkChain_append h _)
    obtain ⟨L2, h2, hc2, hl2, hf2⟩ := ih ⟨L.Mem ++ [⟨c.1, L.First⟩], some L.Mem.length⟩ _ hstep
    refine ⟨L2, ?_, ?_, ?_, ?_⟩
    · simp only [ConcurrentList.push_front_all, push_front_eq]
      exact h2
    · simp only [List.length_append, List.length_singleton] at hc2
      simpa [List.enumFrom] using hc2
    · rw [hl2]; simp; omega
    · intro a ha
      rw [hf2 a (by simp; omega)]
      exact List.getElem?_append_left ha

end ListSequential

/-! ## The sequential contract of the list -/

section ListClaims

variable {ElemTy : Type}

theorem iterate_short {Mem : List (ConcurrentListNode ElemTy)} {p : Option Nat}
    {chain : List (Nat × ElemTy)} (h : LinkChain Mem p chain) (fuel : Nat)
    (hf : fuel < chain.length) : ConcurrentList.iterate Mem fuel ⟨p⟩ = none := by
  induction h generalizing fuel with
  | null => simp at hf
  | link a n rest hn _ ih =>
    cases fuel with
    | zero =>
      unfold ConcurrentList.iterate
      simp [ConcurrentList.end_]
    | succ fuel =>
      unfold ConcurrentList.iterate
      simp only [List.length_cons, Nat.succ_lt_succ_iff] at hf
      simp [ConcurrentList.end_, ConcurrentListIterator.deref, ConcurrentListIterator.next, hn,
        ih fuel hf]

theorem iterate_eq_of_linkChain {Mem Mem2 : List (ConcurrentListNode ElemTy)} {p : Option Nat}
    {chain : List (Nat × ElemTy)} (h : LinkChain Mem p chain) (h2 : LinkChain Mem2 p chain)
    (fuel : Nat) : ConcurrentList.iterate Mem2 fuel ⟨p⟩ = ConcurrentList.iterate Mem fuel ⟨p⟩ := by
  rcases Nat.lt_or_ge fuel chain.length with hf | hf
  · rw [iterate_short h fuel hf, iterate_short h2 fuel hf]
  · obtain ⟨extra, rfl⟩ := Nat.exists_eq_add_of_le hf
    rw [iterate_of_linkChain h extra, iterate_of_linkChain h2 extra]

/-- C5: for every sequence of `push_front` calls on an empty list, made one after the other
(each call may meet any number of spurious exchange failures), every call completes, and the
iteration from `begin()` to `end()` visits the pushed nodes in reverse order of pushing, each
exactly once (the node of the i-th push is the one at address i), so the elements it yields
are the pushed elements reversed; `push_front` of a, b, c iterates as c, b, a. -/
theorem push_front_all_iterate (calls : List (ElemTy × Nat)) (extra : Nat) :
    ((ConcurrentList.new ElemTy).push_front_all calls).bind
        (fun L => ConcurrentList.iterate L.Mem (calls.length + extra) L.begin) =
      some ((calls.map Prod.fst).enum.reverse) ∧
    ((ConcurrentList.new ElemTy).push_front_all calls).bind
        (fun L => ConcurrentList.elementsFrom L.Mem (calls.length + extra) L.begin) =
      some (calls.map Prod.fst).reverse := by
  obtain ⟨L2, h2, hc, -, -⟩ := push_front_all_spec calls (ConcurrentList.new ElemTy) []
    LinkChain.null
  have hlen : (((calls.map Prod.fst).enumFrom (ConcurrentList.new ElemTy).Mem.length).reverse ++
      ([] : List (Nat × ElemTy))).length = calls.length := by simp
  have hit := iterate_of_linkChain hc extra
  rw [hlen] at hit
  have henum : ((calls.map Prod.fst).enumFrom (ConcurrentList.new ElemTy).Mem.length).reverse ++
      ([] : List (Nat × ElemTy)) = (calls.map Prod.fst).enum.reverse := by
    simp [ConcurrentList.new, List.enum]
  rw [henum] at hit
  rw [h2]
  refine ⟨hit, ?_⟩
  simp only [Option.some_bind, ConcurrentList.elementsFrom, ConcurrentList.begin] at hit ⊢
  rw [hit]
  simp [List.map_reverse, List.enum_map_snd]

/-- C6: an iterator obtained from `begin()` is a snapshot.  For every list state whose chain
from `First` is `chain`, and every sequence of `push_front` calls made afterwards, the calls
complete and advancing the iterator to `end()` in the memory after the calls does what it
does in the memory before them, with every amount of fuel: it yields exactly `chain`, all of
whose nodes already existed when `begin()` was called; the pushes have left every node that
existed then as it was, and the nodes they created lie at the addresses behind them. -/
theorem iterator_snapshot (L : ConcurrentList ElemTy) (chain : List (Nat × ElemTy))
    (h : LinkChain L.Mem L.First chain) (calls : List (ElemTy × Nat)) (fuel : Nat) :
    ∃ L2, L.push_front_all calls = some L2 ∧
      ConcurrentList.iterate L2.Mem fuel L.begin = ConcurrentList.iterate L.Mem fuel L.begin ∧
      ConcurrentList.iterate L2.Mem (chain.length + fuel) L.begin = some chain ∧
      (∀ a x, (a, x) ∈ chain → a < L.Mem.length) ∧
      (∀ a, a < L.Mem.length → L2.Mem[a]? = L.Mem[a]?) ∧
      L2.Mem.length = L.Mem.length + calls.length := by
  obtain ⟨L2, h2, -, hl, hf⟩ := push_front_all_spec calls L chain h
  have hc2 : LinkChain L2.Mem L.First chain :=
    linkChain_congr h (fun a ha => hf a (linkChain_lt h a ha))
  refine ⟨L2, h2, iterate_eq_of_linkChain h hc2 fuel, iterate_of_linkChain hc2 fuel, ?_, hf, hl⟩
  intro a x hax
  exact linkChain_lt h a (List.mem_map.mpr ⟨(a, x), hax, rfl⟩)

/-- Witness of C6: the list holding 9 and 7, two later pushes of 4 and 5. -/
theorem iterator_snapshot_witness :
    LinkChain (⟨[⟨7, none⟩, ⟨9, some 0⟩], some 1⟩ : ConcurrentList Nat).Mem (some 1)
      [(1, 9), (0, 7)] ∧
    ∃ L2, (⟨[⟨7, none⟩, ⟨9, some 0⟩], some 1⟩ : ConcurrentList Nat).push_front_all
        [(4, 1), (5, 0)] = some L2 ∧
      ConcurrentList.iterate L2.Mem 2 ⟨some 1⟩ =
        ConcurrentList.iterate [⟨7, none⟩, ⟨9, some 0⟩] 2 ⟨some 1⟩ ∧
      ConcurrentList.iterate L2.Mem (2 + 2) ⟨some 1⟩ = some [(1, 9), (0, 7)] ∧
      (∀ a x, (a, x) ∈ [(1, 9), (0, 7)] → a < 2) ∧
      (∀ a, a < 2 → L2.Mem[a]? = [(⟨7, none⟩ : ConcurrentListNode Nat), ⟨9, some 0⟩][a]?) ∧
      L2.Mem.length = 2 + 2 :=
  have chained : LinkChain (⟨[⟨7, none⟩, ⟨9, some 0⟩], some 1⟩ : ConcurrentList Nat).Mem (some 1)
      [(1, 9), (0, 7)] :=
    LinkChain.link 1 ⟨9, some 0⟩ [(0, 7)] rfl
      (LinkChain.link 0 ⟨7, none⟩ [] rfl LinkChain.null)
  ⟨chained, iterator_snapshot ⟨[⟨7, none⟩, ⟨9, some 0⟩], some 1⟩ [(1, 9), (0, 7)] chained
    [(4, 1), (5, 0)] 2⟩

end ListClaims

/-! ## The invariant of concurrent `push_front` -/

section PushInvariant

variable {ElemTy : Type}

theorem split_of_getElem? {α : Type} (l : List α) (i : Nat) (t : α) (h : l[i]? = some t) :
    ∃ pre post, l = pre ++ t :: post ∧ pre.length = i ∧
      ∀ x, l.set i x = pre ++ x :: post := by
  induction l generalizing i with
  | nil => simp at h
  | cons a l ih =>
    cases i with
    | zero =>
      simp only [List.getElem?_cons_zero, Option.some.injEq] at h
      subst h
      exact ⟨[], l, rfl, rfl, fun x => rfl⟩
    | succ i =>
      simp only [List.getElem?_cons_succ] at h
      obtain ⟨pre, post, h1, h2, h3⟩ := ih i h
      refine ⟨a :: pre, post, by rw [h1]; rfl, by simp [h2], fun x => ?_⟩
      simp [List.set, h3 x]

theorem payload_setNext (Mem : List (ConcurrentListNode ElemTy)) (N a : Nat) (v : Option Nat) :
    ((ConcurrentListNode.setNext Mem N v)[a]?).map ConcurrentListNode.Payload =
      (Mem[a]?).map ConcurrentListNode.Payload := by
  by_cases ha : a = N
  · subst ha
    cases hn : Mem[a]? with
    | none => simp [ConcurrentListNode.setNext, hn]
    | some n => rw [getElem?_setNext_self Mem a v n hn]; rfl
  · rw [getElem?_setNext_ne Mem N a v ha]

theorem pending_congr (Mem Mem2 : List (ConcurrentListNode ElemTy)) (t : PushThread ElemTy)
    (h : ∀ N, PushSystem.owned t = some N →
      (Mem2[N]?).map ConcurrentListNode.Payload = (Mem[N]?).map ConcurrentListNode.Payload) :
    PushSystem.pending Mem2 t = PushSystem.pending Mem t := by
  unfold PushSystem.pending
  cases ho : PushSystem.owned t with
  | none => rfl
  | some N => simp only [Option.some_bind, h N ho]

theorem flatMap_pending_congr (Mem Mem2 : List (ConcurrentListNode ElemTy))
    (ts : List (PushThread ElemTy))
    (h : ∀ t ∈ ts, ∀ N, PushSystem.owned t = some N →
      (Mem2[N]?).map ConcurrentListNode.Payload = (Mem[N]?).map ConcurrentListNode.Payload) :
    ts.flatMap (PushSystem.pending Mem2) = ts.flatMap (PushSystem.pending Mem) := by
  induction ts with
  | nil => rfl
  | cons t ts ih =>
    simp only [List.flatMap_cons]
    rw [pending_congr Mem Mem2 t (h t (List.mem_cons_self _ _)),
      ih (fun t2 ht2 => h t2 (List.mem_cons_of_mem _ ht2))]

/-- Allocation of a node keeps the invariant. -/
theorem inv_allocate (Mem : List (ConcurrentListNode ElemTy)) (First : Option Nat)
    (pre post : List (PushThread ElemTy)) (Elem : ElemTy) (todo : List ElemTy)
    (chain : List (Nat × ElemTy)) (total : List ElemTy)
    (h : PushSystem.Inv ⟨⟨Mem, First⟩, pre ++ ⟨Elem :: todo, PushState.idle⟩ :: post⟩ chain total) :
    PushSystem.Inv ⟨⟨Mem ++ [⟨Elem, none⟩], First⟩,
      pre ++ ⟨todo, PushState.allocated Mem.length⟩ :: post⟩ chain total := by
  have hothers : ∀ t, t ∈ pre ∨ t ∈ post → ∀ N, PushSystem.owned t = some N →
      N < Mem.length ∧ N ∉ chain.map Prod.fst := by
    intro t ht N hN
    refine h.ownedValid t ?_ N hN
    simp only [List.mem_append, List.mem_cons]
    tauto
  have hsame : ∀ t, t ∈ pre ∨ t ∈ post → ∀ N, PushSystem.owned t = some N →
      ((Mem ++ [(⟨Elem, none⟩ : ConcurrentListNode ElemTy)])[N]?).map ConcurrentListNode.Payload =
        (Mem[N]?).map ConcurrentListNode.Payload := by
    intro t ht N hN
    rw [List.getElem?_append_left (hothers t ht N hN).1]
  constructor
  · exact linkChain_append h.chained _
  · exact h.chainNodup
  · intro t ht N hN
    simp only [List.mem_append, List.mem_cons] at ht
    rcases ht with ht | ht | ht
    · have := hothers t (Or.inl ht) N hN
      exact ⟨by simp; omega, this.2⟩
    · subst ht
      simp only [PushSystem.owned, Option.some.injEq] at hN
      subst hN
      refine ⟨by simp, fun hmem => ?_⟩
      exact absurd (linkChain_lt h.chained _ hmem) (lt_irrefl _)
    · have := hothers t (Or.inr ht) N hN
      exact ⟨by simp; omega, this.2⟩
  · intro t ht N o hpc
    simp only [List.mem_append, List.mem_cons] at ht
    have hown : PushSystem.owned t = some N := by simp [PushSystem.owned, hpc]
    rcases ht with ht | ht | ht
    · obtain ⟨n, hn, hnext⟩ := h.nextSet t (by simp [ht]) N o hpc
      exact ⟨n, by rw [List.getElem?_append_left (hothers t (Or.inl ht) N hown).1]; exact hn, hnext⟩
    · subst ht
      cases hpc
    · obtain ⟨n, hn, hnext⟩ := h.nextSet t (by simp [ht]) N o hpc
      exact ⟨n, by rw [List.getElem?_append_left (hothers t (Or.inr ht) N hown).1]; exact hn, hnext⟩
  · have hold := h.ownedNodup
    simp only [List.filterMap_append, List.filterMap_cons, PushSystem.owned] at hold ⊢
    rw [List.nodup_append] at hold ⊢
    refine ⟨hold.1, ?_, ?_⟩
    · rw [List.nodup_cons]
      refine ⟨fun hmem => ?_, hold.2.1⟩
      obtain ⟨t, ht, hN⟩ := List.mem_filterMap.mp hmem
      exact absurd (hothers t (Or.inr ht) _ hN).1 (lt_irrefl _)
    · intro a ha hb
      rw [List.mem_cons] at hb
      rcases hb with hb | hb
      · subst hb
        obtain ⟨t, ht, hN⟩ := List.mem_filterMap.mp ha
        exact absurd (hothers t (Or.inl ht) _ hN).1 (lt_irrefl _)
      · exact hold.2.2 ha hb
  · have hacc := h.account
    simp only [List.flatMap_append, List.flatMap_cons] at hacc ⊢
    rw [flatMap_pending_congr Mem _ pre (fun t ht => hsame t (Or.inl ht)),
      flatMap_pending_congr Mem _ post (fun t ht => hsame t (Or.inr ht))]
    have hp : PushSystem.pending (Mem ++ [(⟨Elem, none⟩ : ConcurrentListNode ElemTy)])
        ⟨todo, PushState.allocated Mem.length⟩ =
        PushSystem.pending Mem ⟨Elem :: todo, PushState.idle⟩ := by
      simp [PushSystem.pending, PushSystem.owned]
    rw [hp]
    exact hacc

end PushInvariant

section PushInvariant2

variable {ElemTy : Type}

/-- A store into `Next` of the node a thread holds keeps the invariant, and leaves the thread
ready to exchange. -/
theorem inv_store (Mem : List (ConcurrentListNode ElemTy)) (First : Option Nat)
    (pre post : List (PushThread ElemTy)) (t : PushThread ElemTy) (N : Nat) (v : Option Nat)
    (chain : List (Nat × ElemTy)) (total : List ElemTy)
    (hown : PushSystem.owned t = some N)
    (h : PushSystem.Inv ⟨⟨Mem, First⟩, pre ++ t :: post⟩ chain total) :
    PushSystem.Inv ⟨⟨ConcurrentListNode.setNext Mem N v, First⟩,
      pre ++ ⟨t.todo, PushState.exchange N v⟩ :: post⟩ chain total := by
  have hN := h.ownedValid t (by simp) N hown
  have hne : ∀ t2, t2 ∈ pre ∨ t2 ∈ post → ∀ N2, PushSystem.owned t2 = some N2 → N2 ≠ N := by
    intro t2 ht2 N2 hN2 heq
    subst heq
    have hnd := h.ownedNodup
    simp only [List.filterMap_append, List.filterMap_cons, hown] at hnd
    rw [List.nodup_append] at hnd
    rcases ht2 with ht2 | ht2
    · exact hnd.2.2 (List.mem_filterMap.mpr ⟨t2, ht2, hN2⟩) (List.mem_cons_self _ _)
    · exact (List.nodup_cons.mp hnd.2.1).1 (List.mem_filterMap.mpr ⟨t2, ht2, hN2⟩)
  have hown2 : PushSystem.owned (⟨t.todo, PushState.exchange N v⟩ : PushThread ElemTy) =
      some N := rfl
  constructor
  · exact linkChain_setNext h.chained N v hN.2
  · exact h.chainNodup
  · intro t2 ht2 N2 hN2
    rw [length_setNext]
    simp only [List.mem_append, List.mem_cons] at ht2
    rcases ht2 with ht2 | ht2 | ht2
    · exact h.ownedValid t2 (by simp [ht2]) N2 hN2
    · subst ht2
      rw [hown2] at hN2
      cases hN2
      exact hN
    · exact h.ownedValid t2 (by simp [ht2]) N2 hN2
  · intro t2 ht2 N2 o hpc
    simp only [List.mem_append, List.mem_cons] at ht2
    have hown3 : PushSystem.owned t2 = some N2 := by simp [PushSystem.owned, hpc]
    rcases ht2 with ht2 | ht2 | ht2
    · obtain ⟨n, hn, hnext⟩ := h.nextSet t2 (by simp [ht2]) N2 o hpc
      exact ⟨n, by rw [getElem?_setNext_ne _ _ _ _ (hne t2 (Or.inl ht2) N2 hown3)]; exact hn, hnext⟩
    · subst ht2
      cases hpc
      obtain ⟨n, hn⟩ : ∃ n, Mem[N]? = some n := by
        cases hn : Mem[N]? with
        | none =>
          rw [List.getElem?_eq_none_iff] at hn
          exact absurd hN.1 (not_lt.mpr hn)
        | some n => exact ⟨n, rfl⟩
      exact ⟨_, getElem?_setNext_self Mem N v n hn, rfl⟩
    · obtain ⟨n, hn, hnext⟩ := h.nextSet t2 (by simp [ht2]) N2 o hpc
      exact ⟨n, by rw [getElem?_setNext_ne _ _ _ _ (hne t2 (Or.inr ht2) N2 hown3)]; exact hn, hnext⟩
  · have hnd := h.ownedNodup
    simp only [List.filterMap_append, List.filterMap_cons, hown, hown2] at hnd ⊢
    exact hnd
  · have hacc := h.account
    simp only [List.flatMap_append, List.flatMap_cons] at hacc ⊢
    rw [flatMap_pending_congr Mem _ pre (fun _ _ _ _ => payload_setNext Mem N _ v),
      flatMap_pending_congr Mem _ post (fun _ _ _ _ => payload_setNext Mem N _ v)]
    have hp : PushSystem.pending (ConcurrentListNode.setNext Mem N v)
        ⟨t.todo, PushState.exchange N v⟩ = PushSystem.pending Mem t := by
      unfold PushSystem.pending
      rw [hown, hown2]
      simp only [Option.some_bind, payload_setNext]
    rw [hp]
    exact hacc

/-- A successful exchange puts the node of the thread in front of the chain and keeps the
invariant. -/
theorem inv_link (Mem : List (ConcurrentListNode ElemTy)) (First : Option Nat)
    (pre post : List (PushThread ElemTy)) (todo : List ElemTy) (N : Nat)
    (chain : List (Nat × ElemTy)) (total : List ElemTy)
    (h : PushSystem.Inv ⟨⟨Mem, First⟩, pre ++ ⟨todo, PushState.exchange N First⟩ :: post⟩
      chain total) :
    ∃ x, PushSystem.Inv ⟨⟨Mem, some N⟩, pre ++ ⟨todo, PushState.idle⟩ :: post⟩
      ((N, x) :: chain) total := by
  have hown : PushSystem.owned (⟨todo, PushState.exchange N First⟩ : PushThread ElemTy) =
      some N := rfl
  have hN := h.ownedValid _ (by simp) N hown
  obtain ⟨n, hn, hnext⟩ := h.nextSet ⟨todo, PushState.exchange N First⟩ (by simp) N First rfl
  have hne : ∀ t2, t2 ∈ pre ∨ t2 ∈ post → ∀ N2, PushSystem.owned t2 = some N2 → N2 ≠ N := by
    intro t2 ht2 N2 hN2 heq
    subst heq
    have hnd := h.ownedNodup
    simp only [List.filterMap_append, List.filterMap_cons, hown] at hnd
    rw [List.nodup_append] at hnd
    rcases ht2 with ht2 | ht2
    · exact hnd.2.2 (List.mem_filterMap.mpr ⟨t2, ht2, hN2⟩) (List.mem_cons_self _ _)
    · exact (List.nodup_cons.mp hnd.2.1).1 (List.mem_filterMap.mpr ⟨t2, ht2, hN2⟩)
  refine ⟨n.Payload, ?_⟩
  constructor
  · exact LinkChain.link N n chain hn (by rw [hnext]; exact h.chained)
  · simp only [List.map_cons, List.nodup_cons]
    exact ⟨hN.2, h.chainNodup⟩
  · intro t2 ht2 N2 hN2
    simp only [List.mem_append, List.mem_cons] at ht2
    simp only [List.map_cons, List.mem_cons, not_or]
    rcases ht2 with ht2 | ht2 | ht2
    · have := h.ownedValid t2 (by simp [ht2]) N2 hN2
      exact ⟨this.1, hne t2 (Or.inl ht2) N2 hN2, this.2⟩
    · subst ht2
      cases hN2
    · have := h.ownedValid t2 (by simp [ht2]) N2 hN2
      exact ⟨this.1, hne t2 (Or.inr ht2) N2 hN2, this.2⟩
  · intro t2 ht2 N2 o hpc
    simp only [List.mem_append, List.mem_cons] at ht2
    rcases ht2 with ht2 | ht2 | ht2
    · exact h.nextSet t2 (by simp [ht2]) N2 o hpc
    · subst ht2
      cases hpc
    · exact h.nextSet t2 (by simp [ht2]) N2 o hpc
  · have hnd := h.ownedNodup
    simp only [List.filterMap_append, List.filterMap_cons, hown] at hnd
    have hidle : PushSystem.owned (⟨todo, PushState.idle⟩ : PushThread ElemTy) = none := rfl
    simp only [List.filterMap_append, List.filterMap_cons, hidle]
    rw [List.nodup_append] at hnd ⊢
    exact ⟨hnd.1, (List.nodup_cons.mp hnd.2.1).2,
      fun a ha hb => hnd.2.2 ha (List.mem_cons_of_mem _ hb)⟩
  · have hacc := h.account
    simp only [List.flatMap_append, List.flatMap_cons, List.map_cons] at hacc ⊢
    have hp1 : PushSystem.pending Mem ⟨todo, PushState.exchange N First⟩ = n.Payload :: todo := by
      simp [PushSystem.pending, PushSystem.owned, hn]
    have hp2 : PushSystem.pending Mem (⟨todo, PushState.idle⟩ : PushThread ElemTy) = todo := by
      simp [PushSystem.pending, PushSystem.owned]
    rw [hp1] at hacc
    rw [hp2]
    refine List.Perm.trans ?_ hacc
    have : (n.Payload :: List.map Prod.snd chain ++
        (pre.flatMap (PushSystem.pending Mem) ++ (todo ++ post.flatMap (PushSystem.pending Mem)))) =
        n.Payload :: (List.map Prod.snd chain ++ pre.flatMap (PushSystem.pending Mem)) ++
          (todo ++ post.flatMap (PushSystem.pending Mem)) := by simp
    rw [this]
    have h2 : (List.map Prod.snd chain ++ (pre.flatMap (PushSystem.pending Mem) ++
        (n.Payload :: todo ++ post.flatMap (PushSystem.pending Mem)))) =
        (List.map Prod.snd chain ++ pre.flatMap (PushSystem.pending Mem)) ++
          n.Payload :: (todo ++ post.flatMap (PushSystem.pending Mem)) := by simp
    rw [h2]
    exact (List.perm_middle).symm

end PushInvariant2

section PushInvariant3

variable {ElemTy : Type}

theorem inv_step (sys : PushSystem ElemTy) (move : Nat × Bool) (chain : List (Nat × ElemTy))
    (total : List ElemTy) (h : sys.Inv chain total) :
    ∃ chain2, (sys.step move).Inv chain2 total ∧
      (chain2 = chain ∨ ∃ N x, chain2 = (N, x) :: chain) := by
  obtain ⟨⟨Mem, First⟩, threads⟩ := sys
  unfold PushSystem.step
  cases ht : threads[move.1]? with
  | none => exact ⟨chain, h, Or.inl rfl⟩
  | some t =>
    obtain ⟨pre, post, hsplit, -, hset⟩ := split_of_getElem? threads move.1 t ht
    subst hsplit
    obtain ⟨todo, pc⟩ := t
    simp only [hset]
    cases pc with
    | idle =>
      cases todo with
      | nil => exact ⟨chain, h, Or.inl rfl⟩
      | cons Elem todo => exact ⟨chain, inv_allocate Mem First pre post Elem todo chain total h, Or.inl rfl⟩
    | allocated N =>
      simp only []
      cases hg : ConcurrentListNode.getNext (ConcurrentListNode.setNext Mem N First) N with
      | none => exact ⟨chain, h, Or.inl rfl⟩
      | some OldFirst =>
        have hinv := inv_store Mem First pre post ⟨todo, PushState.allocated N⟩ N First chain
          total rfl h
        obtain ⟨n, hn, hnext⟩ := hinv.nextSet ⟨todo, PushState.exchange N First⟩ (by simp) N First rfl
        have hOld : OldFirst = First := by
          simp only [ConcurrentListNode.getNext] at hg hn
          rw [hn] at hg
          simp only [Option.map_some', Option.some.injEq] at hg
          rw [← hg, hnext]
        subst hOld
        exact ⟨chain, hinv, Or.inl rfl⟩
    | exchange N OldFirst =>
      simp only [compare_exchange_weak]
      by_cases hc : First = OldFirst ∧ move.2 = false
      · rw [if_pos hc]
        simp only []
        obtain ⟨hc1, -⟩ := hc
        subst hc1
        obtain ⟨x, hx⟩ := inv_link Mem First pre post todo N chain total h
        exact ⟨(N, x) :: chain, hx, Or.inr ⟨N, x, rfl⟩⟩
      · rw [if_neg hc]
        simp only []
        exact ⟨chain, inv_store Mem First pre post ⟨todo, PushState.exchange N OldFirst⟩ N First
          chain total rfl h, Or.inl rfl⟩

theorem inv_run (schedule : List (Nat × Bool)) (sys : PushSystem ElemTy)
    (chain : List (Nat × ElemTy)) (total : List ElemTy) (h : sys.Inv chain total) :
    ∃ chain2, (sys.run schedule).Inv chain2 total := by
  induction schedule generalizing sys chain with
  | nil => exact ⟨chain, h⟩
  | cons move schedule ih =>
    obtain ⟨chain2, h2, -⟩ := inv_step sys move chain total h
    exact ih (sys.step move) chain2 h2

theorem inv_start (work : List (List ElemTy)) :
    (PushSystem.start (ConcurrentList.new ElemTy) work).Inv [] work.flatten := by
  constructor
  · exact LinkChain.null
  · exact List.nodup_nil
  · intro t ht N hN
    simp only [PushSystem.start, List.mem_map] at ht
    obtain ⟨todo, -, rfl⟩ := ht
    cases hN
  · intro t ht N o hpc
    simp only [PushSystem.start, List.mem_map] at ht
    obtain ⟨todo, -, rfl⟩ := ht
    cases hpc
  · have : (PushSystem.start (ConcurrentList.new ElemTy) work).threads.filterMap
        PushSystem.owned = [] := by
      rw [List.filterMap_eq_nil_iff]
      intro t ht
      simp only [PushSystem.start, List.mem_map] at ht
      obtain ⟨todo, -, rfl⟩ := ht
      rfl
    rw [this]
    exact List.nodup_nil
  · have : (PushSystem.start (ConcurrentList.new ElemTy) work).threads.flatMap
        (PushSystem.pending (PushSystem.start (ConcurrentList.new ElemTy) work).L.Mem) =
        work.flatten := by
      simp only [PushSystem.start]
      induction work with
      | nil => rfl
      | cons w work ih =>
        simp only [List.map_cons, List.flatMap_cons, List.flatten_cons, ih]
        simp [PushSystem.pending, PushSystem.owned]
    simp only [List.map_nil, List.nil_append, this]
    exact List.Perm.refl _

theorem pending_of_done (sys : PushSystem ElemTy) (h : sys.allDone) :
    sys.threads.flatMap (PushSystem.pending sys.L.Mem) = [] := by
  rw [List.flatMap_eq_nil_iff]
  intro t ht
  obtain ⟨h1, h2⟩ := h t ht
  simp [PushSystem.pending, PushSystem.owned, h1, h2]

/-- C9: the threads push the elements of `work` (one list of elements per thread) onto an
empty list, their steps interleaved by an arbitrary schedule in which any exchange may also
fail spuriously.  Once every `push_front` has completed, the iteration from `begin()` to
`end()` succeeds and visits a chain of pairwise distinct nodes whose elements are a
permutation of all pushed elements: as many as were pushed, none left out, none twice. -/
theorem push_front_concurrent (work : List (List ElemTy)) (schedule : List (Nat × Bool))
    (extra : Nat)
    (hdone : ((PushSystem.start (ConcurrentList.new ElemTy) work).run schedule).allDone) :
    ∃ chain,
      ConcurrentList.iterate
          ((PushSystem.start (ConcurrentList.new ElemTy) work).run schedule).L.Mem
          (work.flatten.length + extra)
          ((PushSystem.start (ConcurrentList.new ElemTy) work).run schedule).L.begin =
        some chain ∧
      (chain.map Prod.snd).Perm work.flatten ∧
      (chain.map Prod.fst).Nodup ∧
      chain.length = work.flatten.length := by
  obtain ⟨chain, hinv⟩ := inv_run schedule _ [] work.flatten (inv_start work)
  have hperm : (chain.map Prod.snd).Perm work.flatten := by
    have := hinv.account
    rw [pending_of_done _ hdone, List.append_nil] at this
    exact this
  have hlen : chain.length = work.flatten.length := by
    rw [← hperm.length_eq, List.length_map]
  refine ⟨chain, ?_, hperm, hinv.chainNodup, hlen⟩
  rw [← hlen]
  exact iterate_of_linkChain hinv.chained extra

/-- Witness of C9: two threads push 1, 2 and 3; the exchange of the second thread fails once
because the first thread was faster and once spuriously. -/
theorem push_front_concurrent_witness :
    ((PushSystem.start (ConcurrentList.new Nat) [[1, 2], [3]]).run
      [(0, false), (1, false), (0, false), (1, false), (0, false), (1, false), (1, true),
        (1, false), (0, false), (0, false), (0, false)]).allDone ∧
    ∃ chain,
      ConcurrentList.iterate
          ((PushSystem.start (ConcurrentList.new Nat) [[1, 2], [3]]).run
            [(0, false), (1, false), (0, false), (1, false), (0, false), (1, false), (1, true),
              (1, false), (0, false), (0, false), (0, false)]).L.Mem
          (3 + 0)
          ((PushSystem.start (ConcurrentList.new Nat) [[1, 2], [3]]).run
            [(0, false), (1, false), (0, false), (1, false), (0, false), (1, false), (1, true),
              (1, false), (0, false), (0, false), (0, false)]).L.begin =
        some chain ∧
      (chain.map Prod.snd).Perm [1, 2, 3] ∧
      (chain.map Prod.fst).Nodup ∧
      chain.length = 3 :=
  have done : ((PushSystem.start (ConcurrentList.new Nat) [[1, 2], [3]]).run
      [(0, false), (1, false), (0, false), (1, false), (0, false), (1, false), (1, true),
        (1, false), (0, false), (0, false), (0, false)]).allDone := by
    intro t ht
    simp [PushSystem.run, PushSystem.start, PushSystem.step, ConcurrentList.new,
      ConcurrentListNode.setNext, ConcurrentListNode.getNext, compare_exchange_weak] at ht
    subst ht
    exact ⟨rfl, rfl⟩
  ⟨done, push_front_concurrent [[1, 2], [3]] _ 0 done⟩

end PushInvariant3

/-! ## Search paths in a tree that grows -/

section FindPaths

variable {KeyTy ValueTy : Type} [LinearOrder KeyTy]

theorem onPath_nodeAt {root : ConcurrentMapNode KeyTy ValueTy} {Key : KeyTy} {P : SlotRef}
    (h : OnPath root Key P) : ∃ n, root.nodeAt P = some n := by
  induction h with
  | start P Key => exact ⟨P, rfl⟩
  | follow P c Key ref _ hc _ ih =>
    obtain ⟨n, hn⟩ := ih
    exact ⟨n, by simp [ConcurrentMapNode.nodeAt, hc, hn]⟩

theorem foundAt_of_onPath {root : ConcurrentMapNode KeyTy ValueTy} {Key : KeyTy} {P : SlotRef}
    (h : OnPath root Key P) (n : ConcurrentMapNode KeyTy ValueTy)
    (hn : root.nodeAt P = some n) (hk : n.Key = Key) : FoundAt root Key P := by
  induction h with
  | start P Key =>
    simp only [ConcurrentMapNode.nodeAt, Option.some.injEq] at hn
    subst hn
    exact FoundAt.here _ _ hk
  | follow P c Key ref hne hc _ ih =>
    simp only [ConcurrentMapNode.nodeAt, hc] at hn
    exact FoundAt.under P c Key ref hne hc (ih hn hk)

theorem onPath_snoc {root : ConcurrentMapNode KeyTy ValueTy} {Key : KeyTy} {P : SlotRef}
    (h : OnPath root Key P) (n c : ConcurrentMapNode KeyTy ValueTy)
    (hn : root.nodeAt P = some n) (hk : n.Key ≠ Key) (hc : n.edge (selectEdge n Key) = some c) :
    OnPath root Key (P ++ [selectEdge n Key]) := by
  induction h with
  | start P Key =>
    simp only [ConcurrentMapNode.nodeAt, Option.some.injEq] at hn
    subst hn
    exact OnPath.follow _ c Key [] hk hc (OnPath.start c Key)
  | follow P c2 Key ref hne hc2 _ ih =>
    simp only [ConcurrentMapNode.nodeAt, hc2] at hn
    exact OnPath.follow P c2 Key _ hne hc2 (ih hn hk hc)

theorem edge_of_foundAt_onPath {root : ConcurrentMapNode KeyTy ValueTy} {Key : KeyTy}
    {P : SlotRef} (h : OnPath root Key P) :
    ∀ (S : SlotRef), FoundAt root Key S → ∀ n : ConcurrentMapNode KeyTy ValueTy,
      root.nodeAt P = some n → n.Key ≠ Key → n.edge (selectEdge n Key) ≠ none := by
  induction h with
  | start P Key =>
    intro S hS n hn hk
    simp only [ConcurrentMapNode.nodeAt, Option.some.injEq] at hn
    subst hn
    cases hS with
    | here _ _ hk2 => exact absurd hk2 hk
    | under _ c _ ref _ hc _ => rw [hc]; simp
  | follow P c Key ref hne hc _ ih =>
    intro S hS n hn hk
    simp only [ConcurrentMapNode.nodeAt, hc] at hn
    cases hS with
    | here _ _ hk2 => exact absurd hk2 hne
    | under _ c2 _ ref2 _ hc2 hf =>
      rw [hc] at hc2
      cases hc2
      exact ih ref2 hf n hn hk

omit [LinearOrder KeyTy] in
theorem linkAt_Key (root : ConcurrentMapNode KeyTy ValueTy) (P : SlotRef) (e : EdgeSel)
    (c : ConcurrentMapNode KeyTy ValueTy) : (root.linkAt P e c).Key = root.Key := by
  cases P with
  | nil => simp [ConcurrentMapNode.linkAt]
  | cons e0 P =>
    simp only [ConcurrentMapNode.linkAt]
    cases root.edge e0 <;> simp

theorem onPath_linkAt {root : ConcurrentMapNode KeyTy ValueTy} {Key : KeyTy} {Q : SlotRef}
    (hQ : OnPath root Key Q) :
    ∀ (P : SlotRef), OnPath root Key P → ∀ n : ConcurrentMapNode KeyTy ValueTy,
      root.nodeAt P = some n → n.edge (selectEdge n Key) = none →
      ∀ c, OnPath (root.linkAt P (selectEdge n Key) c) Key Q := by
  induction hQ with
  | start R Key => intro P _ n _ _ c; exact OnPath.start _ Key
  | follow R child Key ref hne hc _ ih =>
    intro P hP n hn hnone c
    cases hP with
    | start =>
      simp only [ConcurrentMapNode.nodeAt, Option.some.injEq] at hn
      subst hn
      rw [hc] at hnone
      cases hnone
    | follow _ child2 _ ref2 _ hc2 hP2 =>
      rw [hc] at hc2
      cases hc2
      simp only [ConcurrentMapNode.nodeAt, hc] at hn
      have hkey := linkAt_Key R (selectEdge R Key :: ref2) (selectEdge n Key) c
      have hsel := selectEdge_congr R _ Key hkey
      have := OnPath.follow (R.linkAt (selectEdge R Key :: ref2) (selectEdge n Key) c)
        (child.linkAt ref2 (selectEdge n Key) c) Key ref (by rw [hkey]; exact hne)
        (by rw [hsel]; simp [ConcurrentMapNode.linkAt, hc]) (ih ref2 hP2 n hn hnone c)
      rw [hsel] at this
      exact this

theorem nodeAt_linkAt_Key {root : ConcurrentMapNode KeyTy ValueTy} {Key : KeyTy} {Q : SlotRef}
    (hQ : OnPath root Key Q) :
    ∀ (P : SlotRef), OnPath root Key P → ∀ n : ConcurrentMapNode KeyTy ValueTy,
      root.nodeAt P = some n → n.edge (selectEdge n Key) = none →
      ∀ c m, root.nodeAt Q = some m →
        ∃ m2, (root.linkAt P (selectEdge n Key) c).nodeAt Q = some m2 ∧ m2.Key = m.Key := by
  induction hQ with
  | start R Key =>
    intro P _ n _ _ c m hm
    simp only [ConcurrentMapNode.nodeAt, Option.some.injEq] at hm
    subst hm
    exact ⟨_, rfl, linkAt_Key _ _ _ _⟩
  | follow R child Key ref hne hc _ ih =>
    intro P hP n hn hnone c m hm
    cases hP with
    | start =>
      simp only [ConcurrentMapNode.nodeAt, Option.some.injEq] at hn
      subst hn
      rw [hc] at hnone
      cases hnone
    | follow _ child2 _ ref2 _ hc2 hP2 =>
      rw [hc] at hc2
      cases hc2
      simp only [ConcurrentMapNode.nodeAt, hc] at hn hm
      obtain ⟨m2, hm2, hk2⟩ := ih ref2 hP2 n hn hnone c m hm
      exact ⟨m2, by simp [ConcurrentMapNode.nodeAt, ConcurrentMapNode.linkAt, hc, hm2], hk2⟩

variable [Inhabited ValueTy]

theorem find_of_onPath_null {root : ConcurrentMapNode KeyTy ValueTy} {Key : KeyTy} {P : SlotRef}
    (h : OnPath root Key P) (n : ConcurrentMapNode KeyTy ValueTy)
    (hn : root.nodeAt P = some n) (hk : n.Key ≠ Key) (hnone : n.edge (selectEdge n Key) = none) :
    findOrAllocateNode_rec root Key 0 =
      ⟨root.linkAt P (selectEdge n Key) (ConcurrentMapNode.new Key), P ++ [selectEdge n Key],
        1, 0⟩ := by
  induction h with
  | start P Key =>
    simp only [ConcurrentMapNode.nodeAt, Option.some.injEq] at hn
    subst hn
    rw [find_install _ Key 0 hk hnone]
    rfl
  | follow P c Key ref hne hc _ ih =>
    simp only [ConcurrentMapNode.nodeAt, hc] at hn
    rw [find_descend P c Key 0 hne hc, ih hn hk hnone]
    simp [ConcurrentMapNode.linkAt, hc]

theorem foundAt_unique {root : ConcurrentMapNode KeyTy ValueTy} {Key : KeyTy} {S1 S2 : SlotRef}
    (h1 : FoundAt root Key S1) (h2 : FoundAt root Key S2) : S1 = S2 := by
  have e1 := find_of_foundAt h1 0
  have e2 := find_of_foundAt h2 0
  rw [e1] at e2
  exact congrArg FindResult.Slot e2

end FindPaths

/-! ## The invariant of concurrent `findOrAllocateNode` -/

section FindInvariant

variable {KeyTy ValueTy : Type} [LinearOrder KeyTy] [Inhabited ValueTy]

omit [Inhabited ValueTy] in
theorem threadOk_linkAt {root : ConcurrentMapNode KeyTy ValueTy} {Key : KeyTy} {P : SlotRef}
    (hP : OnPath root Key P) (n : ConcurrentMapNode KeyTy ValueTy)
    (hn : root.nodeAt P = some n) (hk : n.Key ≠ Key) (hnone : n.edge (selectEdge n Key) = none)
    (c : ConcurrentMapNode KeyTy ValueTy) (t : FindState) (ht : FindSystem.threadOk root Key t) :
    FindSystem.threadOk (root.linkAt P (selectEdge n Key) c) Key t := by
  cases t with
  | search Q => exact onPath_linkAt ht P hP n hn hnone c
  | allocate Q =>
    obtain ⟨hQ, m, hm, hmk⟩ := ht
    obtain ⟨m2, hm2, hk2⟩ := nodeAt_linkAt_Key hQ P hP n hn hnone c m hm
    exact ⟨onPath_linkAt hQ P hP n hn hnone c, m2, hm2, by rw [hk2]; exact hmk⟩
  | exchange Q =>
    obtain ⟨hQ, m, hm, hmk⟩ := ht
    obtain ⟨m2, hm2, hk2⟩ := nodeAt_linkAt_Key hQ P hP n hn hnone c m hm
    exact ⟨onPath_linkAt hQ P hP n hn hnone c, m2, hm2, by rw [hk2]; exact hmk⟩
  | returned S =>
    exact absurd hnone (edge_of_foundAt_onPath hP S ht n hn hk)

theorem find_inv_step (Key : KeyTy) (init : ConcurrentMapNode KeyTy ValueTy)
    (sys : FindSystem KeyTy ValueTy) (move : Nat × Bool) (h : sys.Inv Key init) :
    (sys.step Key move).Inv Key init := by
  obtain ⟨root, threads, allocated, freed⟩ := sys
  unfold FindSystem.step
  cases ht : threads[move.1]? with
  | none => exact h
  | some t =>
    obtain ⟨pre, post, hsplit, -, hset⟩ := split_of_getElem? threads move.1 t ht
    subst hsplit
    have hothers : ∀ t2, t2 ∈ pre ∨ t2 ∈ post → FindSystem.threadOk root Key t2 := by
      intro t2 ht2
      refine h.threadsOk t2 ?_
      simp only [List.mem_append, List.mem_cons]
      tauto
    have hthis := h.threadsOk t (by simp)
    have hshape := h.shape
    simp only [List.countP_append, List.countP_cons] at hshape
    -- a step that changes only the state of the thread, to a state that is in order
    have local_step : ∀ (t2 : FindState) (a f : Nat), FindSystem.threadOk root Key t2 →
        a + (if FindSystem.holdsNew t = true then 1 else 0) + f =
          allocated + (if FindSystem.holdsNew t2 = true then 1 else 0) + freed + (a - allocated) * 2 →
        allocated ≤ a → a - allocated = f - freed → freed ≤ f →
        FindSystem.Inv Key init ⟨root, pre ++ t2 :: post, a, f⟩ := by
      intro t2 a f hok hcount hle1 hdiff hle2
      constructor
      · intro t3 ht3
        simp only [List.mem_append, List.mem_cons] at ht3
        rcases ht3 with ht3 | ht3 | ht3
        · exact hothers t3 (Or.inl ht3)
        · subst ht3; exact hok
        · exact hothers t3 (Or.inr ht3)
      · simp only [List.countP_append, List.countP_cons]
        rcases hshape with ⟨h1, h2⟩ | ⟨h1, h2⟩
        · exact Or.inl ⟨h1, by omega⟩
        · exact Or.inr ⟨h1, by omega⟩
    cases t with
    | search P =>
      simp only []
      obtain ⟨n, hn⟩ := onPath_nodeAt hthis
      rw [hn]
      simp only [hset]
      by_cases hk : n.Key = Key
      · rw [if_pos hk]
        exact local_step _ _ _ (foundAt_of_onPath hthis n hn hk) (by simp [FindSystem.holdsNew])
          (le_refl _) (by simp) (le_refl _)
      · rw [if_neg hk]
        cases hc : n.edge (selectEdge n Key) with
        | some c =>
          exact local_step _ _ _ (onPath_snoc hthis n c hn hk hc) (by simp [FindSystem.holdsNew])
            (le_refl _) (by simp) (le_refl _)
        | none =>
          exact local_step (FindState.allocate P) _ _ ⟨hthis, n, hn, hk⟩
            (by simp [FindSystem.holdsNew]) (le_refl _) (by simp) (le_refl _)
    | allocate P =>
      simp only [hset]
      constructor
      · intro t3 ht3
        simp only [List.mem_append, List.mem_cons] at ht3
        rcases ht3 with ht3 | ht3 | ht3
        · exact hothers t3 (Or.inl ht3)
        · subst ht3; exact hthis
        · exact hothers t3 (Or.inr ht3)
      · simp only [List.countP_append, List.countP_cons, FindSystem.holdsNew] at hshape ⊢
        rcases hshape with ⟨h1, h2⟩ | ⟨h1, h2⟩
        · exact Or.inl ⟨h1, by simp at h2 ⊢; omega⟩
        · exact Or.inr ⟨h1, by simp at h2 ⊢; omega⟩
    | exchange P =>
      simp only []
      obtain ⟨hP, n, hn, hk⟩ := hthis
      rw [hn]
      simp only [hset]
      have failed : FindSystem.Inv Key init
          ⟨root, pre ++ FindState.search P :: post, allocated, freed + 1⟩ := by
        constructor
        · intro t3 ht3
          simp only [List.mem_append, List.mem_cons] at ht3
          rcases ht3 with ht3 | ht3 | ht3
          · exact hothers t3 (Or.inl ht3)
          · subst ht3; exact hP
          · exact hothers t3 (Or.inr ht3)
        · simp only [List.countP_append, List.countP_cons, FindSystem.holdsNew] at hshape ⊢
          rcases hshape with ⟨h1, h2⟩ | ⟨h1, h2⟩
          · exact Or.inl ⟨h1, by simp at h2 ⊢; omega⟩
          · exact Or.inr ⟨h1, by simp at h2 ⊢; omega⟩
      cases hc : n.edge (selectEdge n Key) with
      | some c => exact failed
      | none =>
        cases hm : move.2 with
        | true => exact failed
        | false =>
          simp only []
          have hR := find_of_onPath_null hP n hn hk hc
          have hinit : root = init := by
            rcases hshape with ⟨h1, -⟩ | ⟨h1, -⟩
            · exact h1
            · have hf : FoundAt root Key (findOrAllocateNode_rec init Key 0).Slot := by
                rw [h1]; exact foundAt_find init Key 0
              exact absurd hc (edge_of_foundAt_onPath hP _ hf n hn hk)
          have halloc : allocated = freed + (pre.countP FindSystem.holdsNew +
              (1 + post.countP FindSystem.holdsNew)) := by
            rcases hshape with ⟨-, h2⟩ | ⟨h1, -⟩
            · simp only [FindSystem.holdsNew] at h2
              simp at h2
              omega
            · have hf : FoundAt root Key (findOrAllocateNode_rec init Key 0).Slot := by
                rw [h1]; exact foundAt_find init Key 0
              exact absurd hc (edge_of_foundAt_onPath hP _ hf n hn hk)
          subst hinit
          constructor
          · intro t3 ht3
            simp only [List.mem_append, List.mem_cons] at ht3
            rcases ht3 with ht3 | ht3 | ht3
            · exact threadOk_linkAt hP n hn hk hc _ t3 (hothers t3 (Or.inl ht3))
            · subst ht3
              have := foundAt_find root Key 0
              rw [hR] at this
              exact this
            · exact threadOk_linkAt hP n hn hk hc _ t3 (hothers t3 (Or.inr ht3))
          · right
            rw [hR]
            refine ⟨rfl, ?_⟩
            simp only [List.countP_append, List.countP_cons, FindSystem.holdsNew]
            simp
            omega
    | returned S => exact h

theorem find_inv_run (Key : KeyTy) (init : ConcurrentMapNode KeyTy ValueTy)
    (schedule : List (Nat × Bool)) (sys : FindSystem KeyTy ValueTy) (h : sys.Inv Key init) :
    (sys.run Key schedule).Inv Key init := by
  induction schedule generalizing sys with
  | nil => exact h
  | cons move schedule ih => exact ih (sys.step Key move) (find_inv_step Key init sys move h)

theorem find_inv_start (Key : KeyTy) (init : ConcurrentMapNode KeyTy ValueTy) (T : Nat) :
    (FindSystem.start init T).Inv Key init := by
  constructor
  · intro t ht
    simp only [FindSystem.start, List.mem_replicate] at ht
    rw [ht.2]
    exact OnPath.start init Key
  · left
    refine ⟨rfl, ?_⟩
    simp only [FindSystem.start]
    rw [List.countP_eq_zero.mpr]
    intro t ht
    rw [(List.mem_replicate.mp ht).2]
    simp [FindSystem.holdsNew]

end FindInvariant

/-! ## The concurrent contract of the map -/

section FindClaims

variable {KeyTy ValueTy : Type} [LinearOrder KeyTy] [Inhabited ValueTy]

theorem find_length_step (Key : KeyTy) (sys : FindSystem KeyTy ValueTy) (move : Nat × Bool) :
    (sys.step Key move).threads.length = sys.threads.length := by
  unfold FindSystem.step
  split
  · rfl
  · split
    · rfl
    · split
      · simp
      · split <;> simp
  · simp
  · split
    · rfl
    · split <;> simp
  · rfl

theorem find_length_run (Key : KeyTy) (schedule : List (Nat × Bool))
    (sys : FindSystem KeyTy ValueTy) :
    (sys.run Key schedule).threads.length = sys.threads.length := by
  induction schedule generalizing sys with
  | nil => rfl
  | cons move schedule ih =>
    exact (ih (sys.step Key move)).trans (find_length_step Key sys move)

theorem count_key_find (init : ConcurrentMapNode KeyTy ValueTy) (Key : KeyTy) (s : Nat)
    (h : init.SearchTree) : (findOrAllocateNode_rec init Key s).P.keys.count Key = 1 :=
  List.count_eq_one_of_mem
    (ConcurrentMapNode.nodup_keys_of_searchTree _ (searchTree_find init Key s h))
    ((mem_keys_find init Key s Key).mpr (Or.inl rfl))

theorem find_Allocated_le_one (P : ConcurrentMapNode KeyTy ValueTy) (Key : KeyTy) :
    (findOrAllocateNode_rec P Key 0).Allocated ≤ 1 := by
  induction P using ConcurrentMapNode.edge_induction with
  | step P ih =>
    by_cases hk : P.Key = Key
    · rw [find_here P Key 0 hk]
      exact Nat.zero_le 1
    · cases hc : P.edge (selectEdge P Key) with
      | none => rw [find_install P Key 0 hk hc]
      | some c =>
        rw [find_descend P c Key 0 hk hc]
        exact ih _ c hc

/-- C8, amended: `T` threads (at least one) run `findOrAllocateNode(Key)` for the same `Key`
on a map with tree `init`, their load, allocate and compare-exchange steps interleaved by an
arbitrary schedule in which any exchange may also fail spuriously.  Once all calls have
returned, the tree is the tree one sequential call would have produced, so at most one node
was linked and, in a search tree, exactly one node holds `Key`; all `T` calls have returned
the reference that sequential call returns; and every node created beyond the linked one was
deleted by the thread that created it: the number of nodes created is the number deleted plus
the at most one node linked.  Nothing bounds the number of nodes created. -/
theorem findOrAllocateNode_concurrent (init : ConcurrentMapNode KeyTy ValueTy) (Key : KeyTy)
    (T : Nat) (schedule : List (Nat × Bool)) (hT : 0 < T)
    (hdone : ((FindSystem.start init T).run Key schedule).allReturned) :
    ((FindSystem.start init T).run Key schedule).Sentinel =
      (findOrAllocateNode_rec init Key 0).P ∧
    ((FindSystem.start init T).run Key schedule).threads =
      List.replicate T (FindState.returned (findOrAllocateNode_rec init Key 0).Slot) ∧
    ((FindSystem.start init T).run Key schedule).Allocated =
      ((FindSystem.start init T).run Key schedule).Freed +
        (findOrAllocateNode_rec init Key 0).Allocated ∧
    (findOrAllocateNode_rec init Key 0).Allocated ≤ 1 ∧
    (init.SearchTree →
      ((FindSystem.start init T).run Key schedule).Sentinel.keys.count Key = 1) := by
  have hinv := find_inv_run Key init schedule _ (find_inv_start Key init T)
  have hlen : ((FindSystem.start init T).run Key schedule).threads.length = T := by
    rw [find_length_run]
    simp [FindSystem.start]
  have hcount : ((FindSystem.start init T).run Key schedule).threads.countP
      FindSystem.holdsNew = 0 := by
    rw [List.countP_eq_zero]
    intro t ht
    obtain ⟨S, rfl⟩ := hdone t ht
    simp [FindSystem.holdsNew]
  obtain ⟨t0, ht0⟩ : ∃ t, t ∈ ((FindSystem.start init T).run Key schedule).threads :=
    List.exists_mem_of_length_pos (by rw [hlen]; exact hT)
  obtain ⟨S0, hS0⟩ := hdone t0 ht0
  have hfound0 : FoundAt ((FindSystem.start init T).run Key schedule).Sentinel Key S0 := by
    have := hinv.threadsOk t0 ht0
    rw [hS0] at this
    exact this
  have hroot : ((FindSystem.start init T).run Key schedule).Sentinel =
        (findOrAllocateNode_rec init Key 0).P ∧
      ((FindSystem.start init T).run Key schedule).Allocated =
        ((FindSystem.start init T).run Key schedule).Freed +
          (findOrAllocateNode_rec init Key 0).Allocated := by
    rcases hinv.shape with ⟨h1, h2⟩ | ⟨h1, h2⟩
    · rw [h1] at hfound0
      have hR := find_of_foundAt hfound0 0
      rw [hR, h2, hcount]
      exact ⟨h1, rfl⟩
    · rw [hcount] at h2
      exact ⟨h1, h2⟩
  have hslot : FoundAt ((FindSystem.start init T).run Key schedule).Sentinel Key
      (findOrAllocateNode_rec init Key 0).Slot := by
    rw [hroot.1]
    exact foundAt_find init Key 0
  refine ⟨hroot.1, ?_, hroot.2, ?_, fun hst => ?_⟩
  · rw [List.eq_replicate_iff]
    refine ⟨hlen, fun t ht => ?_⟩
    obtain ⟨S, rfl⟩ := hdone t ht
    have hS : FoundAt ((FindSystem.start init T).run Key schedule).Sentinel Key S :=
      hinv.threadsOk _ ht
    rw [foundAt_unique hS hslot]
  · exact find_Allocated_le_one init Key
  · rw [hroot.1]
    exact count_key_find init Key 0 hst

/-- C8 as stated fails: two threads call `findOrAllocateNode(7)` on the fresh map; both load
the empty higher edge of the sentinel and both create a node before either exchanges.  Both
calls return the same slot, but two nodes were created, not one; the loser deleted its node. -/
theorem findOrAllocateNode_concurrent_two_allocations :
    ((FindSystem.start (ConcurrentMap.new Nat Nat).Sentinel 2).run 7
      [(0, false), (1, false), (0, false), (1, false), (0, false), (1, false), (1, false),
        (1, false)]).threads =
      [FindState.returned [EdgeSel.Right], FindState.returned [EdgeSel.Right]] ∧
    ((FindSystem.start (ConcurrentMap.new Nat Nat).Sentinel 2).run 7
      [(0, false), (1, false), (0, false), (1, false), (0, false), (1, false), (1, false),
        (1, false)]).Allocated = 2 ∧
    ((FindSystem.start (ConcurrentMap.new Nat Nat).Sentinel 2).run 7
      [(0, false), (1, false), (0, false), (1, false), (0, false), (1, false), (1, false),
        (1, false)]).Allocated ≠ 1 ∧
    ((FindSystem.start (ConcurrentMap.new Nat Nat).Sentinel 2).run 7
      [(0, false), (1, false), (0, false), (1, false), (0, false), (1, false), (1, false),
        (1, false)]).Freed = 1 := by
  decide

/-- Witness of C8, amended: two threads, the first meets a spurious failure of its exchange,
creates a second node and links it; the second thread finds that node. -/
theorem findOrAllocateNode_concurrent_witness :
    0 < 2 ∧
    ((FindSystem.start (ConcurrentMap.new Nat Nat).Sentinel 2).run 7
      [(0, false), (0, false), (0, true), (0, false), (0, false), (0, false), (1, false),
        (1, false)]).allReturned ∧
    ((FindSystem.start (ConcurrentMap.new Nat Nat).Sentinel 2).run 7
      [(0, false), (0, false), (0, true), (0, false), (0, false), (0, false), (1, false),
        (1, false)]).Sentinel =
      ConcurrentMapNode.mk 0 none (some (ConcurrentMapNode.mk 0 none none 7)) 0 ∧
    ((FindSystem.start (ConcurrentMap.new Nat Nat).Sentinel 2).run 7
      [(0, false), (0, false), (0, true), (0, false), (0, false), (0, false), (1, false),
        (1, false)]).Allocated =
      ((FindSystem.start (ConcurrentMap.new Nat Nat).Sentinel 2).run 7
        [(0, false), (0, false), (0, true), (0, false), (0, false), (0, false), (1, false),
          (1, false)]).Freed + 1 :=
  have done : ((FindSystem.start (ConcurrentMap.new Nat Nat).Sentinel 2).run 7
      [(0, false), (0, false), (0, true), (0, false), (0, false), (0, false), (1, false),
        (1, false)]).allReturned := by
    have hthreads : ((FindSystem.start (ConcurrentMap.new Nat Nat).Sentinel 2).run 7
        [(0, false), (0, false), (0, true), (0, false), (0, false), (0, false), (1, false),
          (1, false)]).threads =
        [FindState.returned [EdgeSel.Right], FindState.returned [EdgeSel.Right]] := by decide
    intro t ht
    rw [hthreads] at ht
    exact ⟨[EdgeSel.Right], by simpa using ht⟩
  have sequential : findOrAllocateNode_rec (ConcurrentMap.new Nat Nat).Sentinel 7 0 =
      ⟨ConcurrentMapNode.mk 0 none (some (ConcurrentMapNode.mk 0 none none 7)) 0,
        [EdgeSel.Right], 1, 0⟩ :=
    find_install _ 7 0 (by decide) rfl
  have all := findOrAllocateNode_concurrent (ConcurrentMap.new Nat Nat).Sentinel 7 2
    [(0, false), (0, false), (0, true), (0, false), (0, false), (0, false), (1, false),
      (1, false)] (by decide) done
  ⟨by decide, done, by rw [all.1, sequential], by rw [all.2.2.1, sequential]⟩

end FindClaims

/-! ## Destruction of the list -/

section ListDestroy

variable {ElemTy : Type}

theorem destroy_loop_of_linkChain {Mem : List (ConcurrentListNode ElemTy)} {p : Option Nat}
    {chain : List (Nat × ElemTy)} (h : LinkChain Mem p chain) (extra : Nat) :
    ConcurrentList.destroy_loop Mem (chain.length + extra) p = some (chain.map Prod.fst) := by
  induction h with
  | null => cases extra <;> rfl
  | link a n rest hn _ ih =>
    have hlen : ((a, n.Payload) :: rest).length + extra = (rest.length + extra) + 1 := by
      simp; omega
    rw [hlen]
    simp [ConcurrentList.destroy_loop, ConcurrentListNode.getNext, hn, ih]

theorem destroy_loop_short {Mem : List (ConcurrentListNode ElemTy)} {p : Option Nat}
    {chain : List (Nat × ElemTy)} (h : LinkChain Mem p chain) (fuel : Nat)
    (hf : fuel < chain.length) : ConcurrentList.destroy_loop Mem fuel p = none := by
  induction h generalizing fuel with
  | null => simp at hf
  | link a n rest hn _ ih =>
    cases fuel with
    | zero => rfl
    | succ fuel =>
      simp only [List.length_cons, Nat.succ_lt_succ_iff] at hf
      simp [ConcurrentList.destroy_loop, ConcurrentListNode.getNext, hn, ih fuel hf]

theorem linkChain_suffix {Mem : List (ConcurrentListNode ElemTy)} {p : Option Nat}
    {chain : List (Nat × ElemTy)} (h : LinkChain Mem p chain) (a : Nat)
    (ha : a ∈ chain.map Prod.fst) :
    ∃ sub, LinkChain Mem (some a) sub ∧ sub.length ≤ chain.length := by
  induction h with
  | null => simp at ha
  | link b n rest hn hrest ih =>
    simp only [List.map_cons, List.mem_cons] at ha
    rcases ha with ha | ha
    · subst ha
      exact ⟨_, LinkChain.link a n rest hn hrest, le_refl _⟩
    · obtain ⟨sub, hs, hl⟩ := ih ha
      exact ⟨sub, hs, by simp; omega⟩

theorem linkChain_nodup {Mem : List (ConcurrentListNode ElemTy)} {p : Option Nat}
    {chain : List (Nat × ElemTy)} (h : LinkChain Mem p chain) : (chain.map Prod.fst).Nodup := by
  induction h with
  | null => exact List.nodup_nil
  | link a n rest hn hrest ih =>
    simp only [List.map_cons, List.nodup_cons]
    refine ⟨fun hmem => ?_, ih⟩
    obtain ⟨sub, hs, hl⟩ := linkChain_suffix hrest a hmem
    have := linkChain_unique hs (LinkChain.link a n rest hn hrest)
    rw [this] at hl
    simp at hl

/-- C11: destroying a list whose chain from `First` has `N` nodes deletes exactly `N` nodes:
with enough fuel the traversal of the destructor ends at the null successor, the addresses it
passes to `delete` are the nodes of the chain in link order, every node of the chain among
them and none twice; with less fuel than the chain has nodes it does not finish.  For a list
built by `N` pushes these are the nodes of the pushes, the latest first. -/
theorem destroy_frees_chain (L : ConcurrentList ElemTy) (chain : List (Nat × ElemTy))
    (h : LinkChain L.Mem L.First chain) (extra : Nat) :
    L.destroy (chain.length + extra) = some (chain.map Prod.fst) ∧
    (chain.map Prod.fst).length = chain.length ∧
    (chain.map Prod.fst).Nodup ∧
    (∀ a, a ∈ chain.map Prod.fst ↔ ∃ x, (a, x) ∈ chain) ∧
    (∀ fuel, fuel < chain.length → L.destroy fuel = none) ∧
    (∀ calls : List (ElemTy × Nat),
      ((ConcurrentList.new ElemTy).push_front_all calls).bind
          (fun L2 => L2.destroy (calls.length + extra)) =
        some (List.range calls.length).reverse) := by
  refine ⟨destroy_loop_of_linkChain h extra, List.length_map _ _, linkChain_nodup h,
    fun a => by simp, fun fuel hf => destroy_loop_short h fuel hf, fun calls => ?_⟩
  obtain ⟨L2, h2, hc, -, -⟩ := push_front_all_spec calls (ConcurrentList.new ElemTy) []
    LinkChain.null
  have hd := destroy_loop_of_linkChain hc extra
  rw [h2]
  simp only [Option.some_bind, ConcurrentList.destroy]
  simp only [List.append_nil, List.length_reverse, List.enumFrom_length, List.length_map,
    List.map_reverse] at hd
  rw [hd]
  simp [ConcurrentList.new, List.enumFrom_map_fst, List.range_eq_range']

/-- Witness of C11: the list holding 9 and 7 at the addresses 1 and 0. -/
theorem destroy_frees_chain_witness :
    LinkChain (⟨[⟨7, none⟩, ⟨9, some 0⟩], some 1⟩ : ConcurrentList Nat).Mem (some 1)
      [(1, 9), (0, 7)] ∧
    (⟨[⟨7, none⟩, ⟨9, some 0⟩], some 1⟩ : ConcurrentList Nat).destroy (2 + 0) = some [1, 0] ∧
    (⟨[⟨7, none⟩, ⟨9, some 0⟩], some 1⟩ : ConcurrentList Nat).destroy 1 = none :=
  have chained : LinkChain (⟨[⟨7, none⟩, ⟨9, some 0⟩], some 1⟩ : ConcurrentList Nat).Mem (some 1)
      [(1, 9), (0, 7)] :=
    LinkChain.link 1 ⟨9, some 0⟩ [(0, 7)] rfl
      (LinkChain.link 0 ⟨7, none⟩ [] rfl LinkChain.null)
  ⟨chained,
    (destroy_frees_chain ⟨[⟨7, none⟩, ⟨9, some 0⟩], some 1⟩ [(1, 9), (0, 7)] chained 0).1,
    (destroy_frees_chain ⟨[⟨7, none⟩, ⟨9, some 0⟩], some 1⟩ [(1, 9), (0, 7)] chained
      0).2.2.2.2.1 1 (by decide)⟩

end ListDestroy

/-! ## What a step of `push_front` leaves untouched -/

section PushFrame

variable {ElemTy : Type}

/-- What one step does to the memory and to `First`. -/
theorem step_L_cases (sys : PushSystem ElemTy) (move : Nat × Bool) :
    (sys.step move).L = sys.L ∨
    (∃ Elem, (sys.step move).L = ⟨sys.L.Mem ++ [⟨Elem, none⟩], sys.L.First⟩) ∨
    (∃ t N v, sys.threads[move.1]? = some t ∧ PushSystem.owned t = some N ∧
      (sys.step move).L = ⟨ConcurrentListNode.setNext sys.L.Mem N v, sys.L.First⟩) ∨
    (∃ todo N, sys.threads[move.1]? = some ⟨todo, PushState.exchange N sys.L.First⟩ ∧
      move.2 = false ∧ (sys.step move).L = ⟨sys.L.Mem, some N⟩) := by
  obtain ⟨⟨Mem, First⟩, threads⟩ := sys
  unfold PushSystem.step
  cases ht : threads[move.1]? with
  | none => exact Or.inl rfl
  | some t =>
    obtain ⟨todo, pc⟩ := t
    cases pc with
    | idle =>
      cases todo with
      | nil => exact Or.inl rfl
      | cons Elem todo => exact Or.inr (Or.inl ⟨Elem, rfl⟩)
    | allocated N =>
      simp only []
      cases hg : ConcurrentListNode.getNext (ConcurrentListNode.setNext Mem N First) N with
      | none => exact Or.inl rfl
      | some OldFirst =>
        exact Or.inr (Or.inr (Or.inl ⟨⟨todo, PushState.allocated N⟩, N, First, rfl, rfl, rfl⟩))
    | exchange N OldFirst =>
      simp only [compare_exchange_weak]
      by_cases hc : First = OldFirst ∧ move.2 = false
      · rw [if_pos hc]
        obtain ⟨hc1, hc2⟩ := hc
        subst hc1
        exact Or.inr (Or.inr (Or.inr ⟨todo, N, rfl, hc2, rfl⟩))
      · rw [if_neg hc]
        exact Or.inr (Or.inr (Or.inl ⟨⟨todo, PushState.exchange N OldFirst⟩, N, First, rfl, rfl, rfl⟩))

theorem mem_of_getElem?_eq_some {α : Type} {l : List α} {i : Nat} {t : α}
    (h : l[i]? = some t) : t ∈ l := by
  obtain ⟨hi, rfl⟩ := List.getElem?_eq_some.mp h
  exact List.getElem_mem hi

/-- A step leaves every node on the chain as it is, and changes the chain only by putting the
node of a thread whose exchange succeeds in front of it. -/
theorem inv_step_frame (sys : PushSystem ElemTy) (move : Nat × Bool)
    (chain : List (Nat × ElemTy)) (total : List ElemTy) (h : sys.Inv chain total) :
    (∀ a, a ∈ chain.map Prod.fst → (sys.step move).L.Mem[a]? = sys.L.Mem[a]?) ∧
    (((sys.step move).L.First = sys.L.First ∧ (sys.step move).Inv chain total) ∨
      (∃ todo N x, sys.threads[move.1]? = some ⟨todo, PushState.exchange N sys.L.First⟩ ∧
        move.2 = false ∧ (sys.step move).L.First = some N ∧
        (sys.step move).L.Mem = sys.L.Mem ∧
        (sys.step move).Inv ((N, x) :: chain) total)) := by
  obtain ⟨chain2, hinv2, hchain2⟩ := inv_step sys move chain total h
  have hframe : ∀ a, a ∈ chain.map Prod.fst → (sys.step move).L.Mem[a]? = sys.L.Mem[a]? := by
    intro a ha
    rcases step_L_cases sys move with hL | ⟨Elem, hL⟩ | ⟨t, N, v, ht, hown, hL⟩ | ⟨todo, N, ht, -, hL⟩
    · rw [hL]
    · rw [hL]
      exact List.getElem?_append_left (linkChain_lt h.chained a ha)
    · rw [hL]
      have hN := (h.ownedValid t (mem_of_getElem?_eq_some ht) N hown).2
      exact getElem?_setNext_ne _ _ _ _ (fun e => hN (e ▸ ha))
    · rw [hL]
  refine ⟨hframe, ?_⟩
  have hsame : LinkChain (sys.step move).L.Mem sys.L.First chain :=
    linkChain_congr h.chained hframe
  rcases step_L_cases sys move with hL | ⟨Elem, hL⟩ | ⟨t, N, v, ht, hown, hL⟩ | ⟨todo, N, ht, hm, hL⟩
  · left
    have hF : (sys.step move).L.First = sys.L.First := by rw [hL]
    refine ⟨hF, ?_⟩
    have := linkChain_unique hinv2.chained (hF ▸ hsame)
    rw [← this]; exact hinv2
  · left
    have hF : (sys.step move).L.First = sys.L.First := by rw [hL]
    refine ⟨hF, ?_⟩
    have := linkChain_unique hinv2.chained (hF ▸ hsame)
    rw [← this]; exact hinv2
  · left
    have hF : (sys.step move).L.First = sys.L.First := by rw [hL]
    refine ⟨hF, ?_⟩
    have := linkChain_unique hinv2.chained (hF ▸ hsame)
    rw [← this]; exact hinv2
  · right
    have hF : (sys.step move).L.First = some N := by rw [hL]
    have hM : (sys.step move).L.Mem = sys.L.Mem := by rw [hL]
    have hN := (h.ownedValid _ (mem_of_getElem?_eq_some ht) N rfl).2
    rcases hchain2 with hc | ⟨N2, x, hc⟩
    · exfalso
      have hch := hinv2.chained
      rw [hF, hc] at hch
      cases hch with
      | link _ n rest _ _ => exact hN (by simp)
    · have hch := hinv2.chained
      rw [hF, hc] at hch
      have hNN : N2 = N := by
        cases hch with
        | link _ n rest _ _ => rfl
      subst hNN
      exact ⟨todo, N2, x, ht, hm, hF, hM, hc ▸ hinv2⟩

end PushFrame

/-! ## Failed exchanges are paid for -/

section PushTallyProofs

variable {ElemTy : Type}

theorem getElem?_set_split {α : Type} (l : List α) (i j : Nat) (x : α) :
    (l.set i x)[j]? = if i = j ∧ i < l.length then some x else l[j]? := by
  by_cases h : i = j
  · subst h
    by_cases hl : i < l.length
    · rw [if_pos ⟨rfl, hl⟩, List.getElem?_set_self hl]
    · rw [if_neg (fun hh => hl hh.2)]
      rw [List.getElem?_eq_none (by simp; omega), List.getElem?_eq_none (by omega)]
  · rw [if_neg (fun hh => h hh.1), List.getElem?_set_ne h]

/-- The counting invariant: failures that were not spurious, plus one if the thread is about
to fail, are covered by successes of other threads. -/
theorem tally_step (i : Nat) (sys : PushSystem ElemTy) (tally : PushTally) (move : Nat × Bool)
    (hs : tally.spurious ≤ tally.failed)
    (h : PushSystem.stale i sys → tally.failed - tally.spurious + 1 ≤ tally.others)
    (h0 : tally.failed - tally.spurious ≤ tally.others) :
    (PushSystem.tallyStep i sys tally move).spurious ≤
        (PushSystem.tallyStep i sys tally move).failed ∧
    (PushSystem.stale i (sys.step move) →
      (PushSystem.tallyStep i sys tally move).failed -
        (PushSystem.tallyStep i sys tally move).spurious + 1 ≤
        (PushSystem.tallyStep i sys tally move).others) ∧
    (PushSystem.tallyStep i sys tally move).failed -
        (PushSystem.tallyStep i sys tally move).spurious ≤
      (PushSystem.tallyStep i sys tally move).others := by
  obtain ⟨⟨Mem, First⟩, threads⟩ := sys
  unfold PushSystem.tallyStep PushSystem.step
  cases ht : threads[move.1]? with
  | none => exact ⟨hs, h, h0⟩
  | some t =>
    obtain ⟨todo, pc⟩ := t
    have hlt : move.1 < threads.length := by
      rcases Nat.lt_or_ge move.1 threads.length with h1 | h1
      · exact h1
      · rw [List.getElem?_eq_none h1] at ht; cases ht
    cases pc with
    | idle =>
      cases todo with
      | nil => exact ⟨hs, h, h0⟩
      | cons Elem todo =>
        simp only []
        by_cases hi : move.1 = i
        · rw [if_pos hi]
          refine ⟨le_refl _, fun hst => ?_, Nat.zero_le _⟩
          exfalso
          obtain ⟨todo2, N, O, hth, -⟩ := hst
          simp only [] at hth
          rw [← hi, getElem?_set_split, if_pos ⟨rfl, hlt⟩] at hth
          cases hth
        · rw [if_neg hi]
          refine ⟨hs, fun hst => h ?_, h0⟩
          obtain ⟨todo2, N, O, hth, hne⟩ := hst
          simp only [] at hth hne
          rw [getElem?_set_split, if_neg (fun hh => hi hh.1)] at hth
          exact ⟨todo2, N, O, hth, hne⟩
    | allocated N =>
      simp only []
      refine ⟨hs, fun hst => ?_, h0⟩
      cases hg : ConcurrentListNode.getNext (ConcurrentListNode.setNext Mem N First) N with
      | none =>
        rw [hg] at hst
        exact h hst
      | some OldFirst =>
        rw [hg] at hst
        obtain ⟨todo2, N2, O, hth, hne⟩ := hst
        simp only [] at hth hne
        by_cases hi : move.1 = i
        · exfalso
          rw [← hi, getElem?_set_split, if_pos ⟨rfl, hlt⟩] at hth
          simp only [Option.some.injEq, PushThread.mk.injEq, PushState.exchange.injEq] at hth
          -- the thread has just loaded `First`
          obtain ⟨n, hn⟩ : ∃ n, (ConcurrentListNode.setNext Mem N First)[N]? = some n := by
            cases hn : (ConcurrentListNode.setNext Mem N First)[N]? with
            | none => simp [ConcurrentListNode.getNext, hn] at hg
            | some n => exact ⟨n, rfl⟩
          have hlen : N < Mem.length := by
            rcases Nat.lt_or_ge N Mem.length with h1 | h1
            · exact h1
            · rw [List.getElem?_eq_none (by rw [length_setNext]; exact h1)] at hn; cases hn
          obtain ⟨m, hm⟩ : ∃ m, Mem[N]? = some m := ⟨Mem[N], List.getElem?_eq_getElem hlen⟩
          have := getElem?_setNext_self Mem N First m hm
          simp only [ConcurrentListNode.getNext, this, Option.map_some', Option.some.injEq] at hg
          exact hne (hth.2.2.symm ▸ hg)
        · rw [getElem?_set_split, if_neg (fun hh => hi hh.1)] at hth
          exact h ⟨todo2, N2, O, hth, hne⟩
    | exchange N OldFirst =>
      simp only [compare_exchange_weak]
      by_cases hc : First = OldFirst ∧ move.2 = false
      · rw [if_pos hc]
        simp only []
        by_cases hi : move.1 = i
        · rw [if_pos hi]
          refine ⟨hs, fun hst => ?_, h0⟩
          exfalso
          obtain ⟨todo2, N2, O, hth, -⟩ := hst
          simp only [] at hth
          rw [← hi, getElem?_set_split, if_pos ⟨rfl, hlt⟩] at hth
          cases hth
        · rw [if_neg hi]
          simp only []
          exact ⟨hs, fun _ => by omega, by omega⟩
      · rw [if_neg hc]
        simp only []
        by_cases hi : move.1 = i
        · rw [if_pos hi]
          simp only []
          have hstale_or : First = OldFirst ∨ PushSystem.stale i
              (⟨⟨Mem, First⟩, threads⟩ : PushSystem ElemTy) := by
            by_cases hF : First = OldFirst
            · exact Or.inl hF
            · exact Or.inr ⟨todo, N, OldFirst, hi ▸ ht, hF⟩
          refine ⟨?_, fun hst => ?_, ?_⟩
          · split <;> omega
          · exfalso
            obtain ⟨todo2, N2, O, hth, hne⟩ := hst
            simp only [] at hth hne
            rw [← hi, getElem?_set_split, if_pos ⟨rfl, hlt⟩] at hth
            simp only [Option.some.injEq, PushThread.mk.injEq, PushState.exchange.injEq] at hth
            exact hne hth.2.2
          · rcases hstale_or with hF | hst
            · rw [if_pos hF]; omega
            · have := h hst
              split <;> omega
        · rw [if_neg hi]
          refine ⟨hs, fun hst => h ?_, h0⟩
          obtain ⟨todo2, N2, O, hth, hne⟩ := hst
          simp only [] at hth hne
          rw [getElem?_set_split, if_neg (fun hh => hi hh.1)] at hth
          exact ⟨todo2, N2, O, hth, hne⟩

theorem tally_others_step (i : Nat) (sys : PushSystem ElemTy) (tally : PushTally)
    (move : Nat × Bool) (chain : List (Nat × ElemTy)) (total : List ElemTy)
    (h : sys.Inv chain total) (hle : tally.others ≤ chain.length) :
    ∃ chain2, (sys.step move).Inv chain2 total ∧
      (PushSystem.tallyStep i sys tally move).others ≤ chain2.length := by
  obtain ⟨-, hcase⟩ := inv_step_frame sys move chain total h
  rcases hcase with ⟨hF, hinv⟩ | ⟨todo, N, x, ht, hm, -, -, hinv⟩
  · refine ⟨chain, hinv, ?_⟩
    unfold PushSystem.tallyStep
    cases ht : sys.threads[move.1]? with
    | none => exact hle
    | some t =>
      obtain ⟨todo, pc⟩ := t
      cases pc with
      | idle =>
        cases todo with
        | nil => exact hle
        | cons Elem todo =>
          simp only []
          split
          · exact Nat.zero_le _
          · exact hle
      | allocated N => exact hle
      | exchange N OldFirst =>
        simp only [compare_exchange_weak]
        by_cases hc : sys.L.First = OldFirst ∧ move.2 = false
        · exfalso
          -- a successful exchange changes `First` to a node that is not on the chain
          have hstep : (sys.step move).L.First = some N := by
            unfold PushSystem.step
            rw [ht]
            simp only [compare_exchange_weak, if_pos hc]
          rw [hstep] at hF
          have hN := (h.ownedValid _ (mem_of_getElem?_eq_some ht) N rfl).2
          have hch := h.chained
          rw [← hF] at hch
          cases hch with
          | link _ n rest _ _ => exact hN (by simp)
        · rw [if_neg hc]
          simp only []
          split
          · exact hle
          · exact hle
  · refine ⟨(N, x) :: chain, hinv, ?_⟩
    unfold PushSystem.tallyStep
    rw [ht]
    simp only [compare_exchange_weak, true_and, hm, if_true]
    split
    · simp only [List.length_cons]; omega
    · simp only [List.length_cons]; omega

theorem inv_length_le (sys : PushSystem ElemTy) (chain : List (Nat × ElemTy))
    (total : List ElemTy) (h : sys.Inv chain total) : chain.length ≤ total.length := by
  have := h.account.length_eq
  simp only [List.length_append, List.length_map] at this
  omega

theorem runTally_spec (i : Nat) (schedule : List (Nat × Bool)) (sys : PushSystem ElemTy)
    (tally : PushTally) (chain : List (Nat × ElemTy)) (total : List ElemTy)
    (hinv : sys.Inv chain total) (hle : tally.others ≤ chain.length)
    (hs : tally.spurious ≤ tally.failed)
    (h : PushSystem.stale i sys → tally.failed - tally.spurious + 1 ≤ tally.others)
    (h0 : tally.failed - tally.spurious ≤ tally.others) :
    (PushSystem.runTally i sys tally schedule).1 = sys.run schedule ∧
    (PushSystem.runTally i sys tally schedule).2.failed ≤
      (PushSystem.runTally i sys tally schedule).2.others +
        (PushSystem.runTally i sys tally schedule).2.spurious ∧
    (PushSystem.runTally i sys tally schedule).2.others ≤ total.length := by
  induction schedule generalizing sys tally chain with
  | nil =>
    refine ⟨rfl, ?_, le_trans hle (inv_length_le sys chain total hinv)⟩
    simp only [PushSystem.runTally]
    omega
  | cons move schedule ih =>
    obtain ⟨chain2, hinv2, hle2⟩ := tally_others_step i sys tally move chain total hinv hle
    obtain ⟨hs2, h2, h02⟩ := tally_step i sys tally move hs h h0
    exact ih (sys.step move) _ chain2 hinv2 hle2 hs2 h2 h02

theorem not_stale_start (i : Nat) (work : List (List ElemTy)) :
    ¬ PushSystem.stale i (PushSystem.start (ConcurrentList.new ElemTy) work) := by
  rintro ⟨todo, N, OldFirst, ht, -⟩
  have hmem := mem_of_getElem?_eq_some ht
  simp only [PushSystem.start, List.mem_map] at hmem
  obtain ⟨w, -, hw⟩ := hmem
  cases hw

/-- C16, amended: count, for the `push_front` call of thread `i` that is in progress, its
failed exchanges, those of them that failed although `First` was equal to `OldFirst`, and the
successful exchanges of other threads since the call was entered.  In every execution the
failed exchanges are at most the successes of other threads plus the spurious failures, and
the successes of other threads are at most the number of elements pushed at all; so with
finitely many spurious failures the retry loop ends.  A `push_front` with no competing thread
completes after its spurious failures and one more exchange, on its first exchange when there
is no spurious failure. -/
theorem push_front_failures_bounded (work : List (List ElemTy)) (schedule : List (Nat × Bool))
    (i : Nat) :
    (PushSystem.runTally i (PushSystem.start (ConcurrentList.new ElemTy) work) ⟨0, 0, 0⟩
        schedule).1 = PushSystem.reached work schedule ∧
    (PushSystem.runTally i (PushSystem.start (ConcurrentList.new ElemTy) work) ⟨0, 0, 0⟩
        schedule).2.failed ≤
      (PushSystem.runTally i (PushSystem.start (ConcurrentList.new ElemTy) work) ⟨0, 0, 0⟩
          schedule).2.others +
        (PushSystem.runTally i (PushSystem.start (ConcurrentList.new ElemTy) work) ⟨0, 0, 0⟩
          schedule).2.spurious ∧
    (PushSystem.runTally i (PushSystem.start (ConcurrentList.new ElemTy) work) ⟨0, 0, 0⟩
        schedule).2.others ≤ work.flatten.length ∧
    (∀ (L : ConcurrentList ElemTy) (Elem : ElemTy) (spurious : Nat),
      ConcurrentList.push_front_loop L.Mem.length (List.replicate spurious true ++ [false])
          ⟨L.Mem ++ [⟨Elem, L.First⟩], L.First⟩ L.First =
        some ⟨L.Mem ++ [⟨Elem, L.First⟩], some L.Mem.length⟩ ∧
      L.push_front Elem spurious = some ⟨L.Mem ++ [⟨Elem, L.First⟩], some L.Mem.length⟩) := by
  obtain ⟨h1, h2, h3⟩ := runTally_spec i schedule
    (PushSystem.start (ConcurrentList.new ElemTy) work) ⟨0, 0, 0⟩ [] work.flatten
    (inv_start work) (Nat.zero_le _) (le_refl _)
    (fun hst => absurd hst (not_stale_start i work)) (Nat.zero_le _)
  refine ⟨h1, h2, h3, fun L Elem spurious => ⟨?_, push_front_eq L Elem spurious⟩⟩
  exact push_front_loop_alone L.Mem.length spurious ⟨L.Mem ++ [⟨Elem, L.First⟩], L.First⟩
    ⟨Elem, L.First⟩ (by simp) rfl

/-- C16 as stated fails: one thread alone pushes one element and its first exchange fails
spuriously; the call has one failed exchange although no other thread has updated `First`. -/
theorem push_front_spurious_failure :
    (PushSystem.runTally 0 (PushSystem.start (ConcurrentList.new Nat) [[1]]) ⟨0, 0, 0⟩
      [(0, false), (0, false), (0, true)]).2 = ⟨1, 1, 0⟩ ∧
    ¬ ((PushSystem.runTally 0 (PushSystem.start (ConcurrentList.new Nat) [[1]]) ⟨0, 0, 0⟩
        [(0, false), (0, false), (0, true)]).2.failed ≤
      (PushSystem.runTally 0 (PushSystem.start (ConcurrentList.new Nat) [[1]]) ⟨0, 0, 0⟩
        [(0, false), (0, false), (0, true)]).2.others) := by
  decide

end PushTallyProofs

/-! ## The recursion of `findOrAllocateNode_rec` -/

section Entries

variable {KeyTy ValueTy : Type} [LinearOrder KeyTy]

theorem entries_here (P : ConcurrentMapNode KeyTy ValueTy) (Key : KeyTy) (s : Nat)
    (h : P.Key = Key) : findOrAllocateNode_rec_entries P Key s = [[]] := by
  rw [findOrAllocateNode_rec_entries.eq_def, if_pos h]

theorem entries_descend (P c : ConcurrentMapNode KeyTy ValueTy) (Key : KeyTy) (s : Nat)
    (h : P.Key ≠ Key) (hc : P.edge (selectEdge P Key) = some c) :
    findOrAllocateNode_rec_entries P Key s =
      [] :: (findOrAllocateNode_rec_entries c Key s).map (List.cons (selectEdge P Key)) := by
  rw [findOrAllocateNode_rec_entries.eq_def, if_neg h]
  simp only []
  split
  · rename_i c2 h2
    rw [hc] at h2
    cases h2
    rfl
  · rename_i h2
    rw [hc] at h2
    cases h2

theorem entries_install (P : ConcurrentMapNode KeyTy ValueTy) (Key : KeyTy) (s : Nat)
    (h : P.Key ≠ Key) (hc : P.edge (selectEdge P Key) = none) :
    findOrAllocateNode_rec_entries P Key s = List.replicate (s + 1) [] := by
  induction s with
  | zero =>
    rw [findOrAllocateNode_rec_entries.eq_def, if_neg h]
    simp only []
    split
    · rename_i c2 h2
      rw [hc] at h2
      cases h2
    · rfl
  | succ s ih =>
    rw [findOrAllocateNode_rec_entries.eq_def, if_neg h]
    simp only []
    split
    · rename_i c2 h2
      rw [hc] at h2
      cases h2
    · rw [ih]; rfl

omit [LinearOrder KeyTy] in
theorem height_eq (P : ConcurrentMapNode KeyTy ValueTy) :
    P.height = 1 + max
      (match P.edge EdgeSel.Left with
        | none => 0
        | some c => c.height)
      (match P.edge EdgeSel.Right with
        | none => 0
        | some c => c.height) := by
  cases P with
  | mk p l r k => cases l <;> cases r <;> rfl

omit [LinearOrder KeyTy] in
theorem height_edge_lt (P c : ConcurrentMapNode KeyTy ValueTy) (e : EdgeSel)
    (h : P.edge e = some c) : c.height < P.height := by
  rw [height_eq P]
  cases e <;> rw [h] <;> simp <;> omega

omit [LinearOrder KeyTy] in
theorem height_pos (P : ConcurrentMapNode KeyTy ValueTy) : 0 < P.height := by
  rw [height_eq]; omega

/-- The number of entries is bounded by the remaining depth and the spurious failures. -/
theorem entries_length_le (P : ConcurrentMapNode KeyTy ValueTy) (Key : KeyTy) (s : Nat) :
    (findOrAllocateNode_rec_entries P Key s).length ≤ P.height + s := by
  induction P using ConcurrentMapNode.edge_induction with
  | step P ih =>
    by_cases h : P.Key = Key
    · rw [entries_here P Key s h]
      have := height_pos P
      simp; omega
    · cases hc : P.edge (selectEdge P Key) with
      | none =>
        rw [entries_install P Key s h hc]
        have := height_pos P
        simp; omega
      | some c =>
        rw [entries_descend P c Key s h hc]
        have := ih _ c hc
        have := height_edge_lt P c _ hc
        simp; omega

theorem chain_replicate {α : Type} (R : α → α → Prop) (a : α) (h : R a a) (n : Nat) :
    List.Chain' R (List.replicate n a) := by
  induction n with
  | zero => exact List.chain'_nil
  | succ n ih =>
    cases n with
    | zero => exact List.chain'_singleton _
    | succ n =>
      rw [List.replicate_succ, List.replicate_succ, List.chain'_cons]
      exact ⟨h, by rw [← List.replicate_succ]; exact ih⟩

/-- Consecutive entries: the next entry is a child of the present one, or, after a spurious
failure, the present one once more. -/
theorem entries_chain (P : ConcurrentMapNode KeyTy ValueTy) (Key : KeyTy) (s : Nat) :
    List.Chain' (fun a b => (∃ e, b = a ++ [e]) ∨ (0 < s ∧ b = a))
      (findOrAllocateNode_rec_entries P Key s) ∧
    (findOrAllocateNode_rec_entries P Key s).head? = some [] := by
  induction P using ConcurrentMapNode.edge_induction with
  | step P ih =>
    by_cases h : P.Key = Key
    · rw [entries_here P Key s h]
      exact ⟨List.chain'_singleton _, rfl⟩
    · cases hc : P.edge (selectEdge P Key) with
      | none =>
        rw [entries_install P Key s h hc]
        refine ⟨?_, rfl⟩
        cases s with
        | zero => exact List.chain'_singleton _
        | succ s =>
          exact chain_replicate (fun a b : SlotRef => (∃ e, b = a ++ [e]) ∨ (0 < s + 1 ∧ b = a)) []
            (Or.inr ⟨Nat.succ_pos s, rfl⟩) _
      | some c =>
        rw [entries_descend P c Key s h hc]
        obtain ⟨hch, hhd⟩ := ih _ c hc
        refine ⟨?_, rfl⟩
        cases hent : findOrAllocateNode_rec_entries c Key s with
        | nil => rw [hent] at hhd; cases hhd
        | cons first rest =>
          rw [hent] at hhd hch
          simp only [List.head?_cons, Option.some.injEq] at hhd
          subst hhd
          rw [List.map_cons, List.chain'_cons]
          refine ⟨Or.inl ⟨selectEdge P Key, rfl⟩, ?_⟩
          rw [← List.map_cons, List.chain'_map]
          refine hch.imp ?_
          rintro a b (⟨e, rfl⟩ | ⟨hs, rfl⟩)
          · exact Or.inl ⟨e, rfl⟩
          · exact Or.inr ⟨hs, rfl⟩

/-- Every node entered lies on the way to the slot that is returned. -/
theorem entries_on_way [Inhabited ValueTy] (P : ConcurrentMapNode KeyTy ValueTy) (Key : KeyTy)
    (s : Nat) :
    ∀ ref ∈ findOrAllocateNode_rec_entries P Key s,
      ∃ rest, (findOrAllocateNode_rec P Key s).Slot = ref ++ rest := by
  induction P using ConcurrentMapNode.edge_induction with
  | step P ih =>
    by_cases h : P.Key = Key
    · rw [entries_here P Key s h, find_here P Key s h]
      intro ref href
      simp at href
      subst href
      exact ⟨[], rfl⟩
    · cases hc : P.edge (selectEdge P Key) with
      | none =>
        rw [entries_install P Key s h hc, find_install P Key s h hc]
        intro ref href
        rw [List.eq_of_mem_replicate href]
        exact ⟨_, rfl⟩
      | some c =>
        rw [entries_descend P c Key s h hc, find_descend P c Key s h hc]
        intro ref href
        rw [List.mem_cons] at href
        rcases href with href | href
        · subst href; exact ⟨_, rfl⟩
        · obtain ⟨r, hr, rfl⟩ := List.mem_map.mp href
          obtain ⟨rest, hrest⟩ := ih _ c hc r hr
          exact ⟨rest, by simp [hrest]⟩

theorem entries_length_of_foundAt {P : ConcurrentMapNode KeyTy ValueTy} {Key : KeyTy}
    {S : SlotRef} (h : FoundAt P Key S) (s : Nat) :
    (findOrAllocateNode_rec_entries P Key s).length = S.length + 1 := by
  induction h with
  | here P Key hk => rw [entries_here P Key s hk]; rfl
  | under P c Key ref hk hc _ ih =>
    rw [entries_descend P c Key s hk hc]
    simp [ih]

omit [LinearOrder KeyTy] in
theorem remainingDepth_cons (P c : ConcurrentMapNode KeyTy ValueTy) (e : EdgeSel)
    (hc : P.edge e = some c) (ref : SlotRef) :
    remainingDepth P (e :: ref) = remainingDepth c ref := by
  simp [remainingDepth, ConcurrentMapNode.nodeAt, hc]

/-- With no spurious failure every re-entry is on a node of smaller remaining depth. -/
theorem entries_depth_decreasing (P : ConcurrentMapNode KeyTy ValueTy) (Key : KeyTy) :
    List.Chain' (fun a b => b < a)
      ((findOrAllocateNode_rec_entries P Key 0).filterMap (remainingDepth P)) ∧
    ((findOrAllocateNode_rec_entries P Key 0).filterMap (remainingDepth P)).head? =
      some P.height := by
  induction P using ConcurrentMapNode.edge_induction with
  | step P ih =>
    by_cases h : P.Key = Key
    · rw [entries_here P Key 0 h]
      simp [remainingDepth, ConcurrentMapNode.nodeAt]
    · cases hc : P.edge (selectEdge P Key) with
      | none =>
        rw [entries_install P Key 0 h hc]
        simp [remainingDepth, ConcurrentMapNode.nodeAt]
      | some c =>
        rw [entries_descend P c Key 0 h hc]
        obtain ⟨hch, hhd⟩ := ih _ c hc
        have hmap : ((findOrAllocateNode_rec_entries c Key 0).map
            (List.cons (selectEdge P Key))).filterMap (remainingDepth P) =
            (findOrAllocateNode_rec_entries c Key 0).filterMap (remainingDepth c) := by
          rw [List.filterMap_map]
          congr 1
          funext ref
          exact remainingDepth_cons P c _ hc ref
        have hfirst : remainingDepth P [] = some P.height := rfl
        rw [List.filterMap_cons, hfirst, hmap]
        refine ⟨?_, rfl⟩
        cases hl : (findOrAllocateNode_rec_entries c Key 0).filterMap (remainingDepth c) with
        | nil => exact List.chain'_singleton _
        | cons d rest =>
          rw [hl] at hch hhd
          simp only [List.head?_cons, Option.some.injEq] at hhd
          rw [List.chain'_cons]
          exact ⟨by rw [hhd]; exact height_edge_lt P c _ hc, hch⟩

variable [Inhabited ValueTy]

/-- C12, amended: run with no other thread, `findOrAllocateNode_rec` is total for every tree,
key and number of spurious failures of the weak compare-exchange, and returns the slot of a
node that holds the key.  It enters itself at most as many times as the tree is deep plus the
number of spurious failures; each re-entry is on a child of the node before, or, after a
spurious failure, on the same node again; every node entered lies on the way to the returned
slot.  With no spurious failure the remaining depth decreases at every re-entry. -/
theorem findOrAllocateNode_rec_terminates (P : ConcurrentMapNode KeyTy ValueTy) (Key : KeyTy)
    (spurious : Nat) :
    (∃ n, (findOrAllocateNode_rec P Key spurious).P.nodeAt
        (findOrAllocateNode_rec P Key spurious).Slot = some n ∧ n.Key = Key) ∧
    (findOrAllocateNode_rec_entries P Key spurious).length ≤ P.height + spurious ∧
    List.Chain' (fun a b => (∃ e, b = a ++ [e]) ∨ (0 < spurious ∧ b = a))
      (findOrAllocateNode_rec_entries P Key spurious) ∧
    (∀ ref ∈ findOrAllocateNode_rec_entries P Key spurious,
      ∃ rest, (findOrAllocateNode_rec P Key spurious).Slot = ref ++ rest) ∧
    List.Chain' (fun a b => b < a)
      ((findOrAllocateNode_rec_entries P Key 0).filterMap (remainingDepth P)) :=
  ⟨nodeAt_of_foundAt (foundAt_find P Key spurious), entries_length_le P Key spurious,
    (entries_chain P Key spurious).1, entries_on_way P Key spurious,
    (entries_depth_decreasing P Key).1⟩

/-- C12 as stated fails: on the fresh map, a call for 5 whose exchange fails spuriously once
deletes its node and enters itself again on the sentinel: two entries on the same node, the
remaining depth 1 both times. -/
theorem findOrAllocateNode_rec_reenters_same_node :
    findOrAllocateNode_rec_entries (ConcurrentMap.new Nat Nat).Sentinel 5 1 = [[], []] ∧
    (findOrAllocateNode_rec_entries (ConcurrentMap.new Nat Nat).Sentinel 5 1).filterMap
      (remainingDepth (ConcurrentMap.new Nat Nat).Sentinel) = [1, 1] ∧
    ¬ List.Chain' (fun a b => b < a)
      ((findOrAllocateNode_rec_entries (ConcurrentMap.new Nat Nat).Sentinel 5 1).filterMap
        (remainingDepth (ConcurrentMap.new Nat Nat).Sentinel)) := by
  have hent : findOrAllocateNode_rec_entries (ConcurrentMap.new Nat Nat).Sentinel 5 1 =
      [[], []] :=
    entries_install _ 5 1 (by decide) rfl
  rw [hent]
  have hdepth : ([[], []] : List SlotRef).filterMap
      (remainingDepth (ConcurrentMap.new Nat Nat).Sentinel) = [1, 1] := by decide
  rw [hdepth]
  refine ⟨rfl, rfl, ?_⟩
  rw [List.chain'_cons]
  exact fun h => absurd h.1 (lt_irrefl 1)

end Entries

/-! ## A call for an absent key -/

section LeafInstalled

variable {KeyTy ValueTy : Type}

theorem nodeAt_linkAt_new (root : ConcurrentMapNode KeyTy ValueTy) (P : SlotRef) (e : EdgeSel)
    (c : ConcurrentMapNode KeyTy ValueTy) :
    ∀ n : ConcurrentMapNode KeyTy ValueTy, root.nodeAt P = some n → n.edge e = none →
      (root.linkAt P e c).nodeAt (P ++ [e]) = some c := by
  induction P generalizing root with
  | nil =>
    intro n hn hnone
    simp [ConcurrentMapNode.linkAt, ConcurrentMapNode.nodeAt]
  | cons e0 P ih =>
    intro n hn hnone
    cases hc : root.edge e0 with
    | none => simp [ConcurrentMapNode.nodeAt, hc] at hn
    | some child =>
      simp only [ConcurrentMapNode.nodeAt, hc] at hn
      simp [ConcurrentMapNode.linkAt, ConcurrentMapNode.nodeAt, hc, ih child n hn hnone]

/-- Storing `c` into an empty edge keeps every node where it is, with its key and payload,
and adds exactly the nodes of `c` below that edge. -/
theorem nodeAt_linkAt_frame (root : ConcurrentMapNode KeyTy ValueTy) (P : SlotRef)
    (e : EdgeSel) (c : ConcurrentMapNode KeyTy ValueTy) :
    ∀ n : ConcurrentMapNode KeyTy ValueTy, root.nodeAt P = some n → n.edge e = none →
    ∀ ref : SlotRef,
      (∀ m, root.nodeAt ref = some m →
        ∃ m2, (root.linkAt P e c).nodeAt ref = some m2 ∧ m2.Key = m.Key ∧
          m2.Payload = m.Payload) ∧
      (((root.linkAt P e c).nodeAt ref).isSome ↔
        (root.nodeAt ref).isSome ∨ ∃ rest, ref = P ++ e :: rest ∧ (c.nodeAt rest).isSome) := by
  induction P generalizing root with
  | nil =>
    intro n hn hnone ref
    simp only [ConcurrentMapNode.nodeAt, Option.some.injEq] at hn
    subst hn
    cases ref with
    | nil =>
      refine ⟨fun m hm => ?_, by simp [ConcurrentMapNode.nodeAt]⟩
      simp only [ConcurrentMapNode.nodeAt, Option.some.injEq] at hm
      subst hm
      exact ⟨_, rfl, by simp [ConcurrentMapNode.linkAt], by simp [ConcurrentMapNode.linkAt]⟩
    | cons e2 r =>
      by_cases he : e2 = e
      · subst he
        refine ⟨fun m hm => ?_, ?_⟩
        · simp [ConcurrentMapNode.nodeAt, hnone] at hm
        · simp [ConcurrentMapNode.nodeAt, ConcurrentMapNode.linkAt, hnone]
      · have hedge : (root.linkAt [] e c).edge e2 = root.edge e2 := by
          simp only [ConcurrentMapNode.linkAt]
          exact ConcurrentMapNode.edge_setEdge_other _ _ _ _ he
        refine ⟨fun m hm => ⟨m, ?_, rfl, rfl⟩, ?_⟩
        · simp only [ConcurrentMapNode.nodeAt, hedge]
          exact hm
        · simp only [ConcurrentMapNode.nodeAt, hedge, List.nil_append, List.cons.injEq]
          constructor
          · exact Or.inl
          · rintro (h | ⟨rest, ⟨h1, -⟩, -⟩)
            · exact h
            · exact absurd h1 he
  | cons e0 P ih =>
    intro n hn hnone ref
    cases hc : root.edge e0 with
    | none => simp [ConcurrentMapNode.nodeAt, hc] at hn
    | some child =>
      simp only [ConcurrentMapNode.nodeAt, hc] at hn
      have hlink : root.linkAt (e0 :: P) e c = root.setEdge e0 (some (child.linkAt P e c)) := by
        simp [ConcurrentMapNode.linkAt, hc]
      rw [hlink]
      cases ref with
      | nil =>
        refine ⟨fun m hm => ?_, by simp [ConcurrentMapNode.nodeAt]⟩
        simp only [ConcurrentMapNode.nodeAt, Option.some.injEq] at hm
        subst hm
        exact ⟨_, rfl, by simp, by simp⟩
      | cons e2 r =>
        by_cases he : e2 = e0
        · subst he
          obtain ⟨h1, h2⟩ := ih child n hn hnone r
          refine ⟨fun m hm => ?_, ?_⟩
          · simp only [ConcurrentMapNode.nodeAt, hc] at hm
            simpa [ConcurrentMapNode.nodeAt] using h1 m hm
          · simp only [ConcurrentMapNode.nodeAt, ConcurrentMapNode.edge_setEdge_same, hc,
              List.cons_append, List.cons.injEq, true_and]
            exact h2
        · have hedge : (root.setEdge e0 (some (child.linkAt P e c))).edge e2 = root.edge e2 :=
            ConcurrentMapNode.edge_setEdge_other _ _ _ _ he
          refine ⟨fun m hm => ⟨m, ?_, rfl, rfl⟩, ?_⟩
          · simp only [ConcurrentMapNode.nodeAt, hedge]
            exact hm
          · simp only [ConcurrentMapNode.nodeAt, hedge, List.cons_append, List.cons.injEq]
            constructor
            · exact Or.inl
            · rintro (h | ⟨rest, ⟨h1, -⟩, -⟩)
              · exact h
              · exact absurd h1 he

variable [LinearOrder KeyTy]

theorem mem_keys_of_foundAt {root : ConcurrentMapNode KeyTy ValueTy} {Key : KeyTy}
    {S : SlotRef} (h : FoundAt root Key S) : Key ∈ root.keys := by
  induction h with
  | here P Key hk =>
    rw [ConcurrentMapNode.mem_keys_iff]
    exact Or.inl hk.symm
  | under P c Key ref _ hc _ ih =>
    rw [ConcurrentMapNode.mem_keys_iff]
    exact Or.inr ⟨selectEdge P Key, by rw [hc]; exact ih⟩

/-- The search for a key that no node holds ends at an empty edge. -/
theorem empty_edge_of_not_mem (root : ConcurrentMapNode KeyTy ValueTy) (Key : KeyTy)
    (h : Key ∉ root.keys) :
    ∃ P n, OnPath root Key P ∧ root.nodeAt P = some n ∧ n.Key ≠ Key ∧
      n.edge (selectEdge n Key) = none := by
  induction root using ConcurrentMapNode.edge_induction with
  | step root ih =>
    have hk : root.Key ≠ Key := by
      intro hk
      exact h ((ConcurrentMapNode.mem_keys_iff root Key).mpr (Or.inl hk.symm))
    cases hc : root.edge (selectEdge root Key) with
    | none => exact ⟨[], root, OnPath.start root Key, rfl, hk, hc⟩
    | some c =>
      have hnot : Key ∉ c.keys := by
        intro hmem
        exact h ((ConcurrentMapNode.mem_keys_iff root Key).mpr
          (Or.inr ⟨selectEdge root Key, by rw [hc]; exact hmem⟩))
      obtain ⟨P, n, hP, hn, hnk, hnone⟩ := ih _ c hc hnot
      exact ⟨selectEdge root Key :: P, n, OnPath.follow root c Key P hk hc hP,
        by simp [ConcurrentMapNode.nodeAt, hc, hn], hnk, hnone⟩

variable [Inhabited ValueTy]

theorem find_of_onPath_null_any {root : ConcurrentMapNode KeyTy ValueTy} {Key : KeyTy}
    {P : SlotRef} (h : OnPath root Key P) (n : ConcurrentMapNode KeyTy ValueTy)
    (hn : root.nodeAt P = some n) (hk : n.Key ≠ Key) (hnone : n.edge (selectEdge n Key) = none)
    (s : Nat) :
    findOrAllocateNode_rec root Key s =
      ⟨root.linkAt P (selectEdge n Key) (ConcurrentMapNode.new Key), P ++ [selectEdge n Key],
        s + 1, s⟩ := by
  induction h with
  | start P Key =>
    simp only [ConcurrentMapNode.nodeAt, Option.some.injEq] at hn
    subst hn
    rw [find_install _ Key s hk hnone]
    rfl
  | follow P c Key ref hne hc _ ih =>
    simp only [ConcurrentMapNode.nodeAt, hc] at hn
    rw [find_descend P c Key s hne hc, ih hn hk hnone]
    simp [ConcurrentMapNode.linkAt, hc]

/-- C13: a call for a key `k` that no node of the tree holds changes the tree only by storing
one new leaf, holding `k` and a default-constructed value, into the empty edge at which the
search for `k` ends, and returns the slot of that leaf: the nodes of the new tree are the
nodes of the old one, each where it was and with its key and value, and the leaf. -/
theorem findOrAllocateNode_installs_leaf (M : ConcurrentMap KeyTy ValueTy) (k : KeyTy)
    (s : Nat) (hk : k ∉ M.Sentinel.keys) :
    ∃ P n, OnPath M.Sentinel k P ∧ M.Sentinel.nodeAt P = some n ∧
      n.edge (selectEdge n k) = none ∧
      (M.findOrAllocateNode k s).P =
        M.Sentinel.linkAt P (selectEdge n k) (ConcurrentMapNode.new k) ∧
      (M.findOrAllocateNode k s).Slot = P ++ [selectEdge n k] ∧
      (M.findOrAllocateNode k s).P.nodeAt (P ++ [selectEdge n k]) =
        some (ConcurrentMapNode.mk default none none k) ∧
      (∀ ref, ((M.findOrAllocateNode k s).P.nodeAt ref).isSome ↔
        (M.Sentinel.nodeAt ref).isSome ∨ ref = P ++ [selectEdge n k]) ∧
      (∀ ref m, M.Sentinel.nodeAt ref = some m →
        ∃ m2, (M.findOrAllocateNode k s).P.nodeAt ref = some m2 ∧ m2.Key = m.Key ∧
          m2.Payload = m.Payload) := by
  obtain ⟨P, n, hP, hn, hnk, hnone⟩ := empty_edge_of_not_mem M.Sentinel k hk
  have hres := find_of_onPath_null_any hP n hn hnk hnone s
  refine ⟨P, n, hP, hn, hnone, ?_, ?_, ?_, ?_, ?_⟩
  · simp only [ConcurrentMap.findOrAllocateNode, hres]
  · simp only [ConcurrentMap.findOrAllocateNode, hres]
  · simp only [ConcurrentMap.findOrAllocateNode, hres]
    exact nodeAt_linkAt_new _ P _ _ n hn hnone
  · intro ref
    simp only [ConcurrentMap.findOrAllocateNode, hres]
    rw [(nodeAt_linkAt_frame _ P _ (ConcurrentMapNode.new k) n hn hnone ref).2]
    constructor
    · rintro (h | ⟨rest, rfl, hrest⟩)
      · exact Or.inl h
      · right
        cases rest with
        | nil => rfl
        | cons e2 rest =>
          cases e2 <;> simp [ConcurrentMapNode.nodeAt, ConcurrentMapNode.new,
            ConcurrentMapNode.edge] at hrest
    · rintro (h | rfl)
      · exact Or.inl h
      · exact Or.inr ⟨[], rfl, rfl⟩
  · intro ref m hm
    simp only [ConcurrentMap.findOrAllocateNode, hres]
    exact (nodeAt_linkAt_frame _ P _ (ConcurrentMapNode.new k) n hn hnone ref).1 m hm

/-- Witness of C13: a call for 4 on the tree holding 0 and 5 puts the leaf on the lower
edge of 5. -/
theorem findOrAllocateNode_installs_leaf_witness :
    (4 : Nat) ∉ (ConcurrentMapNode.mk 0 none
      (some (ConcurrentMapNode.mk 0 none none 5)) 0 : ConcurrentMapNode Nat Nat).keys ∧
    ∃ P n, OnPath (ConcurrentMapNode.mk 0 none
        (some (ConcurrentMapNode.mk 0 none none 5)) 0 : ConcurrentMapNode Nat Nat) 4 P ∧
      (ConcurrentMapNode.mk 0 none
        (some (ConcurrentMapNode.mk 0 none none 5)) 0 : ConcurrentMapNode Nat Nat).nodeAt P =
        some n ∧
      n.edge (selectEdge n 4) = none ∧
      ((⟨ConcurrentMapNode.mk 0 none (some (ConcurrentMapNode.mk 0 none none 5)) 0⟩ :
          ConcurrentMap Nat Nat).findOrAllocateNode 4 2).P =
        (ConcurrentMapNode.mk 0 none
          (some (ConcurrentMapNode.mk 0 none none 5)) 0 : ConcurrentMapNode Nat Nat).linkAt P
          (selectEdge n 4) (ConcurrentMapNode.new 4) :=
  have absent : (4 : Nat) ∉ (ConcurrentMapNode.mk 0 none
      (some (ConcurrentMapNode.mk 0 none none 5)) 0 : ConcurrentMapNode Nat Nat).keys := by
    decide
  ⟨absent, by
    obtain ⟨P, n, h1, h2, h3, h4, -⟩ := findOrAllocateNode_installs_leaf
      (⟨ConcurrentMapNode.mk 0 none (some (ConcurrentMapNode.mk 0 none none 5)) 0⟩ :
        ConcurrentMap Nat Nat) 4 2 absent
    exact ⟨P, n, h1, h2, h3, h4⟩⟩

end LeafInstalled

/-! ## Increasing keys -/

section Spine

variable {KeyTy ValueTy : Type} [LinearOrder KeyTy] [Inhabited ValueTy]

theorem referenceInsert_rightSpine (k : KeyTy) (keys : List KeyTy) (x : KeyTy)
    (hk : k < x) (hks : ∀ y ∈ keys, y < x) :
    (ConcurrentMapNode.rightSpine k keys : ConcurrentMapNode KeyTy ValueTy).referenceInsert x =
      ConcurrentMapNode.rightSpine k (keys ++ [x]) := by
  induction keys generalizing k with
  | nil =>
    simp [ConcurrentMapNode.rightSpine, ConcurrentMapNode.referenceInsert, ne_of_gt hk,
      not_lt_of_gt hk, ConcurrentMapNode.new]
  | cons k2 keys ih =>
    have h2 := ih k2 (hks k2 (List.mem_cons_self _ _))
      (fun y hy => hks y (List.mem_cons_of_mem _ hy))
    simp [ConcurrentMapNode.rightSpine, ConcurrentMapNode.referenceInsert, ne_of_gt hk,
      not_lt_of_gt hk, h2]

theorem foldl_referenceInsert_rightSpine (k : KeyTy) (done rest : List KeyTy)
    (h : (k :: (done ++ rest)).Pairwise (· < ·)) :
    rest.foldl ConcurrentMapNode.referenceInsert
        (ConcurrentMapNode.rightSpine k done : ConcurrentMapNode KeyTy ValueTy) =
      ConcurrentMapNode.rightSpine k (done ++ rest) := by
  induction rest generalizing done with
  | nil => simp
  | cons x rest ih =>
    rw [List.foldl_cons]
    have hpw := h
    rw [List.pairwise_cons, List.pairwise_append] at hpw
    have hkx : k < x := hpw.1 x (by simp)
    have hdx : ∀ y ∈ done, y < x := fun y hy => hpw.2.2.2 y hy x (List.mem_cons_self _ _)
    rw [referenceInsert_rightSpine k done x hkx hdx]
    have := ih (done ++ [x]) (by simpa using h)
    simpa using this

theorem foundAt_rightSpine (k : KeyTy) (before : List KeyTy) (x : KeyTy) (after : List KeyTy)
    (h : (k :: (before ++ x :: after)).Pairwise (· < ·)) :
    FoundAt (ConcurrentMapNode.rightSpine k (before ++ x :: after) :
        ConcurrentMapNode KeyTy ValueTy) x
      (List.replicate (before.length + 1) EdgeSel.Right) := by
  induction before generalizing k with
  | nil =>
    rw [List.pairwise_cons] at h
    have hkx : k < x := h.1 x (by simp)
    have hsel : selectEdge (ConcurrentMapNode.rightSpine k ([] ++ x :: after) :
        ConcurrentMapNode KeyTy ValueTy) x = EdgeSel.Right := by
      simp [selectEdge, ConcurrentMapNode.rightSpine, ConcurrentMapNode.Key, not_lt_of_gt hkx]
    have := FoundAt.under (ConcurrentMapNode.rightSpine k ([] ++ x :: after) :
        ConcurrentMapNode KeyTy ValueTy) (ConcurrentMapNode.rightSpine x after) x []
      (by simp [ConcurrentMapNode.rightSpine, ConcurrentMapNode.Key, ne_of_lt hkx])
      (by rw [hsel]; rfl)
      (FoundAt.here _ _ (by cases after <;> rfl))
    rw [hsel] at this
    exact this
  | cons b before ih =>
    have hpw := h
    rw [List.pairwise_cons] at hpw
    have hkx : k < x := hpw.1 x (by simp)
    have hsel : selectEdge (ConcurrentMapNode.rightSpine k ((b :: before) ++ x :: after) :
        ConcurrentMapNode KeyTy ValueTy) x = EdgeSel.Right := by
      simp [selectEdge, ConcurrentMapNode.rightSpine, ConcurrentMapNode.Key, not_lt_of_gt hkx]
    have := FoundAt.under (ConcurrentMapNode.rightSpine k ((b :: before) ++ x :: after) :
        ConcurrentMapNode KeyTy ValueTy) (ConcurrentMapNode.rightSpine b (before ++ x :: after)) x
      _
      (by simp [ConcurrentMapNode.rightSpine, ConcurrentMapNode.Key, ne_of_lt hkx])
      (by rw [hsel]; rfl)
      (ih b hpw.2)
    rw [hsel] at this
    exact this

omit [LinearOrder KeyTy] in
theorem rightSpine_left_empty (k : KeyTy) (keys : List KeyTy) :
    ∀ (ref : SlotRef) (n : ConcurrentMapNode KeyTy ValueTy),
      (ConcurrentMapNode.rightSpine k keys : ConcurrentMapNode KeyTy ValueTy).nodeAt ref =
        some n → n.edge EdgeSel.Left = none := by
  induction keys generalizing k with
  | nil =>
    intro ref n hn
    cases ref with
    | nil =>
      simp only [ConcurrentMapNode.nodeAt, Option.some.injEq] at hn
      subst hn; rfl
    | cons e ref =>
      cases e <;> simp [ConcurrentMapNode.nodeAt, ConcurrentMapNode.rightSpine,
        ConcurrentMapNode.edge] at hn
  | cons k2 keys ih =>
    intro ref n hn
    cases ref with
    | nil =>
      simp only [ConcurrentMapNode.nodeAt, Option.some.injEq] at hn
      subst hn; rfl
    | cons e ref =>
      cases e with
      | Left => simp [ConcurrentMapNode.nodeAt, ConcurrentMapNode.rightSpine,
          ConcurrentMapNode.edge] at hn
      | Right =>
        simp only [ConcurrentMapNode.nodeAt, ConcurrentMapNode.rightSpine,
          ConcurrentMapNode.edge] at hn
        exact ih k2 ref n hn

/-- C15: for calls whose keys are strictly increasing and greater than the null key `0`,
made on an empty map, the tree is one chain of `Right` edges from the sentinel: no node has a
`Left` child, the call for the `i`-th key (counted from 0) afterwards returns the node `i + 1`
`Right` edges below the sentinel, and a call for the last of `n` keys returns the node at
depth `n` after entering the sentinel and all `n` nodes. -/
theorem increasing_keys_degenerate [Zero KeyTy] (calls : List (KeyTy × Nat))
    (hinc : ((0 : KeyTy) :: calls.map Prod.fst).Pairwise (· < ·)) :
    ((ConcurrentMap.new KeyTy ValueTy).afterCalls calls).Sentinel =
      ConcurrentMapNode.rightSpine 0 (calls.map Prod.fst) ∧
    (∀ ref n, ((ConcurrentMap.new KeyTy ValueTy).afterCalls calls).Sentinel.nodeAt ref = some n →
      n.edge EdgeSel.Left = none) ∧
    (∀ (i : Nat) (k : KeyTy) (s : Nat), (calls.map Prod.fst)[i]? = some k →
      (((ConcurrentMap.new KeyTy ValueTy).afterCalls calls).findOrAllocateNode k s).Slot =
        List.replicate (i + 1) EdgeSel.Right) ∧
    (∀ (k : KeyTy) (s : Nat), (calls.map Prod.fst).getLast? = some k →
      (((ConcurrentMap.new KeyTy ValueTy).afterCalls calls).findOrAllocateNode k s).Slot.length =
        calls.length ∧
      (findOrAllocateNode_rec_entries
        ((ConcurrentMap.new KeyTy ValueTy).afterCalls calls).Sentinel k s).length =
        calls.length + 1) := by
  have htree : ((ConcurrentMap.new KeyTy ValueTy).afterCalls calls).Sentinel =
      ConcurrentMapNode.rightSpine 0 (calls.map Prod.fst) := by
    rw [afterCalls_eq_foldl]
    exact foldl_referenceInsert_rightSpine 0 [] (calls.map Prod.fst) hinc
  have hslot : ∀ (i : Nat) (k : KeyTy), (calls.map Prod.fst)[i]? = some k →
      FoundAt ((ConcurrentMap.new KeyTy ValueTy).afterCalls calls).Sentinel k
        (List.replicate (i + 1) EdgeSel.Right) := by
    intro i k hi
    obtain ⟨before, after, hsplit, hlen, -⟩ := split_of_getElem? _ i k hi
    rw [htree, hsplit, ← hlen]
    exact foundAt_rightSpine 0 before k after (by rw [← hsplit]; exact hinc)
  refine ⟨htree, ?_, ?_, ?_⟩
  · intro ref n hn
    rw [htree] at hn
    exact rightSpine_left_empty 0 _ ref n hn
  · intro i k s hi
    simp only [ConcurrentMap.findOrAllocateNode]
    rw [find_of_foundAt (hslot i k hi) s]
  · intro k s hlast
    have hne : calls.map Prod.fst ≠ [] := by
      intro h
      rw [h] at hlast
      cases hlast
    have hpos : 0 < calls.length := by
      cases calls with
      | nil => exact absurd rfl hne
      | cons c calls => simp
    have hi : (calls.map Prod.fst)[calls.length - 1]? = some k := by
      rw [List.getLast?_eq_getElem?] at hlast
      simpa using hlast
    have hf := hslot (calls.length - 1) k hi
    have hlen : calls.length - 1 + 1 = calls.length := by omega
    rw [hlen] at hf
    refine ⟨?_, ?_⟩
    · simp only [ConcurrentMap.findOrAllocateNode]
      rw [find_of_foundAt hf s]
      simp
    · rw [entries_length_of_foundAt hf s]
      simp

/-- Witness of C15: the calls for 2, 3 and 7. -/
theorem increasing_keys_degenerate_witness :
    ((0 : Nat) :: [((2 : Nat), 0), (3, 1), (7, 0)].map Prod.fst).Pairwise (· < ·) ∧
    ((ConcurrentMap.new Nat Nat).afterCalls [(2, 0), (3, 1), (7, 0)]).Sentinel =
      ConcurrentMapNode.mk 0 none (some (ConcurrentMapNode.mk 0 none
        (some (ConcurrentMapNode.mk 0 none (some (ConcurrentMapNode.mk 0 none none 7)) 3)) 2)) 0 ∧
    (((ConcurrentMap.new Nat Nat).afterCalls [(2, 0), (3, 1), (7, 0)]).findOrAllocateNode 7
        4).Slot.length = 3 :=
  have hinc : ((0 : Nat) :: [((2 : Nat), 0), (3, 1), (7, 0)].map Prod.fst).Pairwise (· < ·) := by
    decide
  ⟨hinc, (@increasing_keys_degenerate Nat Nat _ _ _ [(2, 0), (3, 1), (7, 0)] hinc).1,
    ((@increasing_keys_degenerate Nat Nat _ _ _ [(2, 0), (3, 1), (7, 0)] hinc).2.2.2 7 4
      rfl).1⟩

end Spine

/-! ## Structure layout -/

section Layout

open irgen

variable {LayoutStrategy : Type}

theorem roundUp_aligned (S a : Nat) (h : 0 < a) : (S + (a - S % a)) % a = 0 := by
  have hlt := Nat.mod_lt S h
  have hdiv := Nat.div_add_mod S a
  have : S + (a - S % a) = a * (S / a + 1) := by
    rw [Nat.mul_add, Nat.mul_one]
    generalize S % a = r at hlt hdiv
    generalize a * (S / a) = q at hdiv
    omega
  rw [this]
  exact Nat.mul_mod_right _ _

theorem roundUp_padding_lt (S a : Nat) (hpos : 0 < a) (hne : S % a ≠ 0) :
    S + (a - S % a) - S < a := by
  have hlt := Nat.mod_lt S hpos
  generalize S % a = r at hne hlt
  omega

theorem aligned_least (S a p m : Nat) (hp : p % a = 0) (hSp : S ≤ p) (hpad : p - S < a)
    (hm : S ≤ m) (hdvd : m % a = 0) : p ≤ m := by
  by_contra hlt
  have hlt : m < p := Nat.lt_of_not_le hlt
  obtain ⟨c, hc⟩ := Nat.dvd_of_mod_eq_zero hdvd
  obtain ⟨d, hd⟩ := Nat.dvd_of_mod_eq_zero hp
  have hlt2 : a * c < a * d := by rw [← hc, ← hd]; exact hlt
  have hcd : c < d := Nat.lt_of_mul_lt_mul_left hlt2
  have : a * (c + 1) ≤ a * d := Nat.mul_le_mul_left _ hcd
  rw [Nat.mul_add, Nat.mul_one, ← hc, ← hd] at this
  omega

/-- What `pad` has done when it returns. -/
theorem pad_spec (B : StructLayoutBuilder) (t : TypeInfo) (B1 : StructLayoutBuilder)
    (h : B.pad t = some B1) :
    0 < t.FixedAlignment ∧
    B1.CurSize =
      (if B.CurSize % t.FixedAlignment = 0 then B.CurSize
        else B.CurSize + (t.FixedAlignment - B.CurSize % t.FixedAlignment)) ∧
    B1.CurAlignment = max B.CurAlignment t.FixedAlignment ∧
    (B.CurSize % t.FixedAlignment ≠ 0 → t.ABITypeAlignment ≤ t.FixedAlignment) ∧
    ∃ padding, B1.StructFields = B.StructFields ++ padding := by
  unfold StructLayoutBuilder.pad at h
  by_cases h0 : t.FixedAlignment = 0
  · simp [h0] at h
  · by_cases hoff : B.CurSize % t.FixedAlignment = 0
    · simp only [h0, hoff, if_false, ne_eq, not_true_eq_false, Option.some.injEq] at h
      subst h
      exact ⟨Nat.pos_of_ne_zero h0, by simp [hoff], rfl, fun hc => absurd hoff hc,
        [], by simp⟩
    · by_cases hpz : t.FixedAlignment - B.CurSize % t.FixedAlignment = 0
      · simp [h0, hoff, hpz] at h
      · by_cases hir : t.ABITypeAlignment ≤ t.FixedAlignment
        · simp only [h0, hoff, hpz, hir, if_false, if_true, ne_eq, not_false_eq_true,
            Option.some.injEq] at h
          subst h
          refine ⟨Nat.pos_of_ne_zero h0, by simp [hoff], rfl, fun _ => hir, ?_⟩
          by_cases heq : t.ABITypeAlignment = t.FixedAlignment
          · exact ⟨[], by simp [heq]⟩
          · exact ⟨[LLVMType.Int8Array (t.FixedAlignment - B.CurSize % t.FixedAlignment)],
              by simp [heq]⟩
        · simp [h0, hoff, hpz, hir] at h

/-- The function `pad` returns for a positive alignment that the IR alignment does not
exceed. -/
theorem pad_returns (B : StructLayoutBuilder) (t : TypeInfo) (h0 : 0 < t.FixedAlignment)
    (hir : t.ABITypeAlignment ≤ t.FixedAlignment) : ∃ B1, B.pad t = some B1 := by
  unfold StructLayoutBuilder.pad
  have hne : t.FixedAlignment ≠ 0 := Nat.pos_iff_ne_zero.mp h0
  by_cases hoff : B.CurSize % t.FixedAlignment = 0
  · simp only [hne, hoff, if_false, ne_eq, not_true_eq_false]
    exact ⟨_, rfl⟩
  · have hlt := Nat.mod_lt B.CurSize h0
    have hpz : t.FixedAlignment - B.CurSize % t.FixedAlignment ≠ 0 := Nat.sub_ne_zero_of_lt hlt
    simp only [hne, hoff, hpz, hir, if_false, if_true, ne_eq, not_false_eq_true]
    exact ⟨_, rfl⟩

theorem pad_CurSize_ge (B : StructLayoutBuilder) (t : TypeInfo) (B1 : StructLayoutBuilder)
    (h : B.pad t = some B1) : B.CurSize ≤ B1.CurSize := by
  rw [(pad_spec B t B1 h).2.1]
  split
  · exact le_refl _
  · exact Nat.le_add_right _ _

theorem pad_length_ge (B : StructLayoutBuilder) (t : TypeInfo) (B1 : StructLayoutBuilder)
    (h : B.pad t = some B1) : B.StructFields.length ≤ B1.StructFields.length := by
  obtain ⟨padding, hp⟩ := (pad_spec B t B1 h).2.2.2.2
  rw [hp, List.length_append]
  exact Nat.le_add_right _ _

theorem pad_aligned (B : StructLayoutBuilder) (t : TypeInfo) (B1 : StructLayoutBuilder)
    (h : B.pad t = some B1) : B1.CurSize % t.FixedAlignment = 0 := by
  obtain ⟨h0, hs, -⟩ := pad_spec B t B1 h
  rw [hs]
  split
  · assumption
  · exact roundUp_aligned _ _ h0

theorem pad_padding_lt (B : StructLayoutBuilder) (t : TypeInfo) (B1 : StructLayoutBuilder)
    (h : B.pad t = some B1) : B1.CurSize - B.CurSize < t.FixedAlignment := by
  obtain ⟨h0, hs, -⟩ := pad_spec B t B1 h
  rw [hs]
  split
  · simpa using h0
  · rename_i hne
    exact roundUp_padding_lt _ _ h0 hne

theorem pad_least (B : StructLayoutBuilder) (t : TypeInfo) (B1 : StructLayoutBuilder)
    (h : B.pad t = some B1) (m : Nat) (hm : B.CurSize ≤ m)
    (hdvd : m % t.FixedAlignment = 0) : B1.CurSize ≤ m :=
  aligned_least B.CurSize t.FixedAlignment _ m (pad_aligned B t B1 h) (pad_CurSize_ge B t B1 h)
    (pad_padding_lt B t B1 h) hm hdvd

theorem pad_of_aligned (B : StructLayoutBuilder) (t : TypeInfo) (B1 : StructLayoutBuilder)
    (h : B.pad t = some B1) (hal : B.CurSize % t.FixedAlignment = 0) :
    B1.CurSize = B.CurSize := by
  rw [(pad_spec B t B1 h).2.1, if_pos hal]

theorem loop_nil (strategy : LayoutStrategy) (B : StructLayoutBuilder) (added : Bool) :
    StructLayoutBuilder.addFields_loop strategy B added [] = some ⟨B, [], added⟩ := rfl

theorem loop_cons_empty (strategy : LayoutStrategy) (B : StructLayoutBuilder) (added : Bool)
    (elt : ElementLayout) (elts : List ElementLayout) (h : elt.Ty.KnownEmpty = true) :
    StructLayoutBuilder.addFields_loop strategy B added (elt :: elts) =
      (StructLayoutBuilder.addFields_loop strategy B added elts).map
        (fun rest => ⟨rest.Builder, elt.completeEmpty elt.Ty.POD :: rest.Elts,
          rest.addedStorage⟩) := by
  simp [StructLayoutBuilder.addFields_loop, h]

theorem loop_cons_fixed (strategy : LayoutStrategy) (B : StructLayoutBuilder) (added : Bool)
    (elt : ElementLayout) (elts : List ElementLayout) (B1 : StructLayoutBuilder)
    (h : elt.Ty.KnownEmpty = false) (hfix : elt.Ty.IsFixed = true)
    (hpad : B.pad elt.Ty = some B1) :
    StructLayoutBuilder.addFields_loop strategy B added (elt :: elts) =
      (StructLayoutBuilder.addFields_loop strategy
          ⟨B1.CurSize + elt.Ty.FixedSize, B1.CurAlignment,
            B1.StructFields ++ [elt.Ty.StorageType]⟩ true elts).map
        (fun rest => ⟨rest.Builder,
          elt.completeFixed elt.Ty.POD B1.CurSize B1.StructFields.length :: rest.Elts,
          rest.addedStorage⟩) := by
  simp [StructLayoutBuilder.addFields_loop, h, hfix, hpad]

theorem loop_cons_some (strategy : LayoutStrategy) (B : StructLayoutBuilder) (added : Bool)
    (elt : ElementLayout) (elts : List ElementLayout) (r : AddFieldsResult)
    (h : StructLayoutBuilder.addFields_loop strategy B added (elt :: elts) = some r) :
    (elt.Ty.KnownEmpty = true ∧ ∃ rest,
      StructLayoutBuilder.addFields_loop strategy B added elts = some rest ∧
      r = ⟨rest.Builder, elt.completeEmpty elt.Ty.POD :: rest.Elts, rest.addedStorage⟩) ∨
    (elt.Ty.KnownEmpty = false ∧ elt.Ty.IsFixed = true ∧ ∃ B1 rest,
      B.pad elt.Ty = some B1 ∧
      StructLayoutBuilder.addFields_loop strategy
        ⟨B1.CurSize + elt.Ty.FixedSize, B1.CurAlignment,
          B1.StructFields ++ [elt.Ty.StorageType]⟩ true elts = some rest ∧
      r = ⟨rest.Builder,
        elt.completeFixed elt.Ty.POD B1.CurSize B1.StructFields.length :: rest.Elts,
        rest.addedStorage⟩) := by
  cases hk : elt.Ty.KnownEmpty
  · right
    cases hfix : elt.Ty.IsFixed
    · simp [StructLayoutBuilder.addFields_loop, hk, hfix] at h
    · cases hpad : B.pad elt.Ty with
      | none => simp [StructLayoutBuilder.addFields_loop, hk, hfix, hpad] at h
      | some B1 =>
        rw [loop_cons_fixed strategy B added elt elts B1 hk hfix hpad] at h
        obtain ⟨rest, hrest, hr⟩ := Option.map_eq_some'.mp h
        exact ⟨rfl, rfl, B1, rest, rfl, hrest, hr.symm⟩
  · left
    rw [loop_cons_empty strategy B added elt elts hk] at h
    obtain ⟨rest, hrest, hr⟩ := Option.map_eq_some'.mp h
    exact ⟨rfl, rest, hrest, hr.symm⟩

/-- The call returns when every element that is not known-empty has a fixed type whose
alignment is positive and not below the IR alignment of its storage type. -/
theorem loop_returns (strategy : LayoutStrategy) (elts : List ElementLayout)
    (B : StructLayoutBuilder) (added : Bool)
    (hok : ∀ e, e ∈ elts → e.Ty.KnownEmpty = false →
      e.Ty.IsFixed = true ∧ 0 < e.Ty.FixedAlignment ∧
        e.Ty.ABITypeAlignment ≤ e.Ty.FixedAlignment) :
    ∃ r, StructLayoutBuilder.addFields_loop strategy B added elts = some r := by
  induction elts generalizing B added with
  | nil => exact ⟨_, rfl⟩
  | cons x xs ih =>
    have hxs : ∀ e, e ∈ xs → e.Ty.KnownEmpty = false →
        e.Ty.IsFixed = true ∧ 0 < e.Ty.FixedAlignment ∧
          e.Ty.ABITypeAlignment ≤ e.Ty.FixedAlignment :=
      fun e he => hok e (List.mem_cons_of_mem _ he)
    cases hk : x.Ty.KnownEmpty
    · obtain ⟨hfix, h0, hir⟩ := hok x (List.mem_cons_self _ _) hk
      obtain ⟨B1, hpad⟩ := pad_returns B x.Ty h0 hir
      obtain ⟨rest, hrest⟩ := ih ⟨B1.CurSize + x.Ty.FixedSize, B1.CurAlignment,
        B1.StructFields ++ [x.Ty.StorageType]⟩ true hxs
      rw [loop_cons_fixed strategy B added x xs B1 hk hfix hpad, hrest]
      exact ⟨_, rfl⟩
    · obtain ⟨rest, hrest⟩ := ih B added hxs
      rw [loop_cons_empty strategy B added x xs hk, hrest]
      exact ⟨_, rfl⟩

theorem loop_append (strategy : LayoutStrategy) (xs ys : List ElementLayout)
    (B : StructLayoutBuilder) (added : Bool) :
    StructLayoutBuilder.addFields_loop strategy B added (xs ++ ys) =
      (StructLayoutBuilder.addFields_loop strategy B added xs).bind (fun r1 =>
        (StructLayoutBuilder.addFields_loop strategy r1.Builder r1.addedStorage ys).map
          (fun r2 => ⟨r2.Builder, r1.Elts ++ r2.Elts, r2.addedStorage⟩)) := by
  induction xs generalizing B added with
  | nil =>
    rw [loop_nil]
    simp only [List.nil_append, Option.some_bind]
    cases StructLayoutBuilder.addFields_loop strategy B added ys <;> rfl
  | cons x xs ih =>
    cases hk : x.Ty.KnownEmpty
    · cases hfix : x.Ty.IsFixed
      · simp [StructLayoutBuilder.addFields_loop, hk, hfix]
      · cases hpad : B.pad x.Ty with
        | none => simp [StructLayoutBuilder.addFields_loop, hk, hfix, hpad]
        | some B1 =>
          rw [List.cons_append, loop_cons_fixed strategy B added x _ B1 hk hfix hpad,
            loop_cons_fixed strategy B added x _ B1 hk hfix hpad, ih]
          cases StructLayoutBuilder.addFields_loop strategy
            ⟨B1.CurSize + x.Ty.FixedSize, B1.CurAlignment,
              B1.StructFields ++ [x.Ty.StorageType]⟩ true xs with
          | none => rfl
          | some r1 =>
            simp only [Option.some_bind, Option.map_some']
            cases StructLayoutBuilder.addFields_loop strategy r1.Builder r1.addedStorage ys <;>
              rfl
    · rw [List.cons_append, loop_cons_empty strategy B added x _ hk,
        loop_cons_empty strategy B added x _ hk, ih]
      cases StructLayoutBuilder.addFields_loop strategy B added xs with
      | none => rfl
      | some r1 =>
        simp only [Option.some_bind, Option.map_some']
        cases StructLayoutBuilder.addFields_loop strategy r1.Builder r1.addedStorage ys <;>
          rfl

theorem loop_append_some (strategy : LayoutStrategy) (xs ys : List ElementLayout)
    (B : StructLayoutBuilder) (added : Bool) (r : AddFieldsResult) :
    StructLayoutBuilder.addFields_loop strategy B added (xs ++ ys) = some r ↔
      ∃ r1 r2, StructLayoutBuilder.addFields_loop strategy B added xs = some r1 ∧
        StructLayoutBuilder.addFields_loop strategy r1.Builder r1.addedStorage ys = some r2 ∧
        r = ⟨r2.Builder, r1.Elts ++ r2.Elts, r2.addedStorage⟩ := by
  rw [loop_append]
  constructor
  · intro h
    obtain ⟨r1, h1, h2⟩ := Option.bind_eq_some.mp h
    obtain ⟨r2, h3, h4⟩ := Option.map_eq_some'.mp h2
    exact ⟨r1, r2, h1, h3, h4.symm⟩
  · rintro ⟨r1, r2, h1, h2, rfl⟩
    rw [h1, Option.some_bind, h2]
    rfl

theorem loop_length (strategy : LayoutStrategy) (elts : List ElementLayout)
    (B : StructLayoutBuilder) (added : Bool) (r : AddFieldsResult)
    (h : StructLayoutBuilder.addFields_loop strategy B added elts = some r) :
    r.Elts.length = elts.length := by
  induction elts generalizing B added r with
  | nil =>
    rw [loop_nil] at h
    cases h
    rfl
  | cons x xs ih =>
    rcases loop_cons_some strategy B added x xs r h with
      ⟨-, rest, hrest, rfl⟩ | ⟨-, -, B1, rest, -, hrest, rfl⟩
    · simp [ih _ _ rest hrest]
    · simp [ih _ _ rest hrest]

theorem loop_getElem?_fixed (strategy : LayoutStrategy) (B : StructLayoutBuilder)
    (added : Bool) (before : List ElementLayout) (elt : ElementLayout)
    (after : List ElementLayout) (r : AddFieldsResult)
    (h : StructLayoutBuilder.addFields_loop strategy B added (before ++ elt :: after) = some r)
    (hk : elt.Ty.KnownEmpty = false) :
    ∃ r1 B1, StructLayoutBuilder.addFields_loop strategy B added before = some r1 ∧
      r1.Builder.pad elt.Ty = some B1 ∧
      r.Elts[before.length]? =
        some (elt.completeFixed elt.Ty.POD B1.CurSize B1.StructFields.length) := by
  obtain ⟨r1, r2, h1, h2, rfl⟩ := (loop_append_some strategy before (elt :: after) B added r).mp h
  rcases loop_cons_some strategy _ _ elt after r2 h2 with
    ⟨hk2, -⟩ | ⟨-, -, B1, rest, hpad, -, rfl⟩
  · rw [hk] at hk2
    cases hk2
  · refine ⟨r1, B1, h1, hpad, ?_⟩
    have hl := loop_length strategy before B added r1 h1
    simp only
    rw [List.getElem?_append_right (by rw [hl]), hl, Nat.sub_self]
    simp

theorem loop_getElem?_empty (strategy : LayoutStrategy) (B : StructLayoutBuilder)
    (added : Bool) (before : List ElementLayout) (elt : ElementLayout)
    (after : List ElementLayout) (r : AddFieldsResult)
    (h : StructLayoutBuilder.addFields_loop strategy B added (before ++ elt :: after) = some r)
    (hk : elt.Ty.KnownEmpty = true) :
    r.Elts[before.length]? = some (elt.completeEmpty elt.Ty.POD) := by
  obtain ⟨r1, r2, h1, h2, rfl⟩ := (loop_append_some strategy before (elt :: after) B added r).mp h
  rcases loop_cons_some strategy _ _ elt after r2 h2 with
    ⟨-, rest, -, rfl⟩ | ⟨hk2, -⟩
  · have hl := loop_length strategy before B added r1 h1
    simp only
    rw [List.getElem?_append_right (by rw [hl]), hl, Nat.sub_self]
    simp
  · rw [hk] at hk2
    cases hk2

/-- C17: let every element that is not known-empty have a fixed type whose alignment is
positive, as every power of two is, and not below the IR alignment of its storage type, which
is what the division and the assertions of `addFields` need.  Then `addFields` returns, and
gives an element that is not known-empty, wherever it stands in the list, the kind `Fixed`
and a byte offset that is a multiple of the alignment of the element and is the least such
multiple not below the running size before the element, which is the size of the builder
after `addFields` on the elements before it: the padding is less than the alignment, and
there is none when the running size is already a multiple of it. -/
theorem addFields_offset_aligned (B : StructLayoutBuilder) (before : List ElementLayout)
    (elt : ElementLayout) (after : List ElementLayout) (strategy : LayoutStrategy)
    (hok : ∀ e, e ∈ before ++ elt :: after → e.Ty.KnownEmpty = false →
      e.Ty.IsFixed = true ∧ 0 < e.Ty.FixedAlignment ∧
        e.Ty.ABITypeAlignment ≤ e.Ty.FixedAlignment)
    (hfixed : elt.Ty.KnownEmpty = false) :
    ∃ result prior done,
      B.addFields (before ++ elt :: after) strategy = some result ∧
      B.addFields before strategy = some prior ∧
      result.Elts[before.length]? = some done ∧
      done.Kind = ElementLayoutKind.Fixed ∧
      done.Ty = elt.Ty ∧
      done.ByteOffset % elt.Ty.FixedAlignment = 0 ∧
      prior.Builder.CurSize ≤ done.ByteOffset ∧
      (∀ m, prior.Builder.CurSize ≤ m → m % elt.Ty.FixedAlignment = 0 →
        done.ByteOffset ≤ m) ∧
      done.ByteOffset - prior.Builder.CurSize < elt.Ty.FixedAlignment ∧
      (prior.Builder.CurSize % elt.Ty.FixedAlignment = 0 →
        done.ByteOffset = prior.Builder.CurSize) := by
  obtain ⟨result, hres⟩ := loop_returns strategy (before ++ elt :: after) B false hok
  obtain ⟨prior, B1, hprior, hpad, hget⟩ :=
    loop_getElem?_fixed strategy B false before elt after result hres hfixed
  exact ⟨result, prior, _, hres, hprior, hget, rfl, rfl, pad_aligned _ _ _ hpad,
    pad_CurSize_ge _ _ _ hpad, pad_least _ _ _ hpad, pad_padding_lt _ _ _ hpad,
    pad_of_aligned _ _ _ hpad⟩

/-- Witness of C17: after one byte, a word of size and alignment 4 is put at offset 4. -/
theorem addFields_offset_aligned_witness :
    (((StructLayoutBuilder.new ⟨8, 8⟩).addFields
      ([ElementLayout.getIncomplete ⟨LLVMType.Storage 0, false, true, true, 1, 1, 1⟩] ++
        ElementLayout.getIncomplete ⟨LLVMType.Storage 1, false, true, true, 4, 4, 4⟩ :: [])
      ()).map (fun r => r.Elts.map ElementLayout.ByteOffset)) = some [0, 4] ∧
    ∃ result prior done,
      (StructLayoutBuilder.new ⟨8, 8⟩).addFields
        ([ElementLayout.getIncomplete ⟨LLVMType.Storage 0, false, true, true, 1, 1, 1⟩] ++
          ElementLayout.getIncomplete ⟨LLVMType.Storage 1, false, true, true, 4, 4, 4⟩ :: [])
        () = some result ∧
      (StructLayoutBuilder.new ⟨8, 8⟩).addFields
        [ElementLayout.getIncomplete ⟨LLVMType.Storage 0, false, true, true, 1, 1, 1⟩] () =
          some prior ∧
      result.Elts[1]? = some done ∧
      done.ByteOffset % 4 = 0 ∧
      done.ByteOffset - prior.Builder.CurSize < 4 :=
  ⟨by decide, by
    obtain ⟨result, prior, done, h1, h2, h3, -, -, h4, -, -, h5, -⟩ :=
      addFields_offset_aligned (StructLayoutBuilder.new ⟨8, 8⟩)
        [ElementLayout.getIncomplete ⟨LLVMType.Storage 0, false, true, true, 1, 1, 1⟩]
        (ElementLayout.getIncomplete ⟨LLVMType.Storage 1, false, true, true, 4, 4, 4⟩) [] ()
        (by decide) rfl
    exact ⟨result, prior, done, h1, h2, h3, h4, h5⟩⟩

/-- The calls that have no result: an element whose alignment is below the IR alignment of
its storage type and needs padding fails the assertion of line 182, an alignment of 0 is
divided by in line 173, and a type that is not fixed fails the `cast` of line 160. -/
theorem addFields_no_result :
    (StructLayoutBuilder.new ⟨8, 8⟩).addFields
      [ElementLayout.getIncomplete ⟨LLVMType.Storage 0, false, true, true, 1, 1, 1⟩,
        ElementLayout.getIncomplete ⟨LLVMType.Storage 1, false, true, true, 4, 4, 8⟩] () =
      none ∧
    (StructLayoutBuilder.new ⟨8, 8⟩).addFields
      [ElementLayout.getIncomplete ⟨LLVMType.Storage 0, false, true, true, 1, 0, 0⟩] () =
      none ∧
    (StructLayoutBuilder.new ⟨8, 8⟩).addFields
      [ElementLayout.getIncomplete ⟨LLVMType.Storage 0, false, true, false, 1, 1, 1⟩] () =
      none := by
  decide

theorem loop_bounds (strategy : LayoutStrategy) (elts : List ElementLayout)
    (B : StructLayoutBuilder) (added : Bool) (r : AddFieldsResult)
    (h : StructLayoutBuilder.addFields_loop strategy B added elts = some r) :
    B.CurSize ≤ r.Builder.CurSize ∧
    B.StructFields.length ≤ r.Builder.StructFields.length ∧
    ∀ e, e ∈ r.Elts → e.Kind = ElementLayoutKind.Fixed →
      B.CurSize ≤ e.ByteOffset ∧ B.StructFields.length ≤ e.StructIndex := by
  induction elts generalizing B added r with
  | nil =>
    rw [loop_nil] at h
    cases h
    exact ⟨le_refl _, le_refl _, fun e he => by simp at he⟩
  | cons x xs ih =>
    rcases loop_cons_some strategy B added x xs r h with
      ⟨-, rest, hrest, rfl⟩ | ⟨-, -, B1, rest, hpad, hrest, rfl⟩
    · obtain ⟨h1, h2, h3⟩ := ih B added rest hrest
      refine ⟨h1, h2, ?_⟩
      intro e he hk
      simp only [List.mem_cons] at he
      rcases he with rfl | he
      · cases hk
      · exact h3 e he hk
    · obtain ⟨h1, h2, h3⟩ := ih _ _ rest hrest
      have hp := pad_CurSize_ge B x.Ty B1 hpad
      have hl := pad_length_ge B x.Ty B1 hpad
      simp only [List.length_append, List.length_singleton] at h2 h3
      refine ⟨le_trans hp (le_trans (Nat.le_add_right _ _) h1),
        le_trans hl (le_trans (Nat.le_succ _) h2), ?_⟩
      intro e he hk
      simp only [List.mem_cons] at he
      rcases he with rfl | he
      · exact ⟨hp, hl⟩
      · obtain ⟨h4, h5⟩ := h3 e he hk
        exact ⟨le_trans hp (le_trans (Nat.le_add_right _ _) h4),
          le_trans hl (le_trans (Nat.le_succ _) h5)⟩

theorem loop_pairwise (strategy : LayoutStrategy) (elts : List ElementLayout)
    (B : StructLayoutBuilder) (added : Bool) (r : AddFieldsResult)
    (h : StructLayoutBuilder.addFields_loop strategy B added elts = some r) :
    r.Elts.Pairwise
      (fun ei ej => ei.Kind = ElementLayoutKind.Fixed → ej.Kind = ElementLayoutKind.Fixed →
        ei.ByteOffset + ei.Ty.FixedSize ≤ ej.ByteOffset ∧ ei.StructIndex < ej.StructIndex) := by
  induction elts generalizing B added r with
  | nil =>
    rw [loop_nil] at h
    cases h
    exact List.Pairwise.nil
  | cons x xs ih =>
    rcases loop_cons_some strategy B added x xs r h with
      ⟨-, rest, hrest, rfl⟩ | ⟨-, -, B1, rest, hpad, hrest, rfl⟩
    · refine List.pairwise_cons.mpr ⟨?_, ih _ _ rest hrest⟩
      intro e _ hk
      cases hk
    · refine List.pairwise_cons.mpr ⟨?_, ih _ _ rest hrest⟩
      intro e he _ hk
      obtain ⟨-, -, h3⟩ := loop_bounds strategy xs _ true rest hrest
      obtain ⟨h4, h5⟩ := h3 e he hk
      simp only [List.length_append, List.length_singleton] at h5
      exact ⟨h4, h5⟩

theorem loop_kind (strategy : LayoutStrategy) (elts : List ElementLayout)
    (B : StructLayoutBuilder) (added : Bool) (r : AddFieldsResult)
    (h : StructLayoutBuilder.addFields_loop strategy B added elts = some r) :
    List.Forall₂ (fun elt done => done.Ty = elt.Ty ∧ done.IsPOD = elt.Ty.POD ∧
        done.Kind = (if elt.Ty.KnownEmpty then ElementLayoutKind.Empty
          else ElementLayoutKind.Fixed))
      elts r.Elts := by
  induction elts generalizing B added r with
  | nil =>
    rw [loop_nil] at h
    cases h
    exact List.Forall₂.nil
  | cons x xs ih =>
    rcases loop_cons_some strategy B added x xs r h with
      ⟨hk, rest, hrest, rfl⟩ | ⟨hk, -, B1, rest, hpad, hrest, rfl⟩
    · exact List.Forall₂.cons ⟨rfl, rfl, by simp [ElementLayout.completeEmpty, hk]⟩
        (ih _ _ rest hrest)
    · exact List.Forall₂.cons ⟨rfl, rfl, by simp [ElementLayout.completeFixed, hk]⟩
        (ih _ _ rest hrest)

theorem loop_no_fixed (strategy : LayoutStrategy) (elts : List ElementLayout)
    (B : StructLayoutBuilder) (added : Bool) (r : AddFieldsResult)
    (h : StructLayoutBuilder.addFields_loop strategy B added elts = some r)
    (hno : ∀ e, e ∈ r.Elts → e.Kind ≠ ElementLayoutKind.Fixed) :
    r.Builder = B ∧ r.addedStorage = added := by
  induction elts generalizing B added r with
  | nil =>
    rw [loop_nil] at h
    cases h
    exact ⟨rfl, rfl⟩
  | cons x xs ih =>
    rcases loop_cons_some strategy B added x xs r h with
      ⟨-, rest, hrest, rfl⟩ | ⟨-, -, B1, rest, hpad, hrest, rfl⟩
    · exact ih B added rest hrest (fun e he => hno e (List.mem_cons_of_mem _ he))
    · exact absurd rfl (hno _ (List.mem_cons_self _ _))

theorem loop_last (strategy : LayoutStrategy) (elts : List ElementLayout)
    (B : StructLayoutBuilder) (added : Bool) (r : AddFieldsResult)
    (h : StructLayoutBuilder.addFields_loop strategy B added elts = some r)
    (pre : List ElementLayout) (e : ElementLayout) (post : List ElementLayout)
    (hsplit : r.Elts = pre ++ e :: post)
    (hk : e.Kind = ElementLayoutKind.Fixed)
    (hpost : ∀ x, x ∈ post → x.Kind ≠ ElementLayoutKind.Fixed) :
    r.Builder.CurSize = e.ByteOffset + e.Ty.FixedSize := by
  induction elts generalizing B added r pre with
  | nil =>
    rw [loop_nil] at h
    cases h
    simp at hsplit
  | cons x xs ih =>
    rcases loop_cons_some strategy B added x xs r h with
      ⟨-, rest, hrest, rfl⟩ | ⟨-, -, B1, rest, hpad, hrest, rfl⟩
    · cases pre with
      | nil =>
        simp only [List.nil_append, List.cons.injEq] at hsplit
        rw [← hsplit.1] at hk
        cases hk
      | cons p pre =>
        simp only [List.cons_append, List.cons.injEq] at hsplit
        exact ih _ _ rest hrest pre hsplit.2
    · cases pre with
      | nil =>
        simp only [List.nil_append, List.cons.injEq] at hsplit
        obtain ⟨he, hrestElts⟩ := hsplit
        obtain ⟨hb, -⟩ := loop_no_fixed strategy xs _ true rest hrest
          (fun y hy => hpost y (hrestElts ▸ hy))
        simp only
        rw [hb, ← he]
        rfl
      | cons p pre =>
        simp only [List.cons_append, List.cons.injEq] at hsplit
        exact ih _ _ rest hrest pre hsplit.2

theorem addHeapHeader_new (IGM : IRGenModule) :
    (StructLayoutBuilder.new IGM).addHeapHeader IGM =
      some ⟨getHeapHeaderSize IGM, IGM.PointerAlignment, [LLVMType.RefCountedStructTy]⟩ := rfl

/-- C18: let every element that is not known-empty have a fixed type whose alignment is
positive and not below the IR alignment of its storage type.  Then `addFields` returns, and
in the elements it has laid out an element of kind `Fixed`, which is what an element that is
not known-empty becomes, that stands before another one ends at or before the offset where
the other begins, and has the smaller struct index; every such element begins at or after
the size the builder had before the call, which after `addHeapHeader` is the size of the heap
header; and the size the builder has in the end is the offset of the last such element plus
its size. -/
theorem addFields_sequential (B : StructLayoutBuilder) (elts : List ElementLayout)
    (strategy : LayoutStrategy)
    (hok : ∀ e, e ∈ elts → e.Ty.KnownEmpty = false →
      e.Ty.IsFixed = true ∧ 0 < e.Ty.FixedAlignment ∧
        e.Ty.ABITypeAlignment ≤ e.Ty.FixedAlignment) :
    ∃ result,
      B.addFields elts strategy = some result ∧
      (∀ (i j : Nat) (ei ej : ElementLayout), i < j →
        result.Elts[i]? = some ei → result.Elts[j]? = some ej →
        ei.Kind = ElementLayoutKind.Fixed → ej.Kind = ElementLayoutKind.Fixed →
        ei.ByteOffset + ei.Ty.FixedSize ≤ ej.ByteOffset ∧ ei.StructIndex < ej.StructIndex) ∧
      (∀ e, e ∈ result.Elts → e.Kind = ElementLayoutKind.Fixed → B.CurSize ≤ e.ByteOffset) ∧
      (∀ pre e post, result.Elts = pre ++ e :: post →
        e.Kind = ElementLayoutKind.Fixed →
        (∀ x, x ∈ post → x.Kind ≠ ElementLayoutKind.Fixed) →
        result.Builder.CurSize = e.ByteOffset + e.Ty.FixedSize) ∧
      List.Forall₂ (fun elt done => done.Ty = elt.Ty ∧ done.IsPOD = elt.Ty.POD ∧
          done.Kind = (if elt.Ty.KnownEmpty then ElementLayoutKind.Empty
            else ElementLayoutKind.Fixed))
        elts result.Elts ∧
      (∀ IGM, ∃ header underHeader,
        (StructLayoutBuilder.new IGM).addHeapHeader IGM = some header ∧
        header.CurSize = getHeapHeaderSize IGM ∧
        header.addFields elts strategy = some underHeader ∧
        ∀ e, e ∈ underHeader.Elts → e.Kind = ElementLayoutKind.Fixed →
          getHeapHeaderSize IGM ≤ e.ByteOffset) := by
  obtain ⟨result, hres⟩ := loop_returns strategy elts B false hok
  refine ⟨result, hres, ?_, ?_, ?_, loop_kind strategy elts B false result hres, ?_⟩
  · intro i j ei ej hij hi hj
    have hp := loop_pairwise strategy elts B false result hres
    rw [List.pairwise_iff_getElem] at hp
    obtain ⟨hil, hie⟩ := List.getElem?_eq_some.mp hi
    obtain ⟨hjl, hje⟩ := List.getElem?_eq_some.mp hj
    have := hp i j hil hjl hij
    rw [← hie, ← hje]
    exact this
  · intro e he hk
    exact ((loop_bounds strategy elts B false result hres).2.2 e he hk).1
  · intro pre e post hsplit hk hpost
    exact loop_last strategy elts B false result hres pre e post hsplit hk hpost
  · intro IGM
    obtain ⟨under, hunder⟩ := loop_returns strategy elts
      ⟨getHeapHeaderSize IGM, IGM.PointerAlignment, [LLVMType.RefCountedStructTy]⟩ false hok
    refine ⟨_, under, addHeapHeader_new IGM, rfl, hunder, ?_⟩
    intro e he hk
    exact ((loop_bounds strategy elts _ false under hunder).2.2 e he hk).1

/-- Witness of C18: a byte, an empty element and a word after the heap header of two
pointers of 8 bytes. -/
theorem addFields_sequential_witness :
    ∃ result,
      (⟨16, 8, [LLVMType.RefCountedStructTy]⟩ : StructLayoutBuilder).addFields
        [ElementLayout.getIncomplete ⟨LLVMType.Storage 0, false, true, true, 1, 1, 1⟩,
          ElementLayout.getIncomplete ⟨LLVMType.Storage 1, true, true, true, 0, 1, 1⟩,
          ElementLayout.getIncomplete ⟨LLVMType.Storage 2, false, true, true, 4, 4, 4⟩] () =
        some result ∧
      result.Elts =
        [⟨ElementLayoutKind.Fixed, true, 16, 1,
            ⟨LLVMType.Storage 0, false, true, true, 1, 1, 1⟩⟩,
          ⟨ElementLayoutKind.Empty, true, 0, 0,
            ⟨LLVMType.Storage 1, true, true, true, 0, 1, 1⟩⟩,
          ⟨ElementLayoutKind.Fixed, true, 20, 2,
            ⟨LLVMType.Storage 2, false, true, true, 4, 4, 4⟩⟩] ∧
      (16 + 1 ≤ 20 ∧ 1 < 2) ∧
      result.Builder.CurSize = 20 + 4 := by
  obtain ⟨result, hres, hpair, -, hlast, -⟩ := addFields_sequential
    (⟨16, 8, [LLVMType.RefCountedStructTy]⟩ : StructLayoutBuilder)
    [ElementLayout.getIncomplete ⟨LLVMType.Storage 0, false, true, true, 1, 1, 1⟩,
      ElementLayout.getIncomplete ⟨LLVMType.Storage 1, true, true, true, 0, 1, 1⟩,
      ElementLayout.getIncomplete ⟨LLVMType.Storage 2, false, true, true, 4, 4, 4⟩] ()
    (by decide)
  have hval : (⟨16, 8, [LLVMType.RefCountedStructTy]⟩ : StructLayoutBuilder).addFields
      [ElementLayout.getIncomplete ⟨LLVMType.Storage 0, false, true, true, 1, 1, 1⟩,
        ElementLayout.getIncomplete ⟨LLVMType.Storage 1, true, true, true, 0, 1, 1⟩,
        ElementLayout.getIncomplete ⟨LLVMType.Storage 2, false, true, true, 4, 4, 4⟩] () =
      some ⟨⟨24, 8, [LLVMType.RefCountedStructTy, LLVMType.Storage 0, LLVMType.Storage 2]⟩,
        [⟨ElementLayoutKind.Fixed, true, 16, 1,
            ⟨LLVMType.Storage 0, false, true, true, 1, 1, 1⟩⟩,
          ⟨ElementLayoutKind.Empty, true, 0, 0,
            ⟨LLVMType.Storage 1, true, true, true, 0, 1, 1⟩⟩,
          ⟨ElementLayoutKind.Fixed, true, 20, 2,
            ⟨LLVMType.Storage 2, false, true, true, 4, 4, 4⟩⟩], true⟩ := by decide
  have helts : result.Elts =
      [⟨ElementLayoutKind.Fixed, true, 16, 1,
          ⟨LLVMType.Storage 0, false, true, true, 1, 1, 1⟩⟩,
        ⟨ElementLayoutKind.Empty, true, 0, 0,
          ⟨LLVMType.Storage 1, true, true, true, 0, 1, 1⟩⟩,
        ⟨ElementLayoutKind.Fixed, true, 20, 2,
          ⟨LLVMType.Storage 2, false, true, true, 4, 4, 4⟩⟩] := by
    rw [hres] at hval
    cases hval
    rfl
  refine ⟨result, hres, helts, ?_, ?_⟩
  · exact hpair 0 2 _ _ (by decide) (by rw [helts]; rfl) (by rw [helts]; rfl) rfl rfl
  · exact hlast
      [⟨ElementLayoutKind.Fixed, true, 16, 1,
          ⟨LLVMType.Storage 0, false, true, true, 1, 1, 1⟩⟩,
        ⟨ElementLayoutKind.Empty, true, 0, 0,
          ⟨LLVMType.Storage 1, true, true, true, 0, 1, 1⟩⟩]
      ⟨ElementLayoutKind.Fixed, true, 20, 2,
        ⟨LLVMType.Storage 2, false, true, true, 4, 4, 4⟩⟩ [] helts rfl
      (fun x hx => by cases hx)

theorem loop_alignment (strategy : LayoutStrategy) (elts : List ElementLayout)
    (B : StructLayoutBuilder) (added : Bool) (r : AddFieldsResult)
    (h : StructLayoutBuilder.addFields_loop strategy B added elts = some r) :
    r.Builder.CurAlignment =
      ((elts.filter (fun e => !e.Ty.KnownEmpty)).map (fun e => e.Ty.FixedAlignment)).foldl
        max B.CurAlignment := by
  induction elts generalizing B added r with
  | nil =>
    rw [loop_nil] at h
    cases h
    rfl
  | cons x xs ih =>
    rcases loop_cons_some strategy B added x xs r h with
      ⟨hk, rest, hrest, rfl⟩ | ⟨hk, -, B1, rest, hpad, hrest, rfl⟩
    · simp only [List.filter_cons, hk, Bool.not_true, Bool.false_eq_true, if_false]
      exact ih B added rest hrest
    · simp only [List.filter_cons, hk, Bool.not_false, if_true, List.map_cons, List.foldl_cons]
      rw [ih _ _ rest hrest, (pad_spec B x.Ty B1 hpad).2.2.1]

theorem foldl_max_ge (xs : List Nat) (a : Nat) :
    a ≤ xs.foldl max a ∧ (∀ x, x ∈ xs → x ≤ xs.foldl max a) ∧
      (xs.foldl max a = a ∨ xs.foldl max a ∈ xs) := by
  induction xs generalizing a with
  | nil => exact ⟨le_refl _, fun x hx => (by cases hx), Or.inl rfl⟩
  | cons y ys ih =>
    obtain ⟨h1, h2, h3⟩ := ih (max a y)
    simp only [List.foldl_cons, List.mem_cons]
    refine ⟨le_trans (le_max_left a y) h1, ?_, ?_⟩
    · rintro x (rfl | hx)
      · exact le_trans (le_max_right a x) h1
      · exact h2 x hx
    · rcases h3 with h3 | h3
      · rcases max_choice a y with hm | hm
        · exact Or.inl (h3.trans hm)
        · exact Or.inr (Or.inl (h3.trans hm))
      · exact Or.inr (Or.inr h3)

theorem loop_filter (strategy : LayoutStrategy) (elts : List ElementLayout)
    (B : StructLayoutBuilder) (added : Bool) (r : AddFieldsResult)
    (h : StructLayoutBuilder.addFields_loop strategy B added elts = some r) :
    ∃ r2, StructLayoutBuilder.addFields_loop strategy B added
        (elts.filter (fun e => !e.Ty.KnownEmpty)) = some r2 ∧
      r2.Builder = r.Builder ∧ r2.addedStorage = r.addedStorage := by
  induction elts generalizing B added r with
  | nil =>
    rw [loop_nil] at h
    cases h
    exact ⟨_, rfl, rfl, rfl⟩
  | cons x xs ih =>
    rcases loop_cons_some strategy B added x xs r h with
      ⟨hk, rest, hrest, rfl⟩ | ⟨hk, hfix, B1, rest, hpad, hrest, rfl⟩
    · simp only [List.filter_cons, hk, Bool.not_true, Bool.false_eq_true, if_false]
      exact ih B added rest hrest
    · simp only [List.filter_cons, hk, Bool.not_false, if_true]
      obtain ⟨r2, h2, hb, ha⟩ := ih _ _ rest hrest
      rw [loop_cons_fixed strategy B added x _ B1 hk hfix hpad, h2]
      exact ⟨_, rfl, hb, ha⟩

theorem loop_addedStorage (strategy : LayoutStrategy) (elts : List ElementLayout)
    (B : StructLayoutBuilder) (added : Bool) (r : AddFieldsResult)
    (h : StructLayoutBuilder.addFields_loop strategy B added elts = some r) :
    r.addedStorage = true ↔ added = true ∨ ∃ e, e ∈ elts ∧ e.Ty.KnownEmpty = false := by
  induction elts generalizing B added r with
  | nil =>
    rw [loop_nil] at h
    cases h
    simp
  | cons x xs ih =>
    rcases loop_cons_some strategy B added x xs r h with
      ⟨hk, rest, hrest, rfl⟩ | ⟨hk, -, B1, rest, hpad, hrest, rfl⟩
    · simp only [ih B added rest hrest, List.mem_cons]
      constructor
      · rintro (h | ⟨e, he, hke⟩)
        · exact Or.inl h
        · exact Or.inr ⟨e, Or.inr he, hke⟩
      · rintro (h | ⟨e, rfl | he, hke⟩)
        · exact Or.inl h
        · rw [hk] at hke; cases hke
        · exact Or.inr ⟨e, he, hke⟩
    · simp only [ih _ _ rest hrest, true_or, true_iff]
      exact Or.inr ⟨x, List.mem_cons_self _ _, hk⟩

theorem loop_skip_empty (strategy : LayoutStrategy) (before : List ElementLayout)
    (elt : ElementLayout) (after : List ElementLayout) (B : StructLayoutBuilder) (added : Bool)
    (r : AddFieldsResult)
    (h : StructLayoutBuilder.addFields_loop strategy B added (before ++ elt :: after) = some r)
    (hk : elt.Ty.KnownEmpty = true) :
    ∃ r2, StructLayoutBuilder.addFields_loop strategy B added (before ++ after) = some r2 ∧
      r2.Builder = r.Builder ∧ r2.addedStorage = r.addedStorage := by
  obtain ⟨r1, r3, h1, h3, rfl⟩ := (loop_append_some strategy before (elt :: after) B added r).mp h
  rcases loop_cons_some strategy _ _ elt after r3 h3 with
    ⟨-, rest, hrest, rfl⟩ | ⟨hk2, -⟩
  · exact ⟨_, (loop_append_some strategy before after B added _).mpr ⟨r1, rest, h1, hrest, rfl⟩,
      rfl, rfl⟩
  · rw [hk] at hk2
    cases hk2

/-- C19: let every element that is not known-empty have a fixed type whose alignment is
positive and not below the IR alignment of its storage type.  Then `addFields` returns, and
the alignment of the builder is the maximum of the alignment it had before the call, which is
1 for a new builder and the pointer alignment after `addHeapHeader`, and of the alignments
of the elements that are not known-empty.  A known-empty element is completed as `Empty` and
changes nothing else: the builder (size, alignment, fields) and the returned value are those
of the call without it.  The returned value is true exactly when some element is not
known-empty. -/
theorem addFields_alignment (B : StructLayoutBuilder) (elts : List ElementLayout)
    (strategy : LayoutStrategy)
    (hok : ∀ e, e ∈ elts → e.Ty.KnownEmpty = false →
      e.Ty.IsFixed = true ∧ 0 < e.Ty.FixedAlignment ∧
        e.Ty.ABITypeAlignment ≤ e.Ty.FixedAlignment) :
    ∃ result,
      B.addFields elts strategy = some result ∧
      result.Builder.CurAlignment =
        ((elts.filter (fun e => !e.Ty.KnownEmpty)).map (fun e => e.Ty.FixedAlignment)).foldl
          max B.CurAlignment ∧
      B.CurAlignment ≤ result.Builder.CurAlignment ∧
      (∀ e, e ∈ elts → e.Ty.KnownEmpty = false →
        e.Ty.FixedAlignment ≤ result.Builder.CurAlignment) ∧
      (result.Builder.CurAlignment = B.CurAlignment ∨
        ∃ e, e ∈ elts ∧ e.Ty.KnownEmpty = false ∧
          result.Builder.CurAlignment = e.Ty.FixedAlignment) ∧
      (∀ IGM, (StructLayoutBuilder.new IGM).CurAlignment = 1 ∧
        ∃ header, (StructLayoutBuilder.new IGM).addHeapHeader IGM = some header ∧
          header.CurAlignment = IGM.PointerAlignment) ∧
      (∀ before elt after, elts = before ++ elt :: after → elt.Ty.KnownEmpty = true →
        result.Elts[before.length]? = some (elt.completeEmpty elt.Ty.POD) ∧
        ∃ without, B.addFields (before ++ after) strategy = some without ∧
          without.Builder = result.Builder ∧
          without.addedStorage = result.addedStorage) ∧
      (∃ stored, B.addFields (elts.filter (fun e => !e.Ty.KnownEmpty)) strategy = some stored ∧
        stored.Builder = result.Builder) ∧
      (result.addedStorage = true ↔ ∃ e, e ∈ elts ∧ e.Ty.KnownEmpty = false) := by
  obtain ⟨result, hres⟩ := loop_returns strategy elts B false hok
  have hal := loop_alignment strategy elts B false result hres
  obtain ⟨h1, h2, h3⟩ := foldl_max_ge
    ((elts.filter (fun e => !e.Ty.KnownEmpty)).map (fun e => e.Ty.FixedAlignment))
    B.CurAlignment
  refine ⟨result, hres, hal, ?_, ?_, ?_, fun IGM => ⟨rfl, _, addHeapHeader_new IGM, rfl⟩,
    ?_, ?_, ?_⟩
  · rw [hal]
    exact h1
  · intro e he hk
    rw [hal]
    exact h2 _ (List.mem_map.mpr ⟨e, List.mem_filter.mpr ⟨he, by simp [hk]⟩, rfl⟩)
  · rw [hal]
    rcases h3 with h3 | h3
    · exact Or.inl h3
    · obtain ⟨e, he, hea⟩ := List.mem_map.mp h3
      obtain ⟨he1, he2⟩ := List.mem_filter.mp he
      exact Or.inr ⟨e, he1, by simpa using he2, hea.symm⟩
  · rintro before elt after rfl hk
    exact ⟨loop_getElem?_empty strategy B false before elt after result hres hk,
      loop_skip_empty strategy before elt after B false result hres hk⟩
  · obtain ⟨r2, h4, h5, -⟩ := loop_filter strategy elts B false result hres
    exact ⟨r2, h4, h5⟩
  · rw [loop_addedStorage strategy elts B false result hres]
    simp

/-- Witness of C19: after the heap header with pointer alignment 8, a byte, a known-empty
element whose type has alignment 16 and a word of alignment 4 leave the alignment 8. -/
theorem addFields_alignment_witness :
    ∃ result,
      (⟨16, 8, [LLVMType.RefCountedStructTy]⟩ : StructLayoutBuilder).addFields
        [ElementLayout.getIncomplete ⟨LLVMType.Storage 0, false, true, true, 1, 1, 1⟩,
          ElementLayout.getIncomplete ⟨LLVMType.Storage 1, true, true, true, 0, 16, 16⟩,
          ElementLayout.getIncomplete ⟨LLVMType.Storage 2, false, true, true, 4, 4, 4⟩] () =
        some result ∧
      result.Builder.CurAlignment = 8 ∧
      result.addedStorage = true := by
  obtain ⟨result, hres, hal, -, -, -, -, -, -, hadd⟩ := addFields_alignment
    (⟨16, 8, [LLVMType.RefCountedStructTy]⟩ : StructLayoutBuilder)
    [ElementLayout.getIncomplete ⟨LLVMType.Storage 0, false, true, true, 1, 1, 1⟩,
      ElementLayout.getIncomplete ⟨LLVMType.Storage 1, true, true, true, 0, 16, 16⟩,
      ElementLayout.getIncomplete ⟨LLVMType.Storage 2, false, true, true, 4, 4, 4⟩] ()
    (by decide)
  exact ⟨result, hres, hal.trans (by decide),
    hadd.mpr ⟨ElementLayout.getIncomplete ⟨LLVMType.Storage 0, false, true, true, 1, 1, 1⟩,
      List.mem_cons_self _ _, rfl⟩⟩

theorem builder_eq (IGM : IRGenModule) (layoutKind : LayoutKind) :
    StructLayout.builder IGM layoutKind =
      some (if requiresHeapHeader layoutKind then
          ⟨getHeapHeaderSize IGM, IGM.PointerAlignment, [LLVMType.RefCountedStructTy]⟩
        else ⟨0, 1, []⟩) := by
  cases layoutKind <;> rfl

theorem laidOut_eq (IGM : IRGenModule) (layoutKind : LayoutKind) (strategy : LayoutStrategy)
    (types : List TypeInfo) :
    StructLayout.laidOut IGM layoutKind strategy types =
      StructLayoutBuilder.addFields_loop strategy
        (if requiresHeapHeader layoutKind then
          ⟨getHeapHeaderSize IGM, IGM.PointerAlignment, [LLVMType.RefCountedStructTy]⟩
        else ⟨0, 1, []⟩) false (types.map ElementLayout.getIncomplete) := by
  unfold StructLayout.laidOut
  rw [builder_eq]
  rfl

theorem checkTy_named (layout : StructLayout) (type filled : LLVMStructType)
    (hTy : layout.Ty = StructTy.Named filled) (hId : filled.Id = type.Id) :
    StructLayout.checkTy layout (some type) = some layout := by
  simp [StructLayout.checkTy, hTy, StructTy.isType, hId]

theorem construct_of_no_storage (IGM : IRGenModule) (layoutKind : LayoutKind)
    (strategy : LayoutStrategy) (types : List TypeInfo) (typeToFill : Option LLVMStructType)
    (result : AddFieldsResult)
    (hfill : ∀ type, typeToFill = some type → type.isOpaque = true)
    (hres : StructLayout.laidOut IGM layoutKind strategy types = some result)
    (hno : result.addedStorage = false)
    (hempty : (!result.Builder.empty) = requiresHeapHeader layoutKind) :
    ∃ layout, StructLayout.construct IGM layoutKind strategy types typeToFill = some layout ∧
      layout.MinimumAlign = 1 ∧ layout.MinimumSize = 0 ∧ layout.Elements = result.Elts := by
  cases typeToFill with
  | none =>
    refine ⟨⟨1, 0, result.Elts, StructTy.OpaquePtrElementTy⟩, ?_, rfl, rfl, rfl⟩
    simp [StructLayout.construct, hres, hno, hempty, StructLayout.checkTy]
  | some type =>
    have hop := hfill type rfl
    refine ⟨⟨1, 0, result.Elts, StructTy.Named type⟩, ?_, rfl, rfl, rfl⟩
    simp [StructLayout.construct, hres, hno, hempty, hop, StructLayout.checkTy,
      StructTy.isType]

theorem construct_of_storage (IGM : IRGenModule) (layoutKind : LayoutKind)
    (strategy : LayoutStrategy) (types : List TypeInfo) (typeToFill : Option LLVMStructType)
    (result : AddFieldsResult)
    (hfill : ∀ type, typeToFill = some type → type.isOpaque = true)
    (hres : StructLayout.laidOut IGM layoutKind strategy types = some result)
    (hyes : result.addedStorage = true) :
    ∃ layout, StructLayout.construct IGM layoutKind strategy types typeToFill = some layout ∧
      layout.MinimumAlign = result.Builder.CurAlignment ∧
      layout.MinimumSize = result.Builder.CurSize ∧ layout.Elements = result.Elts := by
  cases typeToFill with
  | none =>
    refine ⟨⟨result.Builder.CurAlignment, result.Builder.CurSize, result.Elts,
      result.Builder.getAsAnonStruct⟩, ?_, rfl, rfl, rfl⟩
    simp [StructLayout.construct, hres, hyes, StructLayout.checkTy]
  | some type =>
    have hop := hfill type rfl
    refine ⟨⟨result.Builder.CurAlignment, result.Builder.CurSize, result.Elts,
      StructTy.Named { type with Body := some result.Builder.StructFields }⟩, ?_, rfl, rfl, rfl⟩
    simp [StructLayout.construct, hres, hyes, hop, StructLayout.checkTy,
      StructTy.isType, StructLayoutBuilder.setAsBodyOfStruct]

/-- C20: let the `typeToFill`, when there is one, have no body yet, and let every element type
that is not known-empty be fixed with an alignment that is positive and not below the IR
alignment of its storage type, which is what the assertions on the way need.  Then the
constructor of `StructLayout` returns.  When every element type is known-empty, also when
there is none, it sets `MinimumSize` to 0 and `MinimumAlign` to 1 for both layout kinds,
although for `HeapObject` the builder holds the heap header, of two pointer sizes.  When some
element type is not known-empty, `MinimumSize` and `MinimumAlign` are the size and the
alignment the builder has after `addFields`, and for `HeapObject` `MinimumSize` is at least
the size of the heap header. -/
theorem structLayout_minimum (IGM : IRGenModule) (layoutKind : LayoutKind)
    (strategy : LayoutStrategy) (types : List TypeInfo) (typeToFill : Option LLVMStructType)
    (hfill : ∀ type, typeToFill = some type → type.isOpaque = true)
    (hok : ∀ t, t ∈ types → t.KnownEmpty = false →
      t.IsFixed = true ∧ 0 < t.FixedAlignment ∧ t.ABITypeAlignment ≤ t.FixedAlignment) :
    ∃ layout result,
      StructLayout.construct IGM layoutKind strategy types typeToFill = some layout ∧
      StructLayout.laidOut IGM layoutKind strategy types = some result ∧
      layout.Elements = result.Elts ∧
      ((∀ t, t ∈ types → t.KnownEmpty = true) →
        layout.MinimumSize = 0 ∧ layout.MinimumAlign = 1 ∧
        (layoutKind = LayoutKind.HeapObject →
          result.Builder =
            ⟨IGM.PointerSize * 2, IGM.PointerAlignment, [LLVMType.RefCountedStructTy]⟩) ∧
        (layoutKind = LayoutKind.NonHeapObject → result.Builder = ⟨0, 1, []⟩)) ∧
      ((∃ t, t ∈ types ∧ t.KnownEmpty = false) →
        layout.MinimumSize = result.Builder.CurSize ∧
        layout.MinimumAlign = result.Builder.CurAlignment ∧
        (layoutKind = LayoutKind.HeapObject → getHeapHeaderSize IGM ≤ layout.MinimumSize)) ∧
      getHeapHeaderSize IGM = IGM.PointerSize * 2 := by
  have hokE : ∀ e, e ∈ types.map ElementLayout.getIncomplete → e.Ty.KnownEmpty = false →
      e.Ty.IsFixed = true ∧ 0 < e.Ty.FixedAlignment ∧
        e.Ty.ABITypeAlignment ≤ e.Ty.FixedAlignment := by
    intro e he hk
    obtain ⟨t, ht, rfl⟩ := List.mem_map.mp he
    exact hok t ht hk
  obtain ⟨result, hloop⟩ := loop_returns strategy (types.map ElementLayout.getIncomplete)
    (if requiresHeapHeader layoutKind then
      ⟨getHeapHeaderSize IGM, IGM.PointerAlignment, [LLVMType.RefCountedStructTy]⟩
    else ⟨0, 1, []⟩) false hokE
  have hres : StructLayout.laidOut IGM layoutKind strategy types = some result := by
    rw [laidOut_eq]
    exact hloop
  have hadd : result.addedStorage = true ↔ ∃ t, t ∈ types ∧ t.KnownEmpty = false := by
    rw [loop_addedStorage strategy _ _ false result hloop]
    constructor
    · rintro (h | ⟨e, he, hk⟩)
      · cases h
      · obtain ⟨t, ht, rfl⟩ := List.mem_map.mp he
        exact ⟨t, ht, hk⟩
    · rintro ⟨t, ht, hk⟩
      exact Or.inr ⟨ElementLayout.getIncomplete t, List.mem_map.mpr ⟨t, ht, rfl⟩, hk⟩
  have hbuilder : (∀ t, t ∈ types → t.KnownEmpty = true) →
      result.Builder = (if requiresHeapHeader layoutKind then
        ⟨getHeapHeaderSize IGM, IGM.PointerAlignment, [LLVMType.RefCountedStructTy]⟩
      else ⟨0, 1, []⟩) := by
    intro hall
    obtain ⟨r2, h2, hb, -⟩ := loop_filter strategy _ _ false result hloop
    have hnil : (types.map ElementLayout.getIncomplete).filter (fun e => !e.Ty.KnownEmpty) =
        [] := by
      rw [List.filter_eq_nil_iff]
      intro e he
      obtain ⟨t, ht, rfl⟩ := List.mem_map.mp he
      simp [ElementLayout.getIncomplete, hall t ht]
    rw [hnil, loop_nil] at h2
    cases h2
    exact hb.symm
  cases hstored : result.addedStorage
  · have hall : ∀ t, t ∈ types → t.KnownEmpty = true := by
      intro t ht
      cases hk : t.KnownEmpty
      · have := hadd.mpr ⟨t, ht, hk⟩
        rw [hstored] at this
        cases this
      · rfl
    have hb := hbuilder hall
    have hempty : (!result.Builder.empty) = requiresHeapHeader layoutKind := by
      rw [hb]
      cases layoutKind <;> rfl
    obtain ⟨layout, hl, hal, hsz, helts⟩ := construct_of_no_storage IGM layoutKind strategy
      types typeToFill result hfill hres hstored hempty
    refine ⟨layout, result, hl, hres, helts, ?_, ?_, rfl⟩
    · intro _
      refine ⟨hsz, hal, ?_, ?_⟩
      · rintro rfl
        exact hb
      · rintro rfl
        exact hb
    · intro hex
      have := hadd.mpr hex
      rw [hstored] at this
      cases this
  · obtain ⟨layout, hl, hal, hsz, helts⟩ := construct_of_storage IGM layoutKind strategy
      types typeToFill result hfill hres hstored
    refine ⟨layout, result, hl, hres, helts, ?_, ?_, rfl⟩
    · intro hall
      obtain ⟨t, ht, hk⟩ := hadd.mp hstored
      rw [hall t ht] at hk
      cases hk
    · intro _
      refine ⟨hsz, hal, ?_⟩
      rintro rfl
      rw [hsz]
      exact (loop_bounds strategy _ _ false result hloop).1

/-- Witness of C20: a heap object with one known-empty element, and a heap object with a
word that fills a struct type without a body, for pointers of 8 bytes. -/
theorem structLayout_minimum_witness :
    (∃ layout, StructLayout.construct ⟨8, 8⟩ LayoutKind.HeapObject ()
        [⟨LLVMType.Storage 0, true, true, true, 0, 1, 1⟩] none = some layout ∧
      layout.MinimumSize = 0 ∧ layout.MinimumAlign = 1) ∧
    (∃ layout, StructLayout.construct ⟨8, 8⟩ LayoutKind.HeapObject ()
        [⟨LLVMType.Storage 0, false, true, true, 4, 4, 4⟩] (some ⟨7, none⟩) = some layout ∧
      layout.MinimumSize = 20 ∧ getHeapHeaderSize ⟨8, 8⟩ ≤ layout.MinimumSize) := by
  constructor
  · obtain ⟨layout, result, hl, -, -, hempty, -, -⟩ := structLayout_minimum ⟨8, 8⟩
      LayoutKind.HeapObject () [⟨LLVMType.Storage 0, true, true, true, 0, 1, 1⟩] none
      (fun type h => by cases h) (by decide)
    exact ⟨layout, hl, (hempty (by decide)).1, (hempty (by decide)).2.1⟩
  · obtain ⟨layout, result, hl, hres, -, -, hstored, -⟩ := structLayout_minimum ⟨8, 8⟩
      LayoutKind.HeapObject () [⟨LLVMType.Storage 0, false, true, true, 4, 4, 4⟩]
      (some ⟨7, none⟩) (fun type h => by cases h; rfl) (by decide)
    obtain ⟨hsz, -, hge⟩ := hstored ⟨_, List.mem_cons_self _ _, rfl⟩
    have hval : StructLayout.laidOut ⟨8, 8⟩ LayoutKind.HeapObject ()
        [⟨LLVMType.Storage 0, false, true, true, 4, 4, 4⟩] =
        some ⟨⟨20, 8, [LLVMType.RefCountedStructTy, LLVMType.Storage 0]⟩,
          [⟨ElementLayoutKind.Fixed, true, 16, 1,
            ⟨LLVMType.Storage 0, false, true, true, 4, 4, 4⟩⟩], true⟩ := by decide
    rw [hres] at hval
    cases hval
    exact ⟨layout, hl, hsz, hge rfl⟩

/-- The constructor has no result for a `typeToFill` that has a body already (the assertion
of line 65). -/
theorem construct_no_result :
    StructLayout.construct ⟨8, 8⟩ LayoutKind.HeapObject ()
      [⟨LLVMType.Storage 0, false, true, true, 4, 4, 4⟩] (some ⟨7, some []⟩) = none := by
  decide

end Layout
